import Mathlib

/-!
Checkers engine (board, move legality, move generation, alpha-beta search)

A shallow embedding of the rules/search core of `src/main.cpp`.

* A board is `vector<vector<char>>`: here a list of rows of characters.
  Indexing is modelled as a fallible read/write (`getCell`, `setCell`):
  an index outside the vector is `none`, so every function that touches the
  board returns an `Option`, and `none` stands for an out-of-range access.
* C++ `int` is modelled by `Int`.  All arithmetic done by the engine on
  coordinates happens after the range checks of `isValidSquare`, and scores
  are sums of at most 64 terms of size at most 3, so no wrap-around is
  involved; `/` and `%` are the truncating `Int.tdiv` and `Int.tmod`.
* The recursion of `alphaBeta` is driven by an explicit fuel argument that
  counts nested calls; `none` is returned when the fuel runs out.
-/

namespace Checkers

/-! ## Data model -/

def WHITE_PIECE : Char := 'w'
def WHITE_KING : Char := 'W'
def BLACK_PIECE : Char := 'b'
def BLACK_KING : Char := 'B'
def EMPTY_SQUARE : Char := Char.ofNat 32

def WHITE : Char := 'W'
def BLACK : Char := 'B'

/-- The value of `numeric_limits<int>::min()`. -/
def INT_MIN : Int := -2147483648
/-- The value of `numeric_limits<int>::max()`. -/
def INT_MAX : Int := 2147483647

structure Move where
  startRow : Int
  startCol : Int
  endRow : Int
  endCol : Int
  isCapture : Bool
  capturedPieces : List (Int × Int)
deriving DecidableEq

abbrev CheckersBoard := List (List Char)

/-- Read of `board[row][col]`; `none` when an index is out of range. -/
def getCell (board : CheckersBoard) (row col : Int) : Option Char :=
  if row < 0 ∨ col < 0 then none
  else
    match board[row.toNat]? with
    | none => none
    | some cells => cells[col.toNat]?

/-- Write `board[row][col] = v`; `none` when an index is out of range. -/
def setCell (board : CheckersBoard) (row col : Int) (v : Char) : Option CheckersBoard :=
  if row < 0 ∨ col < 0 then none
  else
    match board[row.toNat]? with
    | none => none
    | some cells =>
      if col.toNat < cells.length then
        some (board.set row.toNat (cells.set col.toNat v))
      else none

/-- The values taken by `for (int i = lo; i < hi; ++i)`. -/
def intRange (lo hi : Int) : List Int :=
  (List.range (hi - lo).toNat).map (fun (k : Nat) => lo + (k : Int))

/-- Shape of the boards the engine works on: 8 rows of 8 cells. -/
def is8x8 (board : CheckersBoard) : Prop :=
  board.length = 8 ∧ ∀ cells ∈ board, cells.length = 8

instance (board : CheckersBoard) : Decidable (is8x8 board) := by
  unfold is8x8; infer_instance

/-! ## Board construction -/

def initializeBoard : Option CheckersBoard := do
  let board : CheckersBoard := List.replicate 8 (List.replicate 8 EMPTY_SQUARE)
  let board ← (intRange 0 3).foldlM (fun board i =>
    (intRange 0 8).foldlM (fun board j =>
      if (i + j).tmod 2 ≠ 0 then setCell board i j BLACK_PIECE else some board) board) board
  let board ← (intRange 5 8).foldlM (fun board i =>
    (intRange 0 8).foldlM (fun board j =>
      if (i + j).tmod 2 ≠ 0 then setCell board i j WHITE_PIECE else some board) board) board
  return board

/-! ## Move legality -/

def isValidSquare (row col : Int) : Bool :=
  decide (row ≥ 0) && decide (row < 8) && decide (col ≥ 0) && decide (col < 8)
    && decide ((row + col).tmod 2 ≠ 0)

/-- The test `isCurrentPlayerPiece` that `isValidMove` and `generateLegalMoves`
both compute: a White man or king for `WHITE`, a Black one otherwise. -/
def isCurrentPlayerPiece (currentPlayer piece : Char) : Bool :=
  if currentPlayer = WHITE then
    (if piece = WHITE_PIECE ∨ piece = WHITE_KING then true else false)
  else
    (if piece = BLACK_PIECE ∨ piece = BLACK_KING then true else false)

/-- The block "Basic Capture" of `isValidMove` together with the final
`return false` it falls through to. -/
def captureCheck (board : CheckersBoard) (move : Move) (currentPlayer : Char)
    (rowDiff colDiff : Int) : Option Bool :=
  if rowDiff.natAbs = 2 ∧ colDiff.natAbs = 2 then
    let jumpedRow := move.startRow + rowDiff.tdiv 2
    let jumpedCol := move.startCol + colDiff.tdiv 2
    if isValidSquare jumpedRow jumpedCol then do
      let jumpedPiece ← getCell board jumpedRow jumpedCol
      if currentPlayer = WHITE then
        if jumpedPiece = BLACK_PIECE ∨ jumpedPiece = BLACK_KING then some true
        else some false
      else
        if jumpedPiece = WHITE_PIECE ∨ jumpedPiece = WHITE_KING then some true
        else some false
    else some false
  else some false

def isValidMove (board : CheckersBoard) (move : Move) (currentPlayer : Char) : Option Bool :=
  if !isValidSquare move.startRow move.startCol || !isValidSquare move.endRow move.endCol then
    some false
  else do
    let piece ← getCell board move.startRow move.startCol
    let targetPiece ← getCell board move.endRow move.endCol
    if !isCurrentPlayerPiece currentPlayer piece then some false
    else if targetPiece ≠ EMPTY_SQUARE then some false
    else
      let rowDiff := move.endRow - move.startRow
      let colDiff := move.endCol - move.startCol
      let manStep : Bool :=
        if piece = WHITE_PIECE then decide (rowDiff = -1 ∧ colDiff.natAbs = 1)
        else if piece = BLACK_PIECE then decide (rowDiff = 1 ∧ colDiff.natAbs = 1)
        else false
      if manStep then some true
      else if (piece = WHITE_KING ∨ piece = BLACK_KING)
          ∧ (rowDiff.natAbs = 1 ∧ colDiff.natAbs = 1) then some true
      else captureCheck board move currentPlayer rowDiff colDiff

/-! ## Move generation -/

/-- Body of the two direction loops of `generateLegalMoves` for one direction:
the pair is `(legalMoves, captureMoves)`. -/
def generateDirection (board : CheckersBoard) (currentPlayer piece : Char)
    (startRow startCol rowDir colDir : Int) (acc : List Move × List Move) :
    Option (List Move × List Move) := do
  let endRow := startRow + rowDir
  let endCol := startCol + colDir
  let singleStepMove : Move := ⟨startRow, startCol, endRow, endCol, false, []⟩
  let singleOk ← isValidMove board singleStepMove currentPlayer
  let legalMoves :=
    if singleOk then
      if (piece = WHITE_PIECE ∧ rowDir = -1) ∨ (piece = BLACK_PIECE ∧ rowDir = 1)
          ∨ piece = WHITE_KING ∨ piece = BLACK_KING then
        acc.1 ++ [singleStepMove]
      else acc.1
    else acc.1
  let endRow := startRow + rowDir * 2
  let endCol := startCol + colDir * 2
  let captureMove : Move := ⟨startRow, startCol, endRow, endCol, true, []⟩
  let captureOk ← isValidMove board captureMove currentPlayer
  let captureMoves :=
    if captureOk then
      let jumpedRow := startRow + rowDir
      let jumpedCol := startCol + colDir
      acc.2 ++ [⟨startRow, startCol, endRow, endCol, true, [] ++ [(jumpedRow, jumpedCol)]⟩]
    else acc.2
  return (legalMoves, captureMoves)

/-- Body of the two square loops of `generateLegalMoves` for one square. -/
def generateSquare (board : CheckersBoard) (currentPlayer : Char)
    (startRow startCol : Int) (acc : List Move × List Move) :
    Option (List Move × List Move) :=
  if !isValidSquare startRow startCol then some acc
  else do
    let piece ← getCell board startRow startCol
    if !isCurrentPlayerPiece currentPlayer piece then some acc
    else
      [-1, 1].foldlM (fun acc rowDir =>
        [-1, 1].foldlM (fun acc colDir =>
          generateDirection board currentPlayer piece startRow startCol rowDir colDir acc) acc) acc

def generateLegalMoves (board : CheckersBoard) (currentPlayer : Char) : Option (List Move) := do
  let acc ← (intRange 0 8).foldlM (fun acc startRow =>
    (intRange 0 8).foldlM (fun acc startCol =>
      generateSquare board currentPlayer startRow startCol acc) acc) ([], [])
  if !acc.2.isEmpty then return acc.2
  return acc.1

/-! ## Evaluation and move application -/

def evaluateBoard (board : CheckersBoard) : Option Int :=
  (intRange 0 8).foldlM (fun score i =>
    (intRange 0 8).foldlM (fun score j => do
      let c ← getCell board i j
      if c = WHITE_PIECE then some (score + 1)
      else if c = WHITE_KING then some (score + 3)
      else if c = BLACK_PIECE then some (score - 1)
      else if c = BLACK_KING then some (score - 3)
      else some score) score) 0

def applyMove (board : CheckersBoard) (move : Move) : Option CheckersBoard := do
  let newBoard := board
  let movedPiece ← getCell newBoard move.startRow move.startCol
  let newBoard ← setCell newBoard move.endRow move.endCol movedPiece
  let newBoard ← setCell newBoard move.startRow move.startCol EMPTY_SQUARE
  let newBoard ← move.capturedPieces.foldlM (fun newBoard captured =>
    setCell newBoard captured.1 captured.2 EMPTY_SQUARE) newBoard
  if movedPiece = WHITE_PIECE ∧ move.endRow = 0 then
    setCell newBoard move.endRow move.endCol WHITE_KING
  else if movedPiece = BLACK_PIECE ∧ move.endRow = 7 then
    setCell newBoard move.endRow move.endCol BLACK_KING
  else some newBoard

/-! ## Search -/

/-- The loop of the maximizing branch of `alphaBeta`; `child newBoard alpha beta`
is the recursive call on the board after the move. -/
def maxLoop (child : CheckersBoard → Int → Int → Option Int) (board : CheckersBoard) :
    List Move → Int → Int → Int → Option Int
  | [], best, _, _ => some best
  | move :: rest, best, alpha, beta => do
    let newBoard ← applyMove board move
    let value ← child newBoard alpha beta
    let best := max best value
    let alpha := max alpha best
    if beta ≤ alpha then some best
    else maxLoop child board rest best alpha beta

/-- The loop of the minimizing branch of `alphaBeta`. -/
def minLoop (child : CheckersBoard → Int → Int → Option Int) (board : CheckersBoard) :
    List Move → Int → Int → Int → Option Int
  | [], best, _, _ => some best
  | move :: rest, best, alpha, beta => do
    let newBoard ← applyMove board move
    let value ← child newBoard alpha beta
    let best := min best value
    let beta := min beta best
    if beta ≤ alpha then some best
    else minLoop child board rest best alpha beta

/-- The search `alphaBeta(board, depth, maxDepth, isMaximizingPlayer, alpha, beta)`.
The first argument bounds the nesting of calls: `none` when it is exhausted
(or when a board access is out of range). -/
def alphaBeta : Nat → CheckersBoard → Int → Int → Bool → Int → Int → Option Int
  | 0, _, _, _, _, _, _ => none
  | fuel + 1, board, depth, maxDepth, isMaximizingPlayer, alpha, beta => do
    let currentPlayer := if isMaximizingPlayer then WHITE else BLACK
    let possibleMoves ← generateLegalMoves board currentPlayer
    if depth = maxDepth ∨ possibleMoves.isEmpty then
      evaluateBoard board
    else if isMaximizingPlayer then
      maxLoop (fun newBoard alpha beta => alphaBeta fuel newBoard (depth + 1) maxDepth false alpha beta)
        board possibleMoves INT_MIN alpha beta
    else
      minLoop (fun newBoard alpha beta => alphaBeta fuel newBoard (depth + 1) maxDepth true alpha beta)
        board possibleMoves INT_MAX alpha beta

/-- The loop of `findBestMove`: the state is `(bestVal, bestMove, alpha)`. -/
def findBestLoop (fuel : Nat) (board : CheckersBoard) (maxDepth : Int) (beta : Int) :
    List Move → Int → Move → Int → Option Move
  | [], _, bestMove, _ => some bestMove
  | move :: rest, bestVal, bestMove, alpha => do
    let newBoard ← applyMove board move
    let moveVal ← alphaBeta fuel newBoard 0 maxDepth false alpha beta
    let (bestVal, bestMove) := if moveVal > bestVal then (moveVal, move) else (bestVal, bestMove)
    let alpha := max alpha moveVal
    findBestLoop fuel board maxDepth beta rest bestVal bestMove alpha

/-- The sentinel with which `findBestMove` starts. -/
def noMove : Move := ⟨-1, -1, -1, -1, false, []⟩

def findBestMove (fuel : Nat) (board : CheckersBoard) (maxDepth : Int) : Option Move := do
  let bestVal := INT_MIN
  let bestMove := noMove
  let alpha := INT_MIN
  let beta := INT_MAX
  let possibleMoves ← generateLegalMoves board WHITE
  findBestLoop fuel board maxDepth beta possibleMoves bestVal bestMove alpha

/-! ## Reference minimax (from the specification) -/

/-- Greatest element of a list, `none` on the empty list. -/
def maximumOf : List Int → Option Int
  | [] => none
  | x :: xs => some (xs.foldl max x)

/-- Least element of a list, `none` on the empty list. -/
def minimumOf : List Int → Option Int
  | [] => none
  | x :: xs => some (xs.foldl min x)

/-- The unpruned reference of the specification: `evaluateBoard board` when
`depth = maxDepth` or the side to move has no move, otherwise the maximum
(maximizing) or minimum (minimizing) over all generated moves of the value of
the position after the move.  Fuel as for `alphaBeta`. -/
def minimax : Nat → CheckersBoard → Int → Int → Bool → Option Int
  | 0, _, _, _, _ => none
  | fuel + 1, board, depth, maxDepth, maximizing => do
    let moves ← generateLegalMoves board (if maximizing then WHITE else BLACK)
    if depth = maxDepth ∨ moves.isEmpty then
      evaluateBoard board
    else do
      let values ← moves.mapM (fun m => do
        let newBoard ← applyMove board m
        minimax fuel newBoard (depth + 1) maxDepth (!maximizing))
      if maximizing then maximumOf values else minimumOf values

/-! ## Specification vocabulary and the lists built by the generator -/

/-- The piece is a man or king of `player`, as the engine tests it: a White
piece for `WHITE`, a Black piece for any other player value. -/
def ownedBy (player piece : Char) : Prop :=
  if player = WHITE then piece = WHITE_PIECE ∨ piece = WHITE_KING
  else piece = BLACK_PIECE ∨ piece = BLACK_KING

/-- The piece is a man or king of the side opposing `player`. -/
def opposes (player piece : Char) : Prop :=
  if player = WHITE then piece = BLACK_PIECE ∨ piece = BLACK_KING
  else piece = WHITE_PIECE ∨ piece = WHITE_KING

instance (player piece : Char) : Decidable (ownedBy player piece) := by
  unfold ownedBy; infer_instance

instance (player piece : Char) : Decidable (opposes player piece) := by
  unfold opposes; infer_instance

/-- One-step rule of `isValidMove`: one column aside, and one row in the
direction allowed to the piece (any direction for a king). -/
def stepRule (piece : Char) (m : Move) : Prop :=
  (m.endCol - m.startCol).natAbs = 1 ∧
    ((piece = WHITE_PIECE ∧ m.endRow - m.startRow = -1) ∨
     (piece = BLACK_PIECE ∧ m.endRow - m.startRow = 1) ∨
     ((piece = WHITE_KING ∨ piece = BLACK_KING) ∧ (m.endRow - m.startRow).natAbs = 1))

/-- Two-step rule of `isValidMove`: the jumped square is valid and holds a
piece of the opposing side. -/
def jumpRule (board : CheckersBoard) (player : Char) (m : Move) : Prop :=
  (m.endRow - m.startRow).natAbs = 2 ∧ (m.endCol - m.startCol).natAbs = 2 ∧
    isValidSquare (m.startRow + (m.endRow - m.startRow).tdiv 2)
      (m.startCol + (m.endCol - m.startCol).tdiv 2) = true ∧
    ∃ jumped, getCell board (m.startRow + (m.endRow - m.startRow).tdiv 2)
        (m.startCol + (m.endCol - m.startCol).tdiv 2) = some jumped ∧ opposes player jumped

/-- The forward-only filter that `generateLegalMoves` applies to one-step moves. -/
def directionAllowed (piece : Char) (rowDir : Int) : Prop :=
  (piece = WHITE_PIECE ∧ rowDir = -1) ∨ (piece = BLACK_PIECE ∧ rowDir = 1)
    ∨ piece = WHITE_KING ∨ piece = BLACK_KING

instance (piece : Char) (rowDir : Int) : Decidable (directionAllowed piece rowDir) := by
  unfold directionAllowed; infer_instance

/-- One-step move pushed to `legalMoves` for one start square and direction. -/
def stepMovesAt (board : CheckersBoard) (p piece : Char) (r c rd cd : Int) : List Move :=
  if isValidMove board ⟨r, c, r + rd, c + cd, false, []⟩ p = some true
      ∧ directionAllowed piece rd then
    [⟨r, c, r + rd, c + cd, false, []⟩]
  else []

/-- Capture move pushed to `captureMoves` for one start square and direction. -/
def jumpMovesAt (board : CheckersBoard) (p : Char) (r c rd cd : Int) : List Move :=
  if isValidMove board ⟨r, c, r + rd * 2, c + cd * 2, true, []⟩ p = some true then
    [⟨r, c, r + rd * 2, c + cd * 2, true, [(r + rd, c + cd)]⟩]
  else []

/-- All one-step moves pushed for one start square. -/
def squareSteps (board : CheckersBoard) (p : Char) (r c : Int) : List Move :=
  if isValidSquare r c = true then
    match getCell board r c with
    | some piece =>
      if ownedBy p piece then
        [-1, 1].flatMap (fun rd => [-1, 1].flatMap (fun cd => stepMovesAt board p piece r c rd cd))
      else []
    | none => []
  else []

/-- All capture moves pushed for one start square. -/
def squareJumps (board : CheckersBoard) (p : Char) (r c : Int) : List Move :=
  if isValidSquare r c = true then
    match getCell board r c with
    | some piece =>
      if ownedBy p piece then
        [-1, 1].flatMap (fun rd => [-1, 1].flatMap (fun cd => jumpMovesAt board p r c rd cd))
      else []
    | none => []
  else []

/-- The list `legalMoves` at the end of the loops. -/
def allSteps (board : CheckersBoard) (p : Char) : List Move :=
  (intRange 0 8).flatMap (fun r => (intRange 0 8).flatMap (fun c => squareSteps board p r c))

/-- The list `captureMoves` at the end of the loops. -/
def allJumps (board : CheckersBoard) (p : Char) : List Move :=
  (intRange 0 8).flatMap (fun r => (intRange 0 8).flatMap (fun c => squareJumps board p r c))

/-- A board written as eight strings of eight characters, one string per row. -/
def boardOfRows (rows : List String) : CheckersBoard :=
  rows.map String.toList

/-- The standard opening position. -/
def openingBoard : CheckersBoard :=
  boardOfRows [" b b b b", "b b b b ", " b b b b", "        ",
               "        ", "w w w w ", " w w w w", "w w w w "]

/-- A position with a capture available to White: the man on (5,2) can jump
the Black man on (4,3) and land on (3,4); a White king stands on (7,0). -/
def captureBoard : CheckersBoard :=
  boardOfRows ["        ", "        ", "        ", "        ",
               "   b    ", "  w     ", "        ", "W       "]

/-- A position in which White has four moves of unequal worth: the man on (4,3)
is captured by the Black man on (2,1) after its first move to (3,2) and is safe
after its second move to (3,4); the man on (6,5) is safe after its first move
to (5,4) and is captured by the Black man on (4,7) after its second move to
(5,6). -/
def tieBoard : CheckersBoard :=
  boardOfRows ["        ", "        ", " b      ", "        ",
               "   w   b", "        ", "     w  ", "        "]

/-- Relation between the value `v` returned by a search with window
`(alpha, beta)` and the unpruned value `t` of the same position: `v` is exact
strictly inside the window, an upper bound of `t` when it fails low and a
lower bound of `t` when it fails high. -/
def FailSoft (v t alpha beta : Int) : Prop :=
  (v ≤ alpha → t ≤ v) ∧ (alpha < v → v < beta → v = t) ∧ (beta ≤ v → v ≤ t)

/-- What the search needs to know about the position after a move: the move
can be applied, the position has an unpruned value `t` within `[lo, hi]`, and
the pruned search of it returns, for every window, a value within `[lo, hi]`
that is fail-soft related to `t`. -/
def ChildOk (child : CheckersBoard → Int → Int → Option Int)
    (tv : CheckersBoard → Option Int) (board : CheckersBoard) (lo hi : Int) (m : Move) : Prop :=
  ∃ nb t, applyMove board m = some nb ∧ tv nb = some t ∧ lo ≤ t ∧ t ≤ hi ∧
    ∀ a b : Int, a < b → ∃ v, child nb a b = some v ∧ lo ≤ v ∧ v ≤ hi ∧ FailSoft v t a b

/-- The unpruned minimax value of the position reached by a root move, as
`findBestMove` searches it: depth 0, Black (the minimizing side) to move. -/
def rootValue (fuel : Nat) (board : CheckersBoard) (maxDepth : Int) (m : Move) : Option Int :=
  (applyMove board m).bind (fun nb => minimax fuel nb 0 maxDepth false)

/-- The move `r` is the earliest move of `moves` whose root value is greatest:
every earlier move has a strictly smaller value and every later move has a
value that is at most equal. -/
def EarliestBest (fuel : Nat) (board : CheckersBoard) (maxDepth : Int)
    (moves : List Move) (r : Move) : Prop :=
  ∃ pre post t, moves = pre ++ r :: post ∧ rootValue fuel board maxDepth r = some t ∧
    (∀ x ∈ pre, ∃ tx, rootValue fuel board maxDepth x = some tx ∧ tx < t) ∧
    (∀ x ∈ post, ∃ tx, rootValue fuel board maxDepth x = some tx ∧ tx ≤ t)

/-- The piece that `applyMove` leaves on the destination square: the king of a
man that reached the far row (row 0 for White, row 7 for Black), otherwise the
moved piece itself. -/
def promoted (piece : Char) (endRow : Int) : Char :=
  if piece = WHITE_PIECE ∧ endRow = 0 then WHITE_KING
  else if piece = BLACK_PIECE ∧ endRow = 7 then BLACK_KING
  else piece

/-- A position in which the White man on (1,0) can step to (0,1) and be crowned. -/
def promotionBoard : CheckersBoard :=
  boardOfRows ["        ", "w       ", "        ", "        ",
               "        ", "        ", "        ", "        "]

/-- Every light square of the board (coordinates in `[0, 8)`, `row + col` even)
is empty. -/
def lightEmpty (board : CheckersBoard) : Prop :=
  ∀ r ∈ intRange 0 8, ∀ c ∈ intRange 0 8, (r + c) % 2 = 0 →
    getCell board r c = some EMPTY_SQUARE

instance (board : CheckersBoard) : Decidable (lightEmpty board) := by
  unfold lightEmpty; infer_instance

/-- Boards reachable from the initial board by moves that `isValidMove` accepts
(with captured squares inside the board) or that `generateLegalMoves` returns. -/
inductive Reachable : CheckersBoard → Prop
  | initial (board : CheckersBoard) : initializeBoard = some board → Reachable board
  | validated (board b2 : CheckersBoard) (m : Move) (player : Char) :
      Reachable board → isValidMove board m player = some true →
      (∀ sq ∈ m.capturedPieces, 0 ≤ sq.1 ∧ sq.1 < 8 ∧ 0 ≤ sq.2 ∧ sq.2 < 8) →
      applyMove board m = some b2 → Reachable b2
  | generated (board b2 : CheckersBoard) (m : Move) (player : Char) (moves : List Move) :
      Reachable board → generateLegalMoves board player = some moves → m ∈ moves →
      applyMove board m = some b2 → Reachable b2

/-- Number of squares of the board, over all its rows, that hold `piece`. -/
def countPiece (board : CheckersBoard) (piece : Char) : Nat :=
  (board.map (fun cells => cells.count piece)).sum

/-- Contribution of one square to `evaluateBoard`. -/
def pieceValue (c : Char) : Int :=
  if c = WHITE_PIECE then 1
  else if c = WHITE_KING then 3
  else if c = BLACK_PIECE then -1
  else if c = BLACK_KING then -3
  else 0

/-- The board of end-to-end scenario 2 as the specification states it: a White
man on (4,4), a Black man on (3,3), nothing else. -/
def scenarioBoard : CheckersBoard :=
  boardOfRows ["        ", "        ", "        ", "   b    ",
               "    w   ", "        ", "        ", "        "]

/-- Scenario 2 moved one column to the right, onto dark squares: a White man
on (4,5), a Black man on (3,4), nothing else. -/
def scenarioDarkBoard : CheckersBoard :=
  boardOfRows ["        ", "        ", "        ", "    b   ",
               "     w  ", "        ", "        ", "        "]

/-- A position with Black men on (2,1) and (6,1): the moves of the first are
generated first and keep the material at -2, the moves of the second crown it
and bring the material to -4. -/
def boundBoard : CheckersBoard :=
  boardOfRows ["        ", "        ", " b      ", "        ",
               "        ", "        ", " b      ", "        "]

/-- Addition of two `int` values with the overflow made explicit: `none` when
the sum is not representable in 32 bits. -/
def addChecked (a b : Int) : Option Int :=
  if INT_MIN ≤ a + b ∧ a + b ≤ INT_MAX then some (a + b) else none

/-- The loops of `evaluateBoard` with every update of `score` done by
`addChecked`: an overflow of the running score would make the result `none`. -/
def evaluateBoardChecked (board : CheckersBoard) : Option Int :=
  (intRange 0 8).foldlM (fun score i =>
    (intRange 0 8).foldlM (fun score j => do
      let c ← getCell board i j
      if c = WHITE_PIECE then addChecked score 1
      else if c = WHITE_KING then addChecked score 3
      else if c = BLACK_PIECE then addChecked score (-1)
      else if c = BLACK_KING then addChecked score (-3)
      else some score) score) 0

/-- Exchange of the colours of a piece; any other cell content is unchanged. -/
def swapColour (c : Char) : Char :=
  if c = WHITE_PIECE then BLACK_PIECE
  else if c = BLACK_PIECE then WHITE_PIECE
  else if c = WHITE_KING then BLACK_KING
  else if c = BLACK_KING then WHITE_KING
  else c

/-- The board turned by 180 degrees with the colours exchanged: on an 8x8 board
the cell (r,c) of the result is the cell (7-r,7-c) of the board, recoloured. -/
def flipBoard (board : CheckersBoard) : CheckersBoard :=
  board.reverse.map (fun cells => cells.reverse.map swapColour)

/-- The move with every coordinate `(r,c)` replaced by `(7-r,7-c)`. -/
def flipMove (m : Move) : Move :=
  ⟨7 - m.startRow, 7 - m.startCol, 7 - m.endRow, 7 - m.endCol, m.isCapture,
    m.capturedPieces.map (fun sq => (7 - sq.1, 7 - sq.2))⟩

/-- The other side: `BLACK` for `WHITE`, `WHITE` for any other player value. -/
def otherPlayer (player : Char) : Char :=
  if player = WHITE then BLACK else WHITE

/-- Number of pieces, men plus kings, of `player` (White for `WHITE`, Black
otherwise) on the board. -/
def piecesOf (board : CheckersBoard) (player : Char) : Nat :=
  if player = WHITE then countPiece board WHITE_PIECE + countPiece board WHITE_KING
  else countPiece board BLACK_PIECE + countPiece board BLACK_KING

/-- Number of pieces, men plus kings, of the side opposing `player`. -/
def piecesAgainst (board : CheckersBoard) (player : Char) : Nat :=
  if player = WHITE then countPiece board BLACK_PIECE + countPiece board BLACK_KING
  else countPiece board WHITE_PIECE + countPiece board WHITE_KING

/-! ## Ranges, squares and cells -/

theorem mem_intRange (lo hi x : Int) : x ∈ intRange lo hi ↔ lo ≤ x ∧ x < hi := by
  unfold intRange
  simp only [List.mem_map, List.mem_range]
  constructor
  · rintro ⟨k, hk, rfl⟩
    omega
  · intro h
    exact ⟨(x - lo).toNat, by omega, by omega⟩

theorem isValidSquare_iff (row col : Int) :
    isValidSquare row col = true ↔
      0 ≤ row ∧ row < 8 ∧ 0 ≤ col ∧ col < 8 ∧ (row + col) % 2 = 1 := by
  unfold isValidSquare
  simp only [Bool.and_eq_true, decide_eq_true_eq, ge_iff_le]
  constructor
  · rintro ⟨⟨⟨⟨h1, h2⟩, h3⟩, h4⟩, h5⟩
    rw [Int.tmod_eq_emod (by omega) (by omega)] at h5
    omega
  · rintro ⟨h1, h2, h3, h4, h5⟩
    refine ⟨⟨⟨⟨h1, h2⟩, h3⟩, h4⟩, ?_⟩
    rw [Int.tmod_eq_emod (by omega) (by omega)]
    omega

theorem getCell_some_of_is8x8 {board : CheckersBoard} (hb : is8x8 board) {row col : Int}
    (hr0 : 0 ≤ row) (hr : row < 8) (hc0 : 0 ≤ col) (hc : col < 8) :
    ∃ x, getCell board row col = some x := by
  unfold getCell
  have h1 : row.toNat < board.length := by rw [hb.1]; omega
  rw [if_neg (by omega)]
  rw [List.getElem?_eq_getElem h1]
  have h2 : (board[row.toNat]).length = 8 := hb.2 _ (List.getElem_mem _)
  have h3 : col.toNat < (board[row.toNat]).length := by rw [h2]; omega
  exact ⟨_, List.getElem?_eq_getElem h3⟩

theorem piece_ne :
    WHITE_PIECE ≠ WHITE_KING ∧ WHITE_PIECE ≠ BLACK_PIECE ∧ WHITE_PIECE ≠ BLACK_KING ∧
    WHITE_KING ≠ WHITE_PIECE ∧ WHITE_KING ≠ BLACK_PIECE ∧ WHITE_KING ≠ BLACK_KING ∧
    BLACK_PIECE ≠ WHITE_PIECE ∧ BLACK_PIECE ≠ WHITE_KING ∧ BLACK_PIECE ≠ BLACK_KING ∧
    BLACK_KING ≠ WHITE_PIECE ∧ BLACK_KING ≠ WHITE_KING ∧ BLACK_KING ≠ BLACK_PIECE := by
  decide

theorem piece_cases (c : Char) :
    c = WHITE_PIECE ∨ c = WHITE_KING ∨ c = BLACK_PIECE ∨ c = BLACK_KING ∨
      (c ≠ WHITE_PIECE ∧ c ≠ WHITE_KING ∧ c ≠ BLACK_PIECE ∧ c ≠ BLACK_KING) := by
  by_cases h1 : c = WHITE_PIECE
  · exact Or.inl h1
  by_cases h2 : c = WHITE_KING
  · exact Or.inr (Or.inl h2)
  by_cases h3 : c = BLACK_PIECE
  · exact Or.inr (Or.inr (Or.inl h3))
  by_cases h4 : c = BLACK_KING
  · exact Or.inr (Or.inr (Or.inr (Or.inl h4)))
  exact Or.inr (Or.inr (Or.inr (Or.inr ⟨h1, h2, h3, h4⟩)))

theorem isCurrentPlayerPiece_iff (p c : Char) :
    isCurrentPlayerPiece p c = true ↔ ownedBy p c := by
  unfold isCurrentPlayerPiece ownedBy
  by_cases hp : p = WHITE
  · simp only [hp, if_true]
    split_ifs with h <;> simp [h]
  · simp only [hp, if_false]
    split_ifs with h <;> simp [h]

theorem captureCheck_true_iff (board : CheckersBoard) (m : Move) (p : Char) (rd cd : Int) :
    captureCheck board m p rd cd = some true ↔
      rd.natAbs = 2 ∧ cd.natAbs = 2 ∧
        isValidSquare (m.startRow + rd.tdiv 2) (m.startCol + cd.tdiv 2) = true ∧
        ∃ jumped, getCell board (m.startRow + rd.tdiv 2) (m.startCol + cd.tdiv 2) = some jumped
          ∧ opposes p jumped := by
  unfold captureCheck opposes
  by_cases h1 : rd.natAbs = 2 ∧ cd.natAbs = 2
  · rw [if_pos h1]
    by_cases h2 : isValidSquare (m.startRow + rd.tdiv 2) (m.startCol + cd.tdiv 2) = true
    · simp only [h2, if_true, h1, true_and]
      cases hg : getCell board (m.startRow + rd.tdiv 2) (m.startCol + cd.tdiv 2) with
      | none => simp
      | some jp =>
        simp only [Option.bind_eq_bind, Option.some_bind, Option.some.injEq, exists_eq_left']
        by_cases hp : p = WHITE
        · simp only [hp, if_true]
          split_ifs with h <;> simp [h]
        · simp only [hp, if_false]
          split_ifs with h <;> simp [h]
    · simp [h2]
  · rw [if_neg h1]
    constructor
    · intro h; cases h
    · rintro ⟨a, b, _⟩; exact absurd ⟨a, b⟩ h1

theorem captureCheck_total {board : CheckersBoard} (hb : is8x8 board) (m : Move) (p : Char)
    (rd cd : Int) : ∃ r, captureCheck board m p rd cd = some r := by
  unfold captureCheck
  by_cases h1 : rd.natAbs = 2 ∧ cd.natAbs = 2
  · rw [if_pos h1]
    by_cases h2 : isValidSquare (m.startRow + rd.tdiv 2) (m.startCol + cd.tdiv 2) = true
    · have hj := (isValidSquare_iff _ _).1 h2
      obtain ⟨jp, hjp⟩ := getCell_some_of_is8x8 hb hj.1 hj.2.1 hj.2.2.1 hj.2.2.2.1
      simp only [h2, if_true, hjp, Option.bind_eq_bind, Option.some_bind]
      split_ifs <;> exact ⟨_, rfl⟩
    · simp [h2]
  · rw [if_neg h1]; exact ⟨_, rfl⟩

/-- What `isValidMove` computes once both squares are valid and their contents are known. -/
theorem isValidMove_of_cells {board : CheckersBoard} {m : Move} {p piece tgt : Char}
    (hs : isValidSquare m.startRow m.startCol = true)
    (he : isValidSquare m.endRow m.endCol = true)
    (hp : getCell board m.startRow m.startCol = some piece)
    (ht : getCell board m.endRow m.endCol = some tgt) :
    isValidMove board m p =
      if ¬ ownedBy p piece then some false
      else if tgt ≠ EMPTY_SQUARE then some false
      else if (m.endCol - m.startCol).natAbs = 1 ∧
          ((piece = WHITE_PIECE ∧ m.endRow - m.startRow = -1) ∨
           (piece = BLACK_PIECE ∧ m.endRow - m.startRow = 1) ∨
           ((piece = WHITE_KING ∨ piece = BLACK_KING) ∧ (m.endRow - m.startRow).natAbs = 1))
        then some true
      else captureCheck board m p (m.endRow - m.startRow) (m.endCol - m.startCol) := by
  unfold isValidMove
  simp only [hs, he, hp, ht, Bool.not_true, Bool.or_self, Bool.false_eq_true, if_false,
    Option.bind_eq_bind, Option.some_bind]
  by_cases ho : ownedBy p piece
  · have ho2 := (isCurrentPlayerPiece_iff p piece).2 ho
    simp only [ho2, Bool.not_true, Bool.false_eq_true, if_false, ho, not_true_eq_false]
    by_cases htg : tgt = EMPTY_SQUARE
    · simp only [htg, ne_eq, not_true_eq_false, if_false]
      rcases piece_cases piece with h | h | h | h | ⟨n1, n2, n3, n4⟩
      · subst h
        simp only [piece_ne, if_true, if_false, false_or, false_and, or_false, true_and,
          decide_eq_true_eq]
        by_cases hc : m.endRow - m.startRow = -1 ∧ (m.endCol - m.startCol).natAbs = 1
        · rw [if_pos hc, if_pos ⟨hc.2, hc.1⟩]
        · rw [if_neg hc, if_neg (fun h => hc ⟨h.2, h.1⟩)]
      · subst h
        simp only [piece_ne, if_true, if_false, false_or, false_and, or_false, true_and,
          decide_eq_true_eq, true_or, Bool.false_eq_true]
        by_cases hc : (m.endRow - m.startRow).natAbs = 1 ∧ (m.endCol - m.startCol).natAbs = 1
        · rw [if_pos hc, if_pos ⟨hc.2, hc.1⟩]
        · rw [if_neg hc, if_neg (fun h => hc ⟨h.2, h.1⟩)]
      · subst h
        simp only [piece_ne, if_true, if_false, false_or, false_and, or_false, true_and,
          decide_eq_true_eq]
        by_cases hc : m.endRow - m.startRow = 1 ∧ (m.endCol - m.startCol).natAbs = 1
        · rw [if_pos hc, if_pos ⟨hc.2, hc.1⟩]
        · rw [if_neg hc, if_neg (fun h => hc ⟨h.2, h.1⟩)]
      · subst h
        simp only [piece_ne, if_true, if_false, false_or, false_and, or_false, true_and,
          decide_eq_true_eq, or_true, Bool.false_eq_true]
        by_cases hc : (m.endRow - m.startRow).natAbs = 1 ∧ (m.endCol - m.startCol).natAbs = 1
        · rw [if_pos hc, if_pos ⟨hc.2, hc.1⟩]
        · rw [if_neg hc, if_neg (fun h => hc ⟨h.2, h.1⟩)]
      · simp [n1, n2, n3, n4]
    · simp [htg]
  · have ho2 : isCurrentPlayerPiece p piece = false := by
      cases hc : isCurrentPlayerPiece p piece with
      | false => rfl
      | true => exact absurd ((isCurrentPlayerPiece_iff p piece).1 hc) ho
    simp [ho2, ho]

theorem isValidMove_total {board : CheckersBoard} (hb : is8x8 board) (m : Move) (p : Char) :
    ∃ r, isValidMove board m p = some r := by
  by_cases hs : isValidSquare m.startRow m.startCol = true
  · by_cases he : isValidSquare m.endRow m.endCol = true
    · have hs2 := (isValidSquare_iff _ _).1 hs
      have he2 := (isValidSquare_iff _ _).1 he
      obtain ⟨piece, hp⟩ := getCell_some_of_is8x8 hb hs2.1 hs2.2.1 hs2.2.2.1 hs2.2.2.2.1
      obtain ⟨tgt, ht⟩ := getCell_some_of_is8x8 hb he2.1 he2.2.1 he2.2.2.1 he2.2.2.2.1
      rw [isValidMove_of_cells hs he hp ht]
      split_ifs
      all_goals first
        | exact ⟨_, rfl⟩
        | exact captureCheck_total hb m p _ _
    · unfold isValidMove; simp [he]
  · unfold isValidMove; simp [hs]

theorem isValidMove_true_iff (board : CheckersBoard) (m : Move) (p : Char) :
    isValidMove board m p = some true ↔
      isValidSquare m.startRow m.startCol = true ∧ isValidSquare m.endRow m.endCol = true ∧
      ∃ piece, getCell board m.startRow m.startCol = some piece ∧ ownedBy p piece ∧
        getCell board m.endRow m.endCol = some EMPTY_SQUARE ∧
        (stepRule piece m ∨ jumpRule board p m) := by
  by_cases hs : isValidSquare m.startRow m.startCol = true
  · by_cases he : isValidSquare m.endRow m.endCol = true
    · cases hp : getCell board m.startRow m.startCol with
      | none => unfold isValidMove; simp [hs, he, hp]
      | some piece =>
        cases ht : getCell board m.endRow m.endCol with
        | none => unfold isValidMove; simp [hs, he, hp, ht]
        | some tgt =>
          rw [isValidMove_of_cells hs he hp ht]
          simp only [hs, he, true_and, Option.some.injEq, exists_eq_left']
          by_cases ho : ownedBy p piece
          · by_cases htg : tgt = EMPTY_SQUARE
            · subst htg
              simp only [ho, not_true_eq_false, if_false, ne_eq, true_and]
              by_cases hst : stepRule piece m
              · have hst2 := hst
                unfold stepRule at hst2
                rw [if_pos hst2]
                simp [hst]
              · have hst2 := hst
                unfold stepRule at hst2
                rw [if_neg hst2, captureCheck_true_iff]
                unfold jumpRule
                simp [hst]
            · simp [ho, htg]
          · simp [ho]
    · unfold isValidMove; simp [he]
  · unfold isValidMove; simp [hs]

/-! ## Move generation: the lists that the loops build -/

theorem foldlM_append_pair {α β γ : Type} (f : List β × List γ → α → Option (List β × List γ))
    (L : α → List β) (C : α → List γ) (xs : List α)
    (h : ∀ x ∈ xs, ∀ acc, f acc x = some (acc.1 ++ L x, acc.2 ++ C x))
    (acc : List β × List γ) :
    xs.foldlM f acc = some (acc.1 ++ xs.flatMap L, acc.2 ++ xs.flatMap C) := by
  induction xs generalizing acc with
  | nil => simp
  | cons x xs ih =>
    rw [List.foldlM_cons, h x (List.mem_cons_self _ _)]
    simp only [Option.bind_eq_bind, Option.some_bind]
    rw [ih (fun y hy => h y (List.mem_cons_of_mem _ hy))]
    simp [List.flatMap_cons, List.append_assoc]

theorem generateDirection_eq {board : CheckersBoard} (hb : is8x8 board) (p piece : Char)
    (r c rd cd : Int) (acc : List Move × List Move) :
    generateDirection board p piece r c rd cd acc =
      some (acc.1 ++ stepMovesAt board p piece r c rd cd,
            acc.2 ++ jumpMovesAt board p r c rd cd) := by
  unfold generateDirection stepMovesAt jumpMovesAt directionAllowed
  obtain ⟨v1, h1⟩ := isValidMove_total hb ⟨r, c, r + rd, c + cd, false, []⟩ p
  obtain ⟨v2, h2⟩ := isValidMove_total hb ⟨r, c, r + rd * 2, c + cd * 2, true, []⟩ p
  simp only [h1, h2, Option.bind_eq_bind, Option.some_bind, Option.some.injEq, pure,
    List.nil_append]
  cases v1 <;> cases v2 <;> simp <;> split_ifs <;> simp

theorem generateSquare_eq {board : CheckersBoard} (hb : is8x8 board) (p : Char)
    (r c : Int) (acc : List Move × List Move) :
    generateSquare board p r c acc =
      some (acc.1 ++ squareSteps board p r c, acc.2 ++ squareJumps board p r c) := by
  unfold generateSquare squareSteps squareJumps
  by_cases hv : isValidSquare r c = true
  · have hv2 := (isValidSquare_iff _ _).1 hv
    obtain ⟨piece, hp⟩ := getCell_some_of_is8x8 hb hv2.1 hv2.2.1 hv2.2.2.1 hv2.2.2.2.1
    simp only [hv, hp, Bool.not_true, Bool.false_eq_true, if_false, if_true,
      Option.bind_eq_bind, Option.some_bind]
    by_cases ho : ownedBy p piece
    · have ho2 := (isCurrentPlayerPiece_iff p piece).2 ho
      simp only [ho2, ho, Bool.not_true, Bool.false_eq_true, if_false, if_true]
      exact foldlM_append_pair _ _ _ _ (fun rd _ acc1 =>
        foldlM_append_pair _ _ _ _ (fun cd _ acc2 =>
          generateDirection_eq hb p piece r c rd cd acc2) acc1) acc
    · have ho2 : isCurrentPlayerPiece p piece = false := by
        cases hc : isCurrentPlayerPiece p piece with
        | false => rfl
        | true => exact absurd ((isCurrentPlayerPiece_iff p piece).1 hc) ho
      simp [ho2, ho]
  · simp [hv]

theorem generateRow_eq {board : CheckersBoard} (hb : is8x8 board) (p : Char) (r : Int)
    (cols : List Int) (acc : List Move × List Move) :
    cols.foldlM (fun acc startCol => generateSquare board p r startCol acc) acc
      = some (acc.1 ++ cols.flatMap (fun c => squareSteps board p r c),
              acc.2 ++ cols.flatMap (fun c => squareJumps board p r c)) :=
  foldlM_append_pair _ _ _ _ (fun c _ acc2 => generateSquare_eq hb p r c acc2) acc

theorem generateRows_eq {board : CheckersBoard} (hb : is8x8 board) (p : Char)
    (rows cols : List Int) (acc : List Move × List Move) :
    rows.foldlM (fun acc startRow =>
      cols.foldlM (fun acc startCol =>
        generateSquare board p startRow startCol acc) acc) acc
      = some (acc.1 ++ rows.flatMap (fun r => cols.flatMap (fun c => squareSteps board p r c)),
              acc.2 ++ rows.flatMap (fun r => cols.flatMap (fun c => squareJumps board p r c))) := by
  induction rows generalizing acc with
  | nil => simp
  | cons r rows ih =>
    rw [List.foldlM_cons, generateRow_eq hb p r cols acc]
    simp only [Option.bind_eq_bind, Option.some_bind]
    rw [ih]
    simp [List.flatMap_cons, List.append_assoc]

theorem generateRows_eq_nil {board : CheckersBoard} (hb : is8x8 board) (p : Char)
    (rows cols : List Int) :
    rows.foldlM (fun acc startRow =>
      cols.foldlM (fun acc startCol =>
        generateSquare board p startRow startCol acc) acc) ([], [])
      = some (rows.flatMap (fun r => cols.flatMap (fun c => squareSteps board p r c)),
              rows.flatMap (fun r => cols.flatMap (fun c => squareJumps board p r c))) := by
  rw [generateRows_eq hb p rows cols]
  simp

/-- The mandatory-capture selection at the end of `generateLegalMoves`. -/
theorem selectMoves_eq (steps jumps : List Move) :
    ((some (steps, jumps) : Option (List Move × List Move)) >>= fun acc =>
        if (!acc.2.isEmpty) = true then pure acc.2 else pure acc.1)
      = some (if jumps.isEmpty then steps else jumps) := by
  cases jumps with
  | nil => rfl
  | cons x xs => rfl

theorem generateLegalMoves_eq {board : CheckersBoard} (hb : is8x8 board) (p : Char) :
    generateLegalMoves board p =
      some (if (allJumps board p).isEmpty then allSteps board p else allJumps board p) := by
  unfold generateLegalMoves allSteps allJumps
  rw [generateRows_eq_nil hb p]
  generalize (intRange 0 8).flatMap
    (fun r => (intRange 0 8).flatMap (fun c => squareSteps board p r c)) = steps
  generalize (intRange 0 8).flatMap
    (fun r => (intRange 0 8).flatMap (fun c => squareJumps board p r c)) = jumps
  exact selectMoves_eq steps jumps

theorem mem_dirs (d : Int) : d ∈ ([-1, 1] : List Int) ↔ d = -1 ∨ d = 1 := by
  simp

theorem mem_squareJumps (board : CheckersBoard) (p : Char) (r c : Int) (m : Move) :
    m ∈ squareJumps board p r c ↔
      ∃ rd cd, (rd = -1 ∨ rd = 1) ∧ (cd = -1 ∨ cd = 1) ∧
        isValidMove board ⟨r, c, r + rd * 2, c + cd * 2, true, []⟩ p = some true ∧
        m = ⟨r, c, r + rd * 2, c + cd * 2, true, [(r + rd, c + cd)]⟩ := by
  constructor
  · intro h
    unfold squareJumps at h
    split_ifs at h with hv
    · split at h
      · split_ifs at h with ho
        · rw [List.mem_flatMap] at h
          obtain ⟨rd, hrd, h⟩ := h
          rw [List.mem_flatMap] at h
          obtain ⟨cd, hcd, h⟩ := h
          unfold jumpMovesAt at h
          split_ifs at h with hval
          · rw [List.mem_singleton] at h
            exact ⟨rd, cd, (mem_dirs rd).1 hrd, (mem_dirs cd).1 hcd, hval, h⟩
          · cases h
        · cases h
      · cases h
    · cases h
  · rintro ⟨rd, cd, hrd, hcd, hval, rfl⟩
    obtain ⟨hs, -, piece, hp, ho, -⟩ := (isValidMove_true_iff _ _ _).1 hval
    simp only at hs hp
    unfold squareJumps
    rw [if_pos hs, hp]
    simp only [ho, if_true]
    rw [List.mem_flatMap]
    refine ⟨rd, (mem_dirs rd).2 hrd, ?_⟩
    rw [List.mem_flatMap]
    refine ⟨cd, (mem_dirs cd).2 hcd, ?_⟩
    unfold jumpMovesAt
    rw [if_pos hval]
    exact List.mem_singleton.2 rfl

theorem mem_squareSteps (board : CheckersBoard) (p : Char) (r c : Int) (m : Move) :
    m ∈ squareSteps board p r c ↔
      ∃ rd cd piece, (rd = -1 ∨ rd = 1) ∧ (cd = -1 ∨ cd = 1) ∧
        getCell board r c = some piece ∧
        isValidMove board ⟨r, c, r + rd, c + cd, false, []⟩ p = some true ∧
        directionAllowed piece rd ∧
        m = ⟨r, c, r + rd, c + cd, false, []⟩ := by
  constructor
  · intro h
    unfold squareSteps at h
    split_ifs at h with hv
    · split at h
      · rename_i piece hp
        split_ifs at h with ho
        · rw [List.mem_flatMap] at h
          obtain ⟨rd, hrd, h⟩ := h
          rw [List.mem_flatMap] at h
          obtain ⟨cd, hcd, h⟩ := h
          unfold stepMovesAt at h
          split_ifs at h with hval
          · rw [List.mem_singleton] at h
            exact ⟨rd, cd, piece, (mem_dirs rd).1 hrd, (mem_dirs cd).1 hcd, hp, hval.1, hval.2, h⟩
          · cases h
        · cases h
      · cases h
    · cases h
  · rintro ⟨rd, cd, piece, hrd, hcd, hp, hval, hdir, rfl⟩
    obtain ⟨hs, -, piece2, hp2, ho, -⟩ := (isValidMove_true_iff _ _ _).1 hval
    simp only at hs hp2
    rw [hp] at hp2
    cases hp2
    unfold squareSteps
    rw [if_pos hs, hp]
    simp only [ho, if_true]
    rw [List.mem_flatMap]
    refine ⟨rd, (mem_dirs rd).2 hrd, ?_⟩
    rw [List.mem_flatMap]
    refine ⟨cd, (mem_dirs cd).2 hcd, ?_⟩
    unfold stepMovesAt
    rw [if_pos ⟨hval, hdir⟩]
    exact List.mem_singleton.2 rfl

theorem mem_allJumps (board : CheckersBoard) (p : Char) (m : Move) :
    m ∈ allJumps board p ↔
      ∃ r c rd cd, (rd = -1 ∨ rd = 1) ∧ (cd = -1 ∨ cd = 1) ∧
        isValidMove board ⟨r, c, r + rd * 2, c + cd * 2, true, []⟩ p = some true ∧
        m = ⟨r, c, r + rd * 2, c + cd * 2, true, [(r + rd, c + cd)]⟩ := by
  unfold allJumps
  constructor
  · intro h
    rw [List.mem_flatMap] at h
    obtain ⟨r, -, h⟩ := h
    rw [List.mem_flatMap] at h
    obtain ⟨c, -, h⟩ := h
    exact ⟨r, c, (mem_squareJumps board p r c m).1 h⟩
  · rintro ⟨r, c, h⟩
    obtain ⟨rd, cd, hrd, hcd, hval, hm⟩ := h
    obtain ⟨hs, -⟩ := (isValidMove_true_iff _ _ _).1 hval
    have hs2 := (isValidSquare_iff _ _).1 hs
    simp only at hs2
    rw [List.mem_flatMap]
    refine ⟨r, (mem_intRange 0 8 r).2 ⟨hs2.1, hs2.2.1⟩, ?_⟩
    rw [List.mem_flatMap]
    exact ⟨c, (mem_intRange 0 8 c).2 ⟨hs2.2.2.1, hs2.2.2.2.1⟩,
      (mem_squareJumps board p r c m).2 ⟨rd, cd, hrd, hcd, hval, hm⟩⟩

theorem mem_allSteps (board : CheckersBoard) (p : Char) (m : Move) :
    m ∈ allSteps board p ↔
      ∃ r c rd cd piece, (rd = -1 ∨ rd = 1) ∧ (cd = -1 ∨ cd = 1) ∧
        getCell board r c = some piece ∧
        isValidMove board ⟨r, c, r + rd, c + cd, false, []⟩ p = some true ∧
        directionAllowed piece rd ∧
        m = ⟨r, c, r + rd, c + cd, false, []⟩ := by
  unfold allSteps
  constructor
  · intro h
    rw [List.mem_flatMap] at h
    obtain ⟨r, -, h⟩ := h
    rw [List.mem_flatMap] at h
    obtain ⟨c, -, h⟩ := h
    exact ⟨r, c, (mem_squareSteps board p r c m).1 h⟩
  · rintro ⟨r, c, h⟩
    obtain ⟨rd, cd, piece, hrd, hcd, hp, hval, hdir, hm⟩ := h
    obtain ⟨hs, -⟩ := (isValidMove_true_iff _ _ _).1 hval
    have hs2 := (isValidSquare_iff _ _).1 hs
    simp only at hs2
    rw [List.mem_flatMap]
    refine ⟨r, (mem_intRange 0 8 r).2 ⟨hs2.1, hs2.2.1⟩, ?_⟩
    rw [List.mem_flatMap]
    exact ⟨c, (mem_intRange 0 8 c).2 ⟨hs2.2.2.1, hs2.2.2.2.1⟩,
      (mem_squareSteps board p r c m).2 ⟨rd, cd, piece, hrd, hcd, hp, hval, hdir, hm⟩⟩

/-! ## Consequences for generated moves -/

theorem isValidMove_coords (board : CheckersBoard) (m : Move) (p : Char)
    (cap : Bool) (caps : List (Int × Int)) :
    isValidMove board ⟨m.startRow, m.startCol, m.endRow, m.endCol, cap, caps⟩ p
      = isValidMove board m p := rfl

theorem isValidMove_coords_eq (board : CheckersBoard) (p : Char) {m m2 : Move}
    (h1 : m2.startRow = m.startRow) (h2 : m2.startCol = m.startCol)
    (h3 : m2.endRow = m.endRow) (h4 : m2.endCol = m.endCol) :
    isValidMove board m2 p = isValidMove board m p := by
  rw [← isValidMove_coords board m p m2.isCapture m2.capturedPieces, ← h1, ← h2, ← h3, ← h4]

/-- A legal move is one or two rows long. -/
theorem rowDiff_of_valid {board : CheckersBoard} {m : Move} {p : Char}
    (h : isValidMove board m p = some true) :
    ((m.endRow - m.startRow).natAbs = 1 ∧ (m.endCol - m.startCol).natAbs = 1) ∨
    ((m.endRow - m.startRow).natAbs = 2 ∧ (m.endCol - m.startCol).natAbs = 2) := by
  obtain ⟨-, -, piece, -, -, -, hr⟩ := (isValidMove_true_iff _ _ _).1 h
  rcases hr with hst | hj
  · left
    obtain ⟨hc, hrow⟩ := hst
    refine ⟨?_, hc⟩
    rcases hrow with ⟨-, h1⟩ | ⟨-, h1⟩ | ⟨-, h1⟩ <;> omega
  · right
    exact ⟨hj.1, hj.2.1⟩

theorem valid_of_mem_allJumps {board : CheckersBoard} {p : Char} {m : Move}
    (h : m ∈ allJumps board p) :
    isValidMove board m p = some true ∧ m.isCapture = true ∧
      (m.endRow - m.startRow).natAbs = 2 ∧
      m.capturedPieces = [(m.startRow + (m.endRow - m.startRow).tdiv 2,
        m.startCol + (m.endCol - m.startCol).tdiv 2)] := by
  obtain ⟨r, c, rd, cd, hrd, hcd, hval, rfl⟩ := (mem_allJumps board p m).1 h
  refine ⟨hval, rfl, ?_, ?_⟩
  · simp only
    omega
  · simp only
    have e1 : (r + rd * 2 - r).tdiv 2 = rd := by
      rcases hrd with h | h <;> subst h <;>
        simp only [show ∀ x : Int, r + x - r = x from fun x => by omega] <;> decide
    have e2 : (c + cd * 2 - c).tdiv 2 = cd := by
      rcases hcd with h | h <;> subst h <;>
        simp only [show ∀ x : Int, c + x - c = x from fun x => by omega] <;> decide
    rw [e1, e2]

theorem valid_of_mem_allSteps {board : CheckersBoard} {p : Char} {m : Move}
    (h : m ∈ allSteps board p) :
    isValidMove board m p = some true ∧ m.isCapture = false ∧
      (m.endRow - m.startRow).natAbs = 1 ∧ m.capturedPieces = [] := by
  obtain ⟨r, c, rd, cd, piece, hrd, hcd, -, hval, -, rfl⟩ := (mem_allSteps board p m).1 h
  refine ⟨hval, rfl, ?_, rfl⟩
  simp only
  omega

theorem jump_mem_of_valid {board : CheckersBoard} {p : Char} {m : Move}
    (h : isValidMove board m p = some true) (h2 : (m.endRow - m.startRow).natAbs = 2) :
    (⟨m.startRow, m.startCol, m.endRow, m.endCol, true,
      [(m.startRow + (m.endRow - m.startRow).tdiv 2,
        m.startCol + (m.endCol - m.startCol).tdiv 2)]⟩ : Move) ∈ allJumps board p := by
  have hc2 : (m.endCol - m.startCol).natAbs = 2 := by
    rcases rowDiff_of_valid h with ⟨h1, -⟩ | ⟨-, h1⟩
    · omega
    · exact h1
  rw [mem_allJumps]
  refine ⟨m.startRow, m.startCol, (m.endRow - m.startRow).tdiv 2,
    (m.endCol - m.startCol).tdiv 2, ?_, ?_, ?_, ?_⟩
  · have : m.endRow - m.startRow = 2 ∨ m.endRow - m.startRow = -2 := by omega
    rcases this with e | e <;> rw [e] <;> decide
  · have : m.endCol - m.startCol = 2 ∨ m.endCol - m.startCol = -2 := by omega
    rcases this with e | e <;> rw [e] <;> decide
  · rw [← h]
    apply isValidMove_coords_eq
    · rfl
    · rfl
    · show m.startRow + (m.endRow - m.startRow).tdiv 2 * 2 = m.endRow
      have : m.endRow - m.startRow = 2 ∨ m.endRow - m.startRow = -2 := by omega
      rcases this with e | e <;> rw [e] <;> simp <;> omega
    · show m.startCol + (m.endCol - m.startCol).tdiv 2 * 2 = m.endCol
      have : m.endCol - m.startCol = 2 ∨ m.endCol - m.startCol = -2 := by omega
      rcases this with e | e <;> rw [e] <;> simp <;> omega
  · have e1 : m.startRow + (m.endRow - m.startRow).tdiv 2 * 2 = m.endRow := by
      have : m.endRow - m.startRow = 2 ∨ m.endRow - m.startRow = -2 := by omega
      rcases this with e | e <;> rw [e] <;> simp <;> omega
    have e2 : m.startCol + (m.endCol - m.startCol).tdiv 2 * 2 = m.endCol := by
      have : m.endCol - m.startCol = 2 ∨ m.endCol - m.startCol = -2 := by omega
      rcases this with e | e <;> rw [e] <;> simp <;> omega
    rw [e1, e2]

theorem step_mem_of_valid {board : CheckersBoard} {p : Char} {m : Move}
    (h : isValidMove board m p = some true) (h1 : (m.endRow - m.startRow).natAbs = 1) :
    (⟨m.startRow, m.startCol, m.endRow, m.endCol, false, []⟩ : Move) ∈ allSteps board p := by
  obtain ⟨-, -, piece, hp, -, -, hr⟩ := (isValidMove_true_iff _ _ _).1 h
  have hst : stepRule piece m := by
    rcases hr with hst | hj
    · exact hst
    · have := hj.1
      omega
  obtain ⟨hc, hrow⟩ := hst
  rw [mem_allSteps]
  have er : m.startRow + (m.endRow - m.startRow) = m.endRow := by omega
  have ec : m.startCol + (m.endCol - m.startCol) = m.endCol := by omega
  refine ⟨m.startRow, m.startCol, m.endRow - m.startRow, m.endCol - m.startCol, piece,
    by omega, by omega, hp, ?_, ?_, ?_⟩
  · rw [← h]
    exact isValidMove_coords_eq board p rfl rfl er ec
  · unfold directionAllowed
    rcases hrow with ⟨a, b⟩ | ⟨a, b⟩ | ⟨a, -⟩
    · exact Or.inl ⟨a, b⟩
    · exact Or.inr (Or.inl ⟨a, b⟩)
    · rcases a with a | a
      · exact Or.inr (Or.inr (Or.inl a))
      · exact Or.inr (Or.inr (Or.inr a))
  · rw [er, ec]


/-! ## Claims on move legality and move generation -/

/-- C10. On an 8x8 board `isValidMove` always returns a truth value (no board
access is out of range), and it returns `false` whenever the start or the end
square fails `isValidSquare`, the start square does not hold a man or king
of the player, or the end square is not empty; `isValidSquare` holds exactly
of the squares with both coordinates in `[0, 8)` and `row + col` odd. -/
theorem isValidMove_rejects_malformed (board : CheckersBoard) (hb : is8x8 board)
    (m : Move) (player : Char) :
    (∃ r, isValidMove board m player = some r) ∧
    ((isValidSquare m.startRow m.startCol = false ∨ isValidSquare m.endRow m.endCol = false ∨
        (¬ ∃ piece, getCell board m.startRow m.startCol = some piece ∧ ownedBy player piece) ∨
        getCell board m.endRow m.endCol ≠ some EMPTY_SQUARE) →
      isValidMove board m player = some false) ∧
    (∀ row col : Int, isValidSquare row col = true ↔
      0 ≤ row ∧ row < 8 ∧ 0 ≤ col ∧ col < 8 ∧ (row + col) % 2 = 1) := by
  obtain ⟨r, hr⟩ := isValidMove_total hb m player
  refine ⟨⟨r, hr⟩, fun hbad => ?_, isValidSquare_iff⟩
  cases r with
  | false => exact hr
  | true =>
    exfalso
    obtain ⟨hs, he, piece, hp, ho, ht, -⟩ := (isValidMove_true_iff _ _ _).1 hr
    rcases hbad with h | h | h | h
    · rw [hs] at h; cases h
    · rw [he] at h; cases h
    · exact h ⟨piece, hp, ho⟩
    · exact h ht

theorem isValidMove_rejects_malformed_witness :
    isValidMove openingBoard ⟨5, 0, 4, -1, false, []⟩ WHITE = some false :=
  (isValidMove_rejects_malformed openingBoard (by decide) ⟨5, 0, 4, -1, false, []⟩ WHITE).2.1
    (Or.inr (Or.inl (by decide)))

/-- C8. For a one-step move between valid squares, from a square holding a
piece of the player to an empty square, `isValidMove` answers `true` exactly
when the mover is a king, or a White man moving to row `startRow - 1`, or a
Black man moving to row `startRow + 1` (and `false` otherwise).  On the board
built by `initializeBoard` the White man on (5,0) may move to (4,1). -/
theorem isValidMove_one_step :
    (∀ (board : CheckersBoard) (m : Move) (player piece : Char),
      isValidSquare m.startRow m.startCol = true → isValidSquare m.endRow m.endCol = true →
      getCell board m.startRow m.startCol = some piece → ownedBy player piece →
      getCell board m.endRow m.endCol = some EMPTY_SQUARE →
      (m.endRow - m.startRow).natAbs = 1 → (m.endCol - m.startCol).natAbs = 1 →
      isValidMove board m player =
        some (decide ((piece = WHITE_KING ∨ piece = BLACK_KING) ∨
          (piece = WHITE_PIECE ∧ m.endRow = m.startRow - 1) ∨
          (piece = BLACK_PIECE ∧ m.endRow = m.startRow + 1)))) ∧
    (∃ board, initializeBoard = some board ∧
      getCell board 5 0 = some WHITE_PIECE ∧
      isValidMove board ⟨5, 0, 4, 1, false, []⟩ WHITE = some true) := by
  constructor
  · intro board m player piece hs he hp ho ht hr hc
    rw [isValidMove_of_cells hs he hp ht]
    rw [if_neg (not_not.2 ho), if_neg (not_not.2 rfl)]
    by_cases hk : (piece = WHITE_KING ∨ piece = BLACK_KING) ∨
          (piece = WHITE_PIECE ∧ m.endRow = m.startRow - 1) ∨
          (piece = BLACK_PIECE ∧ m.endRow = m.startRow + 1)
    · rw [decide_eq_true hk, if_pos]
      refine ⟨hc, ?_⟩
      rcases hk with hk | ⟨a, b⟩ | ⟨a, b⟩
      · exact Or.inr (Or.inr ⟨hk, hr⟩)
      · exact Or.inl ⟨a, by omega⟩
      · exact Or.inr (Or.inl ⟨a, by omega⟩)
    · rw [decide_eq_false hk, if_neg]
      · unfold captureCheck
        rw [if_neg (by omega)]
      · rintro ⟨-, h⟩
        apply hk
        rcases h with ⟨a, b⟩ | ⟨a, b⟩ | ⟨a, -⟩
        · exact Or.inr (Or.inl ⟨a, by omega⟩)
        · exact Or.inr (Or.inr ⟨a, by omega⟩)
        · exact Or.inl a
  · exact ⟨openingBoard, by decide, by decide, by decide⟩

theorem isValidMove_one_step_witness :
    isValidMove captureBoard ⟨7, 0, 6, 1, false, []⟩ WHITE = some true :=
  isValidMove_one_step.1 captureBoard ⟨7, 0, 6, 1, false, []⟩ WHITE WHITE_KING
    (by decide) (by decide) (by decide) (by decide) (by decide) (by decide) (by decide)

/-- C9. For a two-step move between valid squares, from a square holding a
piece of the player (man or king, in any of the four directions) to an empty
square, the midpoint is a valid dark square, and `isValidMove` answers `true`
exactly when the midpoint holds a man or king of the opposing side (and
`false` otherwise). -/
theorem isValidMove_two_step (board : CheckersBoard) (hb : is8x8 board)
    (m : Move) (player piece : Char)
    (hs : isValidSquare m.startRow m.startCol = true)
    (he : isValidSquare m.endRow m.endCol = true)
    (hp : getCell board m.startRow m.startCol = some piece) (ho : ownedBy player piece)
    (ht : getCell board m.endRow m.endCol = some EMPTY_SQUARE)
    (hr : (m.endRow - m.startRow).natAbs = 2) (hc : (m.endCol - m.startCol).natAbs = 2) :
    isValidSquare (m.startRow + (m.endRow - m.startRow).tdiv 2)
        (m.startCol + (m.endCol - m.startCol).tdiv 2) = true ∧
    ∃ jumped, getCell board (m.startRow + (m.endRow - m.startRow).tdiv 2)
        (m.startCol + (m.endCol - m.startCol).tdiv 2) = some jumped ∧
      isValidMove board m player = some (decide (opposes player jumped)) := by
  have hs2 := (isValidSquare_iff _ _).1 hs
  have he2 := (isValidSquare_iff _ _).1 he
  have hmid : isValidSquare (m.startRow + (m.endRow - m.startRow).tdiv 2)
      (m.startCol + (m.endCol - m.startCol).tdiv 2) = true := by
    have e1 : m.endRow - m.startRow = 2 ∨ m.endRow - m.startRow = -2 := by omega
    have e2 : m.endCol - m.startCol = 2 ∨ m.endCol - m.startCol = -2 := by omega
    rw [isValidSquare_iff]
    rcases e1 with e1 | e1 <;> rcases e2 with e2 | e2 <;> rw [e1, e2] <;>
      simp only [show (2 : Int).tdiv 2 = 1 from by decide,
        show (-2 : Int).tdiv 2 = -1 from by decide] <;> omega
  refine ⟨hmid, ?_⟩
  have hm2 := (isValidSquare_iff _ _).1 hmid
  obtain ⟨jp, hjp⟩ := getCell_some_of_is8x8 hb hm2.1 hm2.2.1 hm2.2.2.1 hm2.2.2.2.1
  refine ⟨jp, hjp, ?_⟩
  rw [isValidMove_of_cells hs he hp ht]
  rw [if_neg (not_not.2 ho), if_neg (not_not.2 rfl), if_neg (by omega)]
  by_cases hop : opposes player jp
  · rw [decide_eq_true hop]
    exact (captureCheck_true_iff _ _ _ _ _).2 ⟨hr, hc, hmid, jp, hjp, hop⟩
  · rw [decide_eq_false hop]
    obtain ⟨r, hr2⟩ := captureCheck_total hb m player (m.endRow - m.startRow)
      (m.endCol - m.startCol)
    cases r with
    | false => exact hr2
    | true =>
      exfalso
      obtain ⟨-, -, -, jp2, hjp2, hop2⟩ := (captureCheck_true_iff _ _ _ _ _).1 hr2
      rw [hjp] at hjp2
      cases hjp2
      exact hop hop2

theorem isValidMove_two_step_witness :
    isValidSquare (5 + ((3 : Int) - 5).tdiv 2) (2 + ((4 : Int) - 2).tdiv 2) = true ∧
    ∃ jumped, getCell captureBoard (5 + ((3 : Int) - 5).tdiv 2) (2 + ((4 : Int) - 2).tdiv 2)
        = some jumped ∧
      isValidMove captureBoard ⟨5, 2, 3, 4, false, []⟩ WHITE
        = some (decide (opposes WHITE jumped)) :=
  isValidMove_two_step captureBoard (by decide) ⟨5, 2, 3, 4, false, []⟩ WHITE WHITE_PIECE
    (by decide) (by decide) (by decide) (by decide) (by decide) (by decide) (by decide)

/-- C4. Mandatory capture: on an 8x8 board `generateLegalMoves` returns a list;
if it holds one capture move then every move in it is a capture move, and if it
holds a non-capture move then `isValidMove` rejects every two-step move of the
player. -/
theorem generateLegalMoves_mandatory_capture (board : CheckersBoard) (hb : is8x8 board)
    (player : Char) :
    ∃ moves, generateLegalMoves board player = some moves ∧
      ((∃ m ∈ moves, m.isCapture = true) → ∀ m ∈ moves, m.isCapture = true) ∧
      ((∃ m ∈ moves, m.isCapture = false) →
        ∀ m2 : Move, (m2.endRow - m2.startRow).natAbs = 2 →
          isValidMove board m2 player = some false) := by
  refine ⟨_, generateLegalMoves_eq hb player, ?_, ?_⟩
  · rintro ⟨m, hm, hcap⟩ m2 hm2
    by_cases hj : (allJumps board player).isEmpty = true
    · rw [if_pos hj] at hm
      rw [(valid_of_mem_allSteps hm).2.1] at hcap
      cases hcap
    · rw [if_neg hj] at hm2
      exact (valid_of_mem_allJumps hm2).2.1
  · rintro ⟨m, hm, hcap⟩ m2 h2
    by_cases hj : (allJumps board player).isEmpty = true
    · obtain ⟨r, hr⟩ := isValidMove_total hb m2 player
      cases r with
      | false => exact hr
      | true =>
        exfalso
        have hmem := jump_mem_of_valid hr h2
        rw [List.isEmpty_iff] at hj
        rw [hj] at hmem
        cases hmem
    · rw [if_neg hj] at hm
      rw [(valid_of_mem_allJumps hm).2.1] at hcap
      cases hcap

theorem generateLegalMoves_mandatory_capture_witness :
    ∃ moves, generateLegalMoves captureBoard WHITE = some moves ∧
      ((∃ m ∈ moves, m.isCapture = true) → ∀ m ∈ moves, m.isCapture = true) ∧
      ((∃ m ∈ moves, m.isCapture = false) →
        ∀ m2 : Move, (m2.endRow - m2.startRow).natAbs = 2 →
          isValidMove captureBoard m2 WHITE = some false) :=
  generateLegalMoves_mandatory_capture captureBoard (by decide) WHITE

/-- C5. Soundness of move generation: on an 8x8 board `generateLegalMoves`
returns a list, and every move in it is accepted by `isValidMove`; its start
square is a valid dark square holding a man or king of the player and its end
square is a valid dark square that is empty. -/
theorem generateLegalMoves_sound (board : CheckersBoard) (hb : is8x8 board) (player : Char) :
    ∃ moves, generateLegalMoves board player = some moves ∧
      ∀ m ∈ moves, isValidMove board m player = some true ∧
        isValidSquare m.startRow m.startCol = true ∧
        (∃ piece, getCell board m.startRow m.startCol = some piece ∧ ownedBy player piece) ∧
        isValidSquare m.endRow m.endCol = true ∧
        getCell board m.endRow m.endCol = some EMPTY_SQUARE := by
  refine ⟨_, generateLegalMoves_eq hb player, ?_⟩
  intro m hm
  have hv : isValidMove board m player = some true := by
    by_cases hj : (allJumps board player).isEmpty = true
    · rw [if_pos hj] at hm
      exact (valid_of_mem_allSteps hm).1
    · rw [if_neg hj] at hm
      exact (valid_of_mem_allJumps hm).1
  obtain ⟨hs, he, piece, hp, ho, ht, -⟩ := (isValidMove_true_iff _ _ _).1 hv
  exact ⟨hv, hs, ⟨piece, hp, ho⟩, he, ht⟩

theorem generateLegalMoves_sound_witness :
    ∃ moves, generateLegalMoves openingBoard BLACK = some moves ∧
      ∀ m ∈ moves, isValidMove openingBoard m BLACK = some true ∧
        isValidSquare m.startRow m.startCol = true ∧
        (∃ piece, getCell openingBoard m.startRow m.startCol = some piece ∧
          ownedBy BLACK piece) ∧
        isValidSquare m.endRow m.endCol = true ∧
        getCell openingBoard m.endRow m.endCol = some EMPTY_SQUARE :=
  generateLegalMoves_sound openingBoard (by decide) BLACK

/-- C6. Completeness of move generation: on an 8x8 board, for every move (of
arbitrary integer coordinates) that `isValidMove` accepts, (i) if it is two
rows long the generated list holds a capture move with the same start and end
squares, and (ii) if it is one row long and `isValidMove` accepts no two-step
move of the player, the generated list holds a non-capture move with the same
start and end squares. -/
theorem generateLegalMoves_complete (board : CheckersBoard) (hb : is8x8 board) (player : Char)
    (m : Move) (hv : isValidMove board m player = some true) :
    ∃ moves, generateLegalMoves board player = some moves ∧
      ((m.endRow - m.startRow).natAbs = 2 →
        ∃ g ∈ moves, g.isCapture = true ∧ g.startRow = m.startRow ∧ g.startCol = m.startCol ∧
          g.endRow = m.endRow ∧ g.endCol = m.endCol) ∧
      ((m.endRow - m.startRow).natAbs = 1 →
        (∀ m2 : Move, (m2.endRow - m2.startRow).natAbs = 2 →
          isValidMove board m2 player ≠ some true) →
        ∃ g ∈ moves, g.isCapture = false ∧ g.startRow = m.startRow ∧ g.startCol = m.startCol ∧
          g.endRow = m.endRow ∧ g.endCol = m.endCol) := by
  refine ⟨_, generateLegalMoves_eq hb player, ?_, ?_⟩
  · intro h2
    have hmem := jump_mem_of_valid hv h2
    have hne : ¬ (allJumps board player).isEmpty = true := by
      rw [List.isEmpty_iff]
      intro h
      rw [h] at hmem
      cases hmem
    rw [if_neg hne]
    exact ⟨_, hmem, rfl, rfl, rfl, rfl, rfl⟩
  · intro h1 hno
    have hmem := step_mem_of_valid hv h1
    have he : (allJumps board player).isEmpty = true := by
      rw [List.isEmpty_iff]
      cases hj : allJumps board player with
      | nil => rfl
      | cons g gs =>
        exfalso
        have hg : g ∈ allJumps board player := by rw [hj]; exact List.mem_cons_self _ _
        exact hno g (valid_of_mem_allJumps hg).2.2.1 (valid_of_mem_allJumps hg).1
    rw [if_pos he]
    exact ⟨_, hmem, rfl, rfl, rfl, rfl, rfl⟩

theorem generateLegalMoves_complete_witness :
    ∃ moves, generateLegalMoves captureBoard WHITE = some moves ∧
      ∃ g ∈ moves, g.isCapture = true ∧ g.startRow = 5 ∧ g.startCol = 2 ∧
        g.endRow = 3 ∧ g.endCol = 4 := by
  obtain ⟨moves, h, h2, -⟩ := generateLegalMoves_complete captureBoard (by decide) WHITE
    ⟨5, 2, 3, 4, false, []⟩ (by decide)
  exact ⟨moves, h, h2 (by decide)⟩

/-- C7. On an 8x8 board `generateLegalMoves` returns a list, and that list is
empty exactly when `isValidMove` accepts no move of the player, over all
integer start and end coordinates. -/
theorem generateLegalMoves_empty_iff (board : CheckersBoard) (hb : is8x8 board)
    (player : Char) :
    ∃ moves, generateLegalMoves board player = some moves ∧
      (moves = [] ↔ ¬ ∃ m : Move, isValidMove board m player = some true) := by
  refine ⟨_, generateLegalMoves_eq hb player, ?_⟩
  constructor
  · rintro hnil ⟨m, hv⟩
    rcases rowDiff_of_valid hv with ⟨h1, -⟩ | ⟨h2, -⟩
    · have hmem := step_mem_of_valid hv h1
      by_cases hj : (allJumps board player).isEmpty = true
      · rw [if_pos hj] at hnil
        rw [hnil] at hmem
        cases hmem
      · rw [if_neg hj] at hnil
        rw [List.isEmpty_iff] at hj
        exact hj hnil
    · have hmem := jump_mem_of_valid hv h2
      by_cases hj : (allJumps board player).isEmpty = true
      · rw [List.isEmpty_iff] at hj
        rw [hj] at hmem
        cases hmem
      · rw [if_neg hj] at hnil
        rw [hnil] at hmem
        cases hmem
  · intro hno
    by_cases hj : (allJumps board player).isEmpty = true
    · rw [if_pos hj]
      cases hs : allSteps board player with
      | nil => rfl
      | cons g gs =>
        exfalso
        have hg : g ∈ allSteps board player := by rw [hs]; exact List.mem_cons_self _ _
        exact hno ⟨g, (valid_of_mem_allSteps hg).1⟩
    · rw [if_neg hj]
      cases hs : allJumps board player with
      | nil => rfl
      | cons g gs =>
        exfalso
        have hg : g ∈ allJumps board player := by rw [hs]; exact List.mem_cons_self _ _
        exact hno ⟨g, (valid_of_mem_allJumps hg).1⟩

theorem generateLegalMoves_empty_iff_witness :
    ∃ moves, generateLegalMoves captureBoard BLACK = some moves ∧
      (moves = [] ↔ ¬ ∃ m : Move, isValidMove captureBoard m BLACK = some true) :=
  generateLegalMoves_empty_iff captureBoard (by decide) BLACK

/-! ## Writing cells, applying moves, evaluating -/

theorem setCell_some_of_is8x8 {board : CheckersBoard} (hb : is8x8 board) {row col : Int}
    (hr0 : 0 ≤ row) (hr : row < 8) (hc0 : 0 ≤ col) (hc : col < 8) (v : Char) :
    ∃ b2, setCell board row col v = some b2 ∧ is8x8 b2 := by
  unfold setCell
  have h1 : row.toNat < board.length := by rw [hb.1]; omega
  rw [if_neg (by omega), List.getElem?_eq_getElem h1]
  have h2 : (board[row.toNat]).length = 8 := hb.2 _ (List.getElem_mem _)
  simp only
  rw [if_pos (by rw [h2]; omega)]
  refine ⟨_, rfl, ?_, ?_⟩
  · rw [List.length_set]; exact hb.1
  · intro cells hcells
    rcases List.mem_or_eq_of_mem_set hcells with h | h
    · exact hb.2 _ h
    · rw [h, List.length_set]; exact h2

theorem clearCells_some_of_is8x8 (caps : List (Int × Int))
    (hcaps : ∀ sq ∈ caps, 0 ≤ sq.1 ∧ sq.1 < 8 ∧ 0 ≤ sq.2 ∧ sq.2 < 8)
    {board : CheckersBoard} (hb : is8x8 board) :
    ∃ b2, caps.foldlM (fun newBoard captured =>
        setCell newBoard captured.1 captured.2 EMPTY_SQUARE) board = some b2 ∧ is8x8 b2 := by
  induction caps generalizing board with
  | nil => exact ⟨board, rfl, hb⟩
  | cons sq rest ih =>
    have hsq := hcaps sq (List.mem_cons_self _ _)
    obtain ⟨b1, h1, hb1⟩ := setCell_some_of_is8x8 hb hsq.1 hsq.2.1 hsq.2.2.1 hsq.2.2.2
      EMPTY_SQUARE
    rw [List.foldlM_cons, h1]
    exact ih (fun x hx => hcaps x (List.mem_cons_of_mem _ hx)) hb1

theorem applyMove_some_of_is8x8 {board : CheckersBoard} (hb : is8x8 board) (m : Move)
    (hs : isValidSquare m.startRow m.startCol = true)
    (he : isValidSquare m.endRow m.endCol = true)
    (hcaps : ∀ sq ∈ m.capturedPieces, 0 ≤ sq.1 ∧ sq.1 < 8 ∧ 0 ≤ sq.2 ∧ sq.2 < 8) :
    ∃ b2, applyMove board m = some b2 ∧ is8x8 b2 := by
  have hs2 := (isValidSquare_iff _ _).1 hs
  have he2 := (isValidSquare_iff _ _).1 he
  obtain ⟨piece, hp⟩ := getCell_some_of_is8x8 hb hs2.1 hs2.2.1 hs2.2.2.1 hs2.2.2.2.1
  obtain ⟨b1, h1, hb1⟩ := setCell_some_of_is8x8 hb he2.1 he2.2.1 he2.2.2.1 he2.2.2.2.1 piece
  obtain ⟨b2, h2, hb2⟩ := setCell_some_of_is8x8 hb1 hs2.1 hs2.2.1 hs2.2.2.1 hs2.2.2.2.1
    EMPTY_SQUARE
  obtain ⟨b3, h3, hb3⟩ := clearCells_some_of_is8x8 m.capturedPieces hcaps hb2
  unfold applyMove
  simp only [hp, h1, h2, h3, Option.bind_eq_bind, Option.some_bind]
  split_ifs
  · exact setCell_some_of_is8x8 hb3 he2.1 he2.2.1 he2.2.2.1 he2.2.2.2.1 _
  · exact setCell_some_of_is8x8 hb3 he2.1 he2.2.1 he2.2.2.1 he2.2.2.2.1 _
  · exact ⟨b3, rfl, hb3⟩

/-- Every generated move can be applied, and the result is again an 8x8 board. -/
theorem applyMove_generated {board : CheckersBoard} (hb : is8x8 board) {player : Char}
    {moves : List Move} (hg : generateLegalMoves board player = some moves)
    {m : Move} (hm : m ∈ moves) :
    ∃ b2, applyMove board m = some b2 ∧ is8x8 b2 := by
  rw [generateLegalMoves_eq hb player] at hg
  cases hg
  by_cases hj : (allJumps board player).isEmpty = true
  · rw [if_pos hj] at hm
    obtain ⟨hv, -, -, hcap⟩ := valid_of_mem_allSteps hm
    obtain ⟨hs, he, -⟩ := (isValidMove_true_iff _ _ _).1 hv
    refine applyMove_some_of_is8x8 hb m hs he ?_
    rw [hcap]
    intro sq hsq
    cases hsq
  · rw [if_neg hj] at hm
    obtain ⟨hv, -, h2, hcap⟩ := valid_of_mem_allJumps hm
    obtain ⟨hs, he, piece, -, -, -, hr⟩ := (isValidMove_true_iff _ _ _).1 hv
    refine applyMove_some_of_is8x8 hb m hs he ?_
    have hjr : jumpRule board player m := by
      rcases hr with hst | hj2
      · obtain ⟨-, hrow⟩ := hst
        rcases hrow with ⟨-, h1⟩ | ⟨-, h1⟩ | ⟨-, h1⟩ <;> omega
      · exact hj2
    have hmid := (isValidSquare_iff _ _).1 hjr.2.2.1
    rw [hcap]
    intro sq hsq
    rw [List.mem_singleton] at hsq
    subst hsq
    exact ⟨hmid.1, hmid.2.1, hmid.2.2.1, hmid.2.2.2.1⟩

theorem length_intRange (lo hi : Int) : (intRange lo hi).length = (hi - lo).toNat := by
  unfold intRange
  rw [List.length_map, List.length_range]

theorem foldlM_bounded {α : Type} (f : Int → α → Option Int) (k : Int) (xs : List α)
    (h : ∀ s, ∀ x ∈ xs, ∃ s2, f s x = some s2 ∧ s - k ≤ s2 ∧ s2 ≤ s + k) (s : Int) :
    ∃ s2, xs.foldlM f s = some s2 ∧ s - k * xs.length ≤ s2 ∧ s2 ≤ s + k * xs.length := by
  induction xs generalizing s with
  | nil => exact ⟨s, rfl, by simp, by simp⟩
  | cons x xs ih =>
    obtain ⟨s1, h1, h1a, h1b⟩ := h s x (List.mem_cons_self _ _)
    obtain ⟨s2, h2, h2a, h2b⟩ := ih (fun s y hy => h s y (List.mem_cons_of_mem _ hy)) s1
    refine ⟨s2, ?_, ?_, ?_⟩
    · rw [List.foldlM_cons, h1]
      exact h2
    · rw [List.length_cons]
      push_cast
      linarith
    · rw [List.length_cons]
      push_cast
      linarith

theorem evaluateCell_bounded {board : CheckersBoard} (hb : is8x8 board) (i : Int)
    (hi : 0 ≤ i ∧ i < 8) (s : Int) (j : Int) (hj : j ∈ intRange 0 8) :
    ∃ s2, (do
      let c ← getCell board i j
      if c = WHITE_PIECE then some (s + 1)
      else if c = WHITE_KING then some (s + 3)
      else if c = BLACK_PIECE then some (s - 1)
      else if c = BLACK_KING then some (s - 3)
      else some s : Option Int) = some s2 ∧ s - 3 ≤ s2 ∧ s2 ≤ s + 3 := by
  have hj2 := (mem_intRange 0 8 j).1 hj
  obtain ⟨c, hc⟩ := getCell_some_of_is8x8 hb hi.1 hi.2 hj2.1 hj2.2
  simp only [hc, Option.bind_eq_bind, Option.some_bind]
  split_ifs
  · exact ⟨_, rfl, by omega, by omega⟩
  · exact ⟨_, rfl, by omega, by omega⟩
  · exact ⟨_, rfl, by omega, by omega⟩
  · exact ⟨_, rfl, by omega, by omega⟩
  · exact ⟨_, rfl, by omega, by omega⟩

theorem evaluateBoard_bounded {board : CheckersBoard} (hb : is8x8 board) :
    ∃ e, evaluateBoard board = some e ∧ -192 ≤ e ∧ e ≤ 192 := by
  have hlen : ((intRange 0 8).length : Int) = 8 := by
    rw [length_intRange]; decide
  have hrow : ∀ s : Int, ∀ i ∈ intRange 0 8, ∃ s2 : Int,
      (intRange 0 8).foldlM (fun score j => do
        let c ← getCell board i j
        if c = WHITE_PIECE then some (score + 1)
        else if c = WHITE_KING then some (score + 3)
        else if c = BLACK_PIECE then some (score - 1)
        else if c = BLACK_KING then some (score - 3)
        else some score) s = some s2 ∧ s - 24 ≤ s2 ∧ s2 ≤ s + 24 := by
    intro s i hi
    have hi2 := (mem_intRange 0 8 i).1 hi
    obtain ⟨s2, h2, h2a, h2b⟩ := foldlM_bounded _ 3 (intRange 0 8)
      (fun s j hj => evaluateCell_bounded hb i hi2 s j hj) s
    rw [hlen] at h2a h2b
    exact ⟨s2, h2, by omega, by omega⟩
  obtain ⟨e, he, hea, heb⟩ := foldlM_bounded _ 24 (intRange 0 8) hrow 0
  rw [hlen] at hea heb
  unfold evaluateBoard
  exact ⟨e, he, by omega, by omega⟩

/-! ## Alpha-beta against minimax -/

theorem foldl_max_init (ts : List Int) (a b : Int) :
    ts.foldl max (max a b) = max a (ts.foldl max b) := by
  induction ts generalizing b with
  | nil => rfl
  | cons t ts ih =>
    rw [List.foldl_cons, List.foldl_cons, max_assoc, ih]

theorem foldl_min_init (ts : List Int) (a b : Int) :
    ts.foldl min (min a b) = min a (ts.foldl min b) := by
  induction ts generalizing b with
  | nil => rfl
  | cons t ts ih =>
    rw [List.foldl_cons, List.foldl_cons, min_assoc, ih]

theorem foldl_max_ge (ts : List Int) (b : Int) : b ≤ ts.foldl max b := by
  have h := foldl_max_init ts b b
  rw [max_self] at h
  omega

theorem foldl_min_le (ts : List Int) (b : Int) : ts.foldl min b ≤ b := by
  have h := foldl_min_init ts b b
  rw [min_self] at h
  omega

/-- Arithmetic of one iteration of the maximizing loop that does not cut. -/
theorem failSoft_max_step {best alpha beta v1 t1 v P Q X lo : Int}
    (hbest : best ≤ alpha ∨ best ≤ lo) (hvlo : lo ≤ v1)
    (hfs1 : FailSoft v1 t1 alpha beta) (hcut : ¬ beta ≤ max alpha (max best v1))
    (hge : max best v1 ≤ v)
    (hfs : FailSoft v (max best P) (max alpha (max best v1)) beta)
    (hP2 : X = max v1 Q) (hP3 : X = max t1 P) (hP4 : v1 ≤ P) (hQ : t1 ≤ Q) :
    FailSoft v (max best Q) alpha beta := by
  unfold FailSoft at hfs1 hfs ⊢
  by_cases hc : v1 ≤ alpha
  · have h1 : t1 ≤ v1 := hfs1.1 hc
    have h2 : max best v1 ≤ alpha := by omega
    have h3 : max alpha (max best v1) = alpha := by omega
    rw [h3] at hfs
    have h4 : P = max v1 Q := by omega
    subst h4
    omega
  · have h0 : v1 < beta := by omega
    have h1 : v1 = t1 := hfs1.2.1 (by omega) h0
    subst h1
    have h2 : max best v1 = v1 := by omega
    have h3 : max alpha v1 = v1 := by omega
    rw [h2] at hfs hge
    rw [h3] at hfs
    have h4 : P = Q := by omega
    subst h4
    omega

theorem maxLoop_spec (child : CheckersBoard → Int → Int → Option Int)
    (tv : CheckersBoard → Option Int) (board : CheckersBoard) (lo hi : Int)
    (ms : List Move) (H : ∀ m ∈ ms, ChildOk child tv board lo hi m) :
    ∀ best alpha beta : Int, alpha < beta → (best ≤ alpha ∨ best ≤ lo) →
      ∃ v ts, maxLoop child board ms best alpha beta = some v ∧
        ms.mapM (fun m => (applyMove board m).bind tv) = some ts ∧
        ts.length = ms.length ∧ (∀ t ∈ ts, lo ≤ t ∧ t ≤ hi) ∧
        best ≤ v ∧ v ≤ max best hi ∧ (ms ≠ [] → lo ≤ v) ∧
        FailSoft v (ts.foldl max best) alpha beta := by
  induction ms with
  | nil =>
    intro best alpha beta _ _
    refine ⟨best, [], rfl, rfl, rfl, ?_, le_refl _, le_max_left _ _, fun h => absurd rfl h, ?_⟩
    · intro t ht; cases ht
    · exact ⟨fun _ => le_refl _, fun _ _ => rfl, fun _ => le_refl _⟩
  | cons m rest ih =>
    intro best alpha beta hab hbest
    obtain ⟨nb, t1, hnb, ht1, hlo1, hhi1, hchild⟩ := H m (List.mem_cons_self _ _)
    obtain ⟨v1, hv1, hvlo, hvhi, hfs1⟩ := hchild alpha beta hab
    have hrest : ∃ ts, rest.mapM (fun m => (applyMove board m).bind tv) = some ts ∧
        ts.length = rest.length ∧ (∀ t ∈ ts, lo ≤ t ∧ t ≤ hi) := by
      obtain ⟨_, ts, -, h1, h2, h3, -⟩ :=
        ih (fun x hx => H x (List.mem_cons_of_mem _ hx)) best alpha beta hab hbest
      exact ⟨ts, h1, h2, h3⟩
    obtain ⟨ts, hts, hlen, hbnd⟩ := hrest
    have hmap : (m :: rest).mapM (fun m => (applyMove board m).bind tv) = some (t1 :: ts) := by
      rw [List.mapM_cons, hnb]
      simp only [Option.some_bind, ht1, Option.bind_eq_bind, hts, pure]
    have hbnd2 : ∀ t ∈ t1 :: ts, lo ≤ t ∧ t ≤ hi := by
      intro t ht
      rcases List.mem_cons.1 ht with h | h
      · rw [h]; exact ⟨hlo1, hhi1⟩
      · exact hbnd t h
    have hT : (t1 :: ts).foldl max best = max best (ts.foldl max t1) := by
      rw [List.foldl_cons, foldl_max_init]
    have hQ := foldl_max_ge ts t1
    unfold maxLoop
    simp only [hnb, hv1, Option.bind_eq_bind, Option.some_bind]
    by_cases hcut : beta ≤ max alpha (max best v1)
    · rw [if_pos hcut]
      refine ⟨_, t1 :: ts, rfl, hmap, by simp [hlen], hbnd2, le_max_left _ _, ?_, ?_, ?_⟩
      · omega
      · intro _; omega
      · rw [hT]
        unfold FailSoft at hfs1 ⊢
        omega
    · rw [if_neg hcut]
      obtain ⟨v, ts2, hv, hts2, -, -, hge, hle, -, hfs⟩ :=
        ih (fun x hx => H x (List.mem_cons_of_mem _ hx)) (max best v1)
          (max alpha (max best v1)) beta (by omega) (Or.inl (le_max_right _ _))
      rw [hts] at hts2
      cases hts2
      refine ⟨v, t1 :: ts, hv, hmap, by simp [hlen], hbnd2, ?_, ?_, ?_, ?_⟩
      · omega
      · omega
      · intro _; omega
      · rw [hT]
        have hP1 := foldl_max_init ts best v1
        have hP2 := foldl_max_init ts v1 t1
        have hP3 := foldl_max_init ts t1 v1
        have hP4 := foldl_max_ge ts v1
        rw [hP1] at hfs
        rw [max_comm t1 v1] at hP3
        exact failSoft_max_step hbest hvlo hfs1 hcut hge hfs hP2 hP3 hP4 hQ

/-- Arithmetic of one iteration of the minimizing loop that does not cut. -/
theorem failSoft_min_step {best alpha beta v1 t1 v P Q X hi : Int}
    (hbest : beta ≤ best ∨ hi ≤ best) (hvhi : v1 ≤ hi)
    (hfs1 : FailSoft v1 t1 alpha beta) (hcut : ¬ min beta (min best v1) ≤ alpha)
    (hle : v ≤ min best v1)
    (hfs : FailSoft v (min best P) alpha (min beta (min best v1)))
    (hP2 : X = min v1 Q) (hP3 : X = min t1 P) (hP4 : P ≤ v1) (hQ : Q ≤ t1) :
    FailSoft v (min best Q) alpha beta := by
  unfold FailSoft at hfs1 hfs ⊢
  by_cases hc : beta ≤ v1
  · have h1 : v1 ≤ t1 := hfs1.2.2 hc
    have h2 : beta ≤ min best v1 := by omega
    have h3 : min beta (min best v1) = beta := by omega
    rw [h3] at hfs
    have h4 : P = min v1 Q := by omega
    subst h4
    omega
  · have h0 : alpha < v1 := by omega
    have h1 : v1 = t1 := hfs1.2.1 h0 (by omega)
    subst h1
    have h2 : min best v1 = v1 := by omega
    have h3 : min beta v1 = v1 := by omega
    rw [h2] at hfs hle
    rw [h3] at hfs
    have h4 : P = Q := by omega
    subst h4
    omega

theorem minLoop_spec (child : CheckersBoard → Int → Int → Option Int)
    (tv : CheckersBoard → Option Int) (board : CheckersBoard) (lo hi : Int)
    (ms : List Move) (H : ∀ m ∈ ms, ChildOk child tv board lo hi m) :
    ∀ best alpha beta : Int, alpha < beta → (beta ≤ best ∨ hi ≤ best) →
      ∃ v ts, minLoop child board ms best alpha beta = some v ∧
        ms.mapM (fun m => (applyMove board m).bind tv) = some ts ∧
        ts.length = ms.length ∧ (∀ t ∈ ts, lo ≤ t ∧ t ≤ hi) ∧
        v ≤ best ∧ min best lo ≤ v ∧ (ms ≠ [] → v ≤ hi) ∧
        FailSoft v (ts.foldl min best) alpha beta := by
  induction ms with
  | nil =>
    intro best alpha beta _ _
    refine ⟨best, [], rfl, rfl, rfl, ?_, le_refl _, min_le_left _ _, fun h => absurd rfl h, ?_⟩
    · intro t ht; cases ht
    · exact ⟨fun _ => le_refl _, fun _ _ => rfl, fun _ => le_refl _⟩
  | cons m rest ih =>
    intro best alpha beta hab hbest
    obtain ⟨nb, t1, hnb, ht1, hlo1, hhi1, hchild⟩ := H m (List.mem_cons_self _ _)
    obtain ⟨v1, hv1, hvlo, hvhi, hfs1⟩ := hchild alpha beta hab
    have hrest : ∃ ts, rest.mapM (fun m => (applyMove board m).bind tv) = some ts ∧
        ts.length = rest.length ∧ (∀ t ∈ ts, lo ≤ t ∧ t ≤ hi) := by
      obtain ⟨_, ts, -, h1, h2, h3, -⟩ :=
        ih (fun x hx => H x (List.mem_cons_of_mem _ hx)) best alpha beta hab hbest
      exact ⟨ts, h1, h2, h3⟩
    obtain ⟨ts, hts, hlen, hbnd⟩ := hrest
    have hmap : (m :: rest).mapM (fun m => (applyMove board m).bind tv) = some (t1 :: ts) := by
      rw [List.mapM_cons, hnb]
      simp only [Option.some_bind, ht1, Option.bind_eq_bind, hts, pure]
    have hbnd2 : ∀ t ∈ t1 :: ts, lo ≤ t ∧ t ≤ hi := by
      intro t ht
      rcases List.mem_cons.1 ht with h | h
      · rw [h]; exact ⟨hlo1, hhi1⟩
      · exact hbnd t h
    have hT : (t1 :: ts).foldl min best = min best (ts.foldl min t1) := by
      rw [List.foldl_cons, foldl_min_init]
    have hQ := foldl_min_le ts t1
    unfold minLoop
    simp only [hnb, hv1, Option.bind_eq_bind, Option.some_bind]
    by_cases hcut : min beta (min best v1) ≤ alpha
    · rw [if_pos hcut]
      refine ⟨_, t1 :: ts, rfl, hmap, by simp [hlen], hbnd2, min_le_left _ _, ?_, ?_, ?_⟩
      · omega
      · intro _; omega
      · rw [hT]
        unfold FailSoft at hfs1 ⊢
        omega
    · rw [if_neg hcut]
      obtain ⟨v, ts2, hv, hts2, -, -, hle, hge, -, hfs⟩ :=
        ih (fun x hx => H x (List.mem_cons_of_mem _ hx)) (min best v1)
          alpha (min beta (min best v1)) (by omega) (Or.inl (min_le_right _ _))
      rw [hts] at hts2
      cases hts2
      refine ⟨v, t1 :: ts, hv, hmap, by simp [hlen], hbnd2, ?_, ?_, ?_, ?_⟩
      · omega
      · omega
      · intro _; omega
      · rw [hT]
        have hP1 := foldl_min_init ts best v1
        have hP2 := foldl_min_init ts v1 t1
        have hP3 := foldl_min_init ts t1 v1
        have hP4 := foldl_min_le ts v1
        rw [hP1] at hfs
        rw [min_comm t1 v1] at hP3
        exact failSoft_min_step hbest hvhi hfs1 hcut hle hfs hP2 hP3 hP4 hQ

theorem maximumOf_eq_foldl {ts : List Int} {b : Int} (hne : ts ≠ [])
    (hb : ∀ t ∈ ts, b ≤ t) : maximumOf ts = some (ts.foldl max b) := by
  cases ts with
  | nil => exact absurd rfl hne
  | cons t rest =>
    unfold maximumOf
    rw [List.foldl_cons, max_eq_right (hb t (List.mem_cons_self _ _))]

theorem minimumOf_eq_foldl {ts : List Int} {b : Int} (hne : ts ≠ [])
    (hb : ∀ t ∈ ts, t ≤ b) : minimumOf ts = some (ts.foldl min b) := by
  cases ts with
  | nil => exact absurd rfl hne
  | cons t rest =>
    unfold minimumOf
    rw [List.foldl_cons, min_eq_right (hb t (List.mem_cons_self _ _))]

theorem foldl_max_le (ts : List Int) (b hi : Int) (hb : ∀ t ∈ ts, t ≤ hi) (hbh : b ≤ hi) :
    ts.foldl max b ≤ hi := by
  induction ts generalizing b with
  | nil => exact hbh
  | cons t rest ih =>
    rw [List.foldl_cons]
    exact ih _ (fun x hx => hb x (List.mem_cons_of_mem _ hx))
      (max_le hbh (hb t (List.mem_cons_self _ _)))

theorem le_foldl_min (ts : List Int) (b lo : Int) (hb : ∀ t ∈ ts, lo ≤ t) (hbl : lo ≤ b) :
    lo ≤ ts.foldl min b := by
  induction ts generalizing b with
  | nil => exact hbl
  | cons t rest ih =>
    rw [List.foldl_cons]
    exact ih _ (fun x hx => hb x (List.mem_cons_of_mem _ hx))
      (le_min hbl (hb t (List.mem_cons_self _ _)))

theorem le_foldl_max_of_ne_nil (ts : List Int) (b lo : Int) (hne : ts ≠ [])
    (hb : ∀ t ∈ ts, lo ≤ t) : lo ≤ ts.foldl max b := by
  cases ts with
  | nil => exact absurd rfl hne
  | cons t rest =>
    rw [List.foldl_cons]
    have h1 := foldl_max_ge rest (max b t)
    have h2 := hb t (List.mem_cons_self _ _)
    have h3 := le_max_right b t
    omega

theorem foldl_min_le_of_ne_nil (ts : List Int) (b hi : Int) (hne : ts ≠ [])
    (hb : ∀ t ∈ ts, t ≤ hi) : ts.foldl min b ≤ hi := by
  cases ts with
  | nil => exact absurd rfl hne
  | cons t rest =>
    rw [List.foldl_cons]
    have h1 := foldl_min_le rest (min b t)
    have h2 := hb t (List.mem_cons_self _ _)
    have h3 := min_le_right b t
    omega

theorem alphaBeta_terminal {fuel : Nat} {board : CheckersBoard} {depth maxDepth : Int}
    {isMax : Bool} {ms : List Move}
    (hms : generateLegalMoves board (if isMax then WHITE else BLACK) = some ms)
    (hterm : depth = maxDepth ∨ ms.isEmpty = true) (alpha beta : Int) :
    alphaBeta (fuel + 1) board depth maxDepth isMax alpha beta = evaluateBoard board := by
  rw [alphaBeta]
  simp only [hms, Option.bind_eq_bind, Option.some_bind]
  rw [if_pos hterm]

theorem minimax_terminal {fuel : Nat} {board : CheckersBoard} {depth maxDepth : Int}
    {isMax : Bool} {ms : List Move}
    (hms : generateLegalMoves board (if isMax then WHITE else BLACK) = some ms)
    (hterm : depth = maxDepth ∨ ms.isEmpty = true) :
    minimax (fuel + 1) board depth maxDepth isMax = evaluateBoard board := by
  rw [minimax]
  simp only [hms, Option.bind_eq_bind, Option.some_bind]
  rw [if_pos hterm]

theorem alphaBeta_max_step {fuel : Nat} {board : CheckersBoard} {depth maxDepth : Int}
    {ms : List Move} (hms : generateLegalMoves board WHITE = some ms)
    (hterm : ¬ (depth = maxDepth ∨ ms.isEmpty = true)) (alpha beta : Int) :
    alphaBeta (fuel + 1) board depth maxDepth true alpha beta =
      maxLoop (fun nb a b => alphaBeta fuel nb (depth + 1) maxDepth false a b)
        board ms INT_MIN alpha beta := by
  rw [alphaBeta]
  simp only [if_true, hms, Option.bind_eq_bind, Option.some_bind]
  rw [if_neg hterm]

theorem alphaBeta_min_step {fuel : Nat} {board : CheckersBoard} {depth maxDepth : Int}
    {ms : List Move} (hms : generateLegalMoves board BLACK = some ms)
    (hterm : ¬ (depth = maxDepth ∨ ms.isEmpty = true)) (alpha beta : Int) :
    alphaBeta (fuel + 1) board depth maxDepth false alpha beta =
      minLoop (fun nb a b => alphaBeta fuel nb (depth + 1) maxDepth true a b)
        board ms INT_MAX alpha beta := by
  rw [alphaBeta]
  simp only [Bool.false_eq_true, if_false, hms, Option.bind_eq_bind, Option.some_bind]
  rw [if_neg hterm]

theorem minimax_max_step {fuel : Nat} {board : CheckersBoard} {depth maxDepth : Int}
    {ms : List Move} (hms : generateLegalMoves board WHITE = some ms)
    (hterm : ¬ (depth = maxDepth ∨ ms.isEmpty = true)) :
    minimax (fuel + 1) board depth maxDepth true =
      (ms.mapM (fun m => (applyMove board m).bind
        (fun nb => minimax fuel nb (depth + 1) maxDepth false))).bind maximumOf := by
  rw [minimax]
  simp only [if_true, hms, Option.bind_eq_bind, Option.some_bind, Bool.not_true]
  rw [if_neg hterm]

theorem minimax_min_step {fuel : Nat} {board : CheckersBoard} {depth maxDepth : Int}
    {ms : List Move} (hms : generateLegalMoves board BLACK = some ms)
    (hterm : ¬ (depth = maxDepth ∨ ms.isEmpty = true)) :
    minimax (fuel + 1) board depth maxDepth false =
      (ms.mapM (fun m => (applyMove board m).bind
        (fun nb => minimax fuel nb (depth + 1) maxDepth true))).bind minimumOf := by
  rw [minimax]
  simp only [Bool.false_eq_true, if_false, hms, Option.bind_eq_bind, Option.some_bind,
    Bool.not_false]
  rw [if_neg hterm]

theorem mapM_length_ne_nil {ms : List Move} {ts : List Int} (hlen : ts.length = ms.length)
    (hne : ms ≠ []) : ts ≠ [] := by
  intro h
  rw [h] at hlen
  exact hne (List.length_eq_zero.1 hlen.symm)

theorem isEmpty_false_ne_nil {ms : List Move} {P : Prop} (h : ¬ (P ∨ ms.isEmpty = true)) :
    ms ≠ [] := by
  intro hnil
  apply h
  right
  rw [hnil]
  rfl

/-- The search value and the reference value of a position, for enough fuel:
both exist, both lie in `[-192, 192]`, and they are fail-soft related for
every window. -/
theorem alphaBeta_spec (fuel : Nat) :
    ∀ (board : CheckersBoard) (depth maxDepth : Int) (isMax : Bool),
      is8x8 board → depth ≤ maxDepth → maxDepth - depth < fuel →
      ∃ t, minimax fuel board depth maxDepth isMax = some t ∧ -192 ≤ t ∧ t ≤ 192 ∧
        ∀ alpha beta : Int, alpha < beta →
          ∃ v, alphaBeta fuel board depth maxDepth isMax alpha beta = some v ∧
            -192 ≤ v ∧ v ≤ 192 ∧ FailSoft v t alpha beta := by
  induction fuel with
  | zero =>
    intro board depth maxDepth isMax _ hd hf
    exfalso
    simp only [Nat.cast_zero] at hf
    omega
  | succ n ih =>
    intro board depth maxDepth isMax hb hd hf
    have hms := generateLegalMoves_eq hb (if isMax then WHITE else BLACK)
    generalize (if (allJumps board (if isMax then WHITE else BLACK)).isEmpty
      then allSteps board (if isMax then WHITE else BLACK)
      else allJumps board (if isMax then WHITE else BLACK)) = ms at hms
    obtain ⟨e, he, hel, heh⟩ := evaluateBoard_bounded hb
    by_cases hterm : depth = maxDepth ∨ ms.isEmpty = true
    · refine ⟨e, ?_, hel, heh, ?_⟩
      · rw [minimax_terminal hms hterm]; exact he
      · intro alpha beta _
        refine ⟨e, ?_, hel, heh, ?_⟩
        · rw [alphaBeta_terminal hms hterm]; exact he
        · exact ⟨fun _ => le_refl _, fun _ _ => rfl, fun _ => le_refl _⟩
    · have hne : ms ≠ [] := isEmpty_false_ne_nil hterm
      have hd2 : depth + 1 ≤ maxDepth := by
        have : depth ≠ maxDepth := fun h => hterm (Or.inl h)
        omega
      have hf2 : maxDepth - (depth + 1) < (n : Int) := by
        push_cast at hf
        omega
      have hchild : ∀ m ∈ ms, ChildOk
          (fun nb a b => alphaBeta n nb (depth + 1) maxDepth (!isMax) a b)
          (fun nb => minimax n nb (depth + 1) maxDepth (!isMax)) board (-192) 192 m := by
        intro m hm
        obtain ⟨nb, hnb, hnb8⟩ := applyMove_generated hb hms hm
        obtain ⟨t, ht, htl, hth, hall⟩ := ih nb (depth + 1) maxDepth (!isMax) hnb8 hd2 hf2
        exact ⟨nb, t, hnb, ht, htl, hth, hall⟩
      cases isMax with
      | true =>
        simp only [if_true] at hms
        simp only [Bool.not_true] at hchild
        have hspec := maxLoop_spec _ _ board (-192) 192 ms hchild
        obtain ⟨_, ts, -, hts, hlen, hbnd, -⟩ :=
          hspec INT_MIN 0 1 (by decide) (Or.inr (by decide))
        have htsne : ts ≠ [] := mapM_length_ne_nil hlen hne
        refine ⟨ts.foldl max INT_MIN, ?_, ?_, ?_, ?_⟩
        · rw [minimax_max_step hms hterm, hts]
          exact maximumOf_eq_foldl htsne (fun t ht => by
            have := (hbnd t ht).1
            have h2 : INT_MIN ≤ -192 := by decide
            omega)
        · exact le_foldl_max_of_ne_nil ts _ _ htsne (fun t ht => (hbnd t ht).1)
        · exact foldl_max_le ts _ _ (fun t ht => (hbnd t ht).2) (by decide)
        · intro alpha beta hab
          obtain ⟨v, ts2, hv, hts2, -, -, -, hvh, hvl, hfs⟩ :=
            hspec INT_MIN alpha beta hab (Or.inr (by decide))
          rw [hts] at hts2
          cases hts2
          refine ⟨v, ?_, hvl hne, ?_, hfs⟩
          · rw [alphaBeta_max_step hms hterm]; exact hv
          · have h2 : max INT_MIN 192 = 192 := by decide
            rw [h2] at hvh
            exact hvh
      | false =>
        simp only [Bool.false_eq_true, if_false] at hms
        simp only [Bool.not_false] at hchild
        have hspec := minLoop_spec _ _ board (-192) 192 ms hchild
        obtain ⟨_, ts, -, hts, hlen, hbnd, -⟩ :=
          hspec INT_MAX 0 1 (by decide) (Or.inr (by decide))
        have htsne : ts ≠ [] := mapM_length_ne_nil hlen hne
        refine ⟨ts.foldl min INT_MAX, ?_, ?_, ?_, ?_⟩
        · rw [minimax_min_step hms hterm, hts]
          exact minimumOf_eq_foldl htsne (fun t ht => by
            have := (hbnd t ht).2
            have h2 : (192 : Int) ≤ INT_MAX := by decide
            omega)
        · exact le_foldl_min ts _ _ (fun t ht => (hbnd t ht).1) (by decide)
        · exact foldl_min_le_of_ne_nil ts _ _ htsne (fun t ht => (hbnd t ht).2)
        · intro alpha beta hab
          obtain ⟨v, ts2, hv, hts2, -, -, -, hvl, hvh, hfs⟩ :=
            hspec INT_MAX alpha beta hab (Or.inr (by decide))
          rw [hts] at hts2
          cases hts2
          refine ⟨v, ?_, ?_, hvh hne, hfs⟩
          · rw [alphaBeta_min_step hms hterm]; exact hv
          · have h2 : min INT_MAX (-192) = -192 := by decide
            rw [h2] at hvl
            exact hvl

/-! ## Claims on the search -/

/-- C1. Alpha-beta equals plain minimax on the full window: on an 8x8 board,
for `0 ≤ depth ≤ maxDepth` and either side to move, the search started with
the window `(INT_MIN, INT_MAX)` returns a value, and that value is the one
returned by the unpruned reference `minimax` (fuel larger than the number of
plies `maxDepth - depth` left to search). -/
theorem alphaBeta_eq_minimax (fuel : Nat) (board : CheckersBoard) (hb : is8x8 board)
    (depth maxDepth : Int) (isMaximizingPlayer : Bool)
    (hd : depth ≤ maxDepth) (hf : maxDepth - depth < fuel) :
    ∃ v, alphaBeta fuel board depth maxDepth isMaximizingPlayer INT_MIN INT_MAX = some v ∧
      minimax fuel board depth maxDepth isMaximizingPlayer = some v := by
  obtain ⟨t, ht, -, -, hall⟩ := alphaBeta_spec fuel board depth maxDepth isMaximizingPlayer hb hd hf
  obtain ⟨v, hv, hvl, hvh, hfs⟩ := hall INT_MIN INT_MAX (by decide)
  have h1 : INT_MIN < v := lt_of_lt_of_le (by decide) hvl
  have h2 : v < INT_MAX := lt_of_le_of_lt hvh (by decide)
  have hvt : v = t := hfs.2.1 h1 h2
  exact ⟨v, hv, by rw [ht, hvt]⟩

theorem alphaBeta_eq_minimax_witness :
    ∃ v, alphaBeta 3 openingBoard 0 2 true INT_MIN INT_MAX = some v ∧
      minimax 3 openingBoard 0 2 true = some v :=
  alphaBeta_eq_minimax 3 openingBoard (by decide) 0 2 true (by decide) (by decide)


theorem findBestLoop_spec (fuel : Nat) (board : CheckersBoard) (maxDepth : Int)
    (ms : List Move)
    (H : ∀ m ∈ ms, ChildOk (fun nb a b => alphaBeta fuel nb 0 maxDepth false a b)
      (fun nb => minimax fuel nb 0 maxDepth false) board (-192) 192 m) :
    ∀ (bv : Int) (bm : Move), bv ≤ 192 →
      ∃ r, findBestLoop fuel board maxDepth INT_MAX ms bv bm bv = some r ∧
        ((r = bm ∧ ∀ m ∈ ms, ∃ t, rootValue fuel board maxDepth m = some t ∧ t ≤ bv) ∨
         (∃ pre post t, ms = pre ++ r :: post ∧ rootValue fuel board maxDepth r = some t ∧
            bv < t ∧
            (∀ x ∈ pre, ∃ tx, rootValue fuel board maxDepth x = some tx ∧ tx < t) ∧
            (∀ x ∈ post, ∃ tx, rootValue fuel board maxDepth x = some tx ∧ tx ≤ t))) := by
  induction ms with
  | nil =>
    intro bv bm _
    refine ⟨bm, rfl, Or.inl ⟨rfl, ?_⟩⟩
    intro m hm
    cases hm
  | cons m rest ih =>
    intro bv bm hbv
    obtain ⟨nb, t, hnb, ht, htl, hth, hall⟩ := H m (List.mem_cons_self _ _)
    obtain ⟨v, hv, hvl, hvh, hfs⟩ := hall bv INT_MAX (lt_of_le_of_lt hbv (by decide))
    have hroot : rootValue fuel board maxDepth m = some t := by
      unfold rootValue
      rw [hnb]
      exact ht
    have hvmax : v < INT_MAX := lt_of_le_of_lt hvh (by decide)
    have ih2 := ih (fun x hx => H x (List.mem_cons_of_mem _ hx))
    rw [findBestLoop]
    simp only [hnb, hv, Option.bind_eq_bind, Option.some_bind]
    by_cases hgt : v > bv
    · have hvt : v = t := hfs.2.1 hgt hvmax
      rw [if_pos hgt, max_eq_right (le_of_lt hgt)]
      simp only
      obtain ⟨r, hr, hcase⟩ := ih2 v m hvh
      refine ⟨r, hr, Or.inr ?_⟩
      rcases hcase with ⟨hrm, hrest⟩ | ⟨pre, post, t2, hsplit, hr2, hlt, hpre, hpost⟩
      · subst hrm
        refine ⟨[], rest, t, rfl, hroot, by omega, ?_, ?_⟩
        · intro x hx; cases hx
        · intro x hx
          obtain ⟨tx, htx, hle⟩ := hrest x hx
          exact ⟨tx, htx, by omega⟩
      · refine ⟨m :: pre, post, t2, by rw [hsplit]; rfl, hr2, by omega, ?_, hpost⟩
        intro x hx
        rcases List.mem_cons.1 hx with h | h
        · subst h
          exact ⟨t, hroot, by omega⟩
        · exact hpre x h
    · have hle : t ≤ v := hfs.1 (by omega)
      rw [if_neg hgt, max_eq_left (by omega)]
      simp only
      obtain ⟨r, hr, hcase⟩ := ih2 bv bm hbv
      refine ⟨r, hr, ?_⟩
      rcases hcase with ⟨hrm, hrest⟩ | ⟨pre, post, t2, hsplit, hr2, hlt, hpre, hpost⟩
      · left
        refine ⟨hrm, ?_⟩
        intro x hx
        rcases List.mem_cons.1 hx with h | h
        · subst h
          exact ⟨t, hroot, by omega⟩
        · exact hrest x h
      · right
        refine ⟨m :: pre, post, t2, by rw [hsplit]; rfl, hr2, hlt, ?_, hpost⟩
        intro x hx
        rcases List.mem_cons.1 hx with h | h
        · subst h
          exact ⟨t, hroot, by omega⟩
        · exact hpre x h

/-- Every root move of an 8x8 board can be searched with enough fuel. -/
theorem root_children_ok {fuel : Nat} {board : CheckersBoard} (hb : is8x8 board)
    {maxDepth : Int} (h0 : 0 ≤ maxDepth) (hf : maxDepth < fuel) {ms : List Move}
    (hms : generateLegalMoves board WHITE = some ms) :
    ∀ m ∈ ms, ChildOk (fun nb a b => alphaBeta fuel nb 0 maxDepth false a b)
      (fun nb => minimax fuel nb 0 maxDepth false) board (-192) 192 m := by
  intro m hm
  obtain ⟨nb, hnb, hnb8⟩ := applyMove_generated hb hms hm
  obtain ⟨t, ht, htl, hth, hall⟩ :=
    alphaBeta_spec fuel nb 0 maxDepth false hnb8 h0 (by omega)
  exact ⟨nb, t, hnb, ht, htl, hth, hall⟩

theorem findBestMove_unfold {fuel : Nat} {board : CheckersBoard} {maxDepth : Int}
    {ms : List Move} (hms : generateLegalMoves board WHITE = some ms) :
    findBestMove fuel board maxDepth =
      findBestLoop fuel board maxDepth INT_MAX ms INT_MIN noMove INT_MIN := by
  unfold findBestMove
  simp only [hms, Option.bind_eq_bind, Option.some_bind]

/-- With at least one root move, `findBestMove` returns the earliest best one. -/
theorem findBestMove_earliest {fuel : Nat} {board : CheckersBoard} (hb : is8x8 board)
    {maxDepth : Int} (h0 : 0 ≤ maxDepth) (hf : maxDepth < fuel) {ms : List Move}
    (hms : generateLegalMoves board WHITE = some ms) (hne : ms ≠ []) :
    ∃ r, findBestMove fuel board maxDepth = some r ∧ EarliestBest fuel board maxDepth ms r := by
  have H := root_children_ok hb h0 hf hms
  obtain ⟨r, hr, hcase⟩ := findBestLoop_spec fuel board maxDepth ms H INT_MIN noMove (by decide)
  refine ⟨r, by rw [findBestMove_unfold hms]; exact hr, ?_⟩
  rcases hcase with ⟨-, hall⟩ | ⟨pre, post, t, hsplit, hrv, -, hpre, hpost⟩
  · exfalso
    cases ms with
    | nil => exact hne rfl
    | cons m rest =>
      obtain ⟨t, ht, hle⟩ := hall m (List.mem_cons_self _ _)
      obtain ⟨nb, t2, hnb, ht2, htl, -⟩ := H m (List.mem_cons_self _ _)
      unfold rootValue at ht
      rw [hnb] at ht
      simp only [Option.some_bind] at ht
      have ht3 : minimax fuel nb 0 maxDepth false = some t2 := ht2
      rw [ht3] at ht
      cases ht
      have h2 : INT_MIN < -192 := by decide
      omega
  · exact ⟨pre, post, t, hsplit, hrv, hpre, hpost⟩

theorem valid_of_generated {board : CheckersBoard} (hb : is8x8 board) {player : Char}
    {moves : List Move} (hg : generateLegalMoves board player = some moves)
    {m : Move} (hm : m ∈ moves) : isValidMove board m player = some true := by
  rw [generateLegalMoves_eq hb player] at hg
  cases hg
  by_cases hj : (allJumps board player).isEmpty = true
  · rw [if_pos hj] at hm
    exact (valid_of_mem_allSteps hm).1
  · rw [if_neg hj] at hm
    exact (valid_of_mem_allJumps hm).1

theorem mem_of_earliestBest {fuel : Nat} {board : CheckersBoard} {maxDepth : Int}
    {ms : List Move} {r : Move} (h : EarliestBest fuel board maxDepth ms r) : r ∈ ms := by
  obtain ⟨pre, post, t, hsplit, -⟩ := h
  rw [hsplit]
  exact List.mem_append_right _ (List.mem_cons_self _ _)

/-- C2. On an 8x8 board on which White has at least one generated move, and for
`maxDepth ≥ 0` (fuel larger than `maxDepth`), `findBestMove` returns a move of
the generated list such that every earlier move of the list has a strictly
smaller unpruned minimax value and every later move has a value at most equal:
the earliest move of greatest value. -/
theorem findBestMove_first_optimal (fuel : Nat) (board : CheckersBoard) (hb : is8x8 board)
    (maxDepth : Int) (h0 : 0 ≤ maxDepth) (hf : maxDepth < fuel) (moves : List Move)
    (hms : generateLegalMoves board WHITE = some moves) (hne : moves ≠ []) :
    ∃ r pre post t, findBestMove fuel board maxDepth = some r ∧
      moves = pre ++ r :: post ∧
      (applyMove board r).bind (fun nb => minimax fuel nb 0 maxDepth false) = some t ∧
      (∀ x ∈ pre, ∃ tx,
        (applyMove board x).bind (fun nb => minimax fuel nb 0 maxDepth false) = some tx ∧
          tx < t) ∧
      (∀ x ∈ post, ∃ tx,
        (applyMove board x).bind (fun nb => minimax fuel nb 0 maxDepth false) = some tx ∧
          tx ≤ t) := by
  obtain ⟨r, hr, pre, post, t, hsplit, hrv, hpre, hpost⟩ :=
    findBestMove_earliest hb h0 hf hms hne
  exact ⟨r, pre, post, t, hr, hsplit, hrv, hpre, hpost⟩

theorem findBestMove_first_optimal_witness :
    (∃ t, findBestMove 2 tieBoard 1 = some ⟨4, 3, 3, 4, false, []⟩ ∧
      (applyMove tieBoard ⟨4, 3, 3, 4, false, []⟩).bind (fun nb => minimax 2 nb 0 1 false)
        = some t ∧
      (∀ x ∈ [(⟨4, 3, 3, 2, false, []⟩ : Move)], ∃ tx,
        (applyMove tieBoard x).bind (fun nb => minimax 2 nb 0 1 false) = some tx ∧ tx < t) ∧
      (∀ x ∈ [(⟨6, 5, 5, 4, false, []⟩ : Move), ⟨6, 5, 5, 6, false, []⟩], ∃ tx,
        (applyMove tieBoard x).bind (fun nb => minimax 2 nb 0 1 false) = some tx ∧ tx ≤ t)) ∧
    [rootValue 2 tieBoard 1 ⟨4, 3, 3, 2, false, []⟩,
      rootValue 2 tieBoard 1 ⟨4, 3, 3, 4, false, []⟩,
      rootValue 2 tieBoard 1 ⟨6, 5, 5, 4, false, []⟩,
      rootValue 2 tieBoard 1 ⟨6, 5, 5, 6, false, []⟩]
      = [some (-1), some 0, some 0, some (-1)] := by
  refine ⟨?_, by decide⟩
  obtain ⟨r, pre, post, t, hr, hsplit, ht, hpre, hpost⟩ :=
    findBestMove_first_optimal 2 tieBoard (by decide) 1 (by decide) (by decide)
      [⟨4, 3, 3, 2, false, []⟩, ⟨4, 3, 3, 4, false, []⟩, ⟨6, 5, 5, 4, false, []⟩,
        ⟨6, 5, 5, 6, false, []⟩] (by decide) (by decide)
  have hfb : findBestMove 2 tieBoard 1 = some ⟨4, 3, 3, 4, false, []⟩ := by decide
  have hrm : r = ⟨4, 3, 3, 4, false, []⟩ := Option.some.inj (hr.symm.trans hfb)
  subst hrm
  rcases pre with _ | ⟨a, _ | ⟨b, _ | ⟨c, _ | ⟨d, p⟩⟩⟩⟩
  · simp at hsplit
  · simp at hsplit
    obtain ⟨ha, hp⟩ := hsplit
    subst ha
    subst hp
    exact ⟨t, hfb, ht, hpre, hpost⟩
  · simp at hsplit
  · simp at hsplit
  · simp at hsplit

/-- C3. On an 8x8 board and for `maxDepth ≥ 0` (fuel larger than `maxDepth`),
`findBestMove` returns a move; that move is the sentinel
`(-1, -1, -1, -1, false, [])` exactly when the list generated for White is
empty, and otherwise it is an element of that list. -/
theorem findBestMove_sentinel_iff (fuel : Nat) (board : CheckersBoard) (hb : is8x8 board)
    (maxDepth : Int) (h0 : 0 ≤ maxDepth) (hf : maxDepth < fuel) :
    ∃ moves r, generateLegalMoves board WHITE = some moves ∧
      findBestMove fuel board maxDepth = some r ∧
      (r = ⟨-1, -1, -1, -1, false, []⟩ ↔ moves = []) ∧
      ((r.startRow = -1 ∧ r.startCol = -1 ∧ r.endRow = -1 ∧ r.endCol = -1) ↔ moves = []) ∧
      (moves ≠ [] → r ∈ moves) := by
  have hms := generateLegalMoves_eq hb WHITE
  generalize (if (allJumps board WHITE).isEmpty then allSteps board WHITE
    else allJumps board WHITE) = ms at hms
  by_cases hne : ms = []
  · subst hne
    refine ⟨[], noMove, hms, ?_, ?_, ?_, ?_⟩
    · rw [findBestMove_unfold hms]
      rfl
    · exact ⟨fun _ => rfl, fun _ => rfl⟩
    · exact ⟨fun _ => rfl, fun _ => ⟨rfl, rfl, rfl, rfl⟩⟩
    · intro h
      exact absurd rfl h
  · obtain ⟨r, hr, hbest⟩ := findBestMove_earliest hb h0 hf hms hne
    have hmem := mem_of_earliestBest hbest
    have hval := valid_of_generated hb hms hmem
    obtain ⟨hs, -⟩ := (isValidMove_true_iff _ _ _).1 hval
    have hs2 := (isValidSquare_iff _ _).1 hs
    refine ⟨ms, r, hms, hr, ?_, ?_, fun _ => hmem⟩
    · constructor
      · intro h
        exfalso
        rw [h] at hs2
        simp only at hs2
        omega
      · intro h
        exact absurd h hne
    · constructor
      · rintro ⟨h, -⟩
        exfalso
        omega
      · intro h
        exact absurd h hne

theorem findBestMove_sentinel_iff_witness :
    ∃ moves r, generateLegalMoves captureBoard WHITE = some moves ∧
      findBestMove 2 captureBoard 1 = some r ∧
      (r = ⟨-1, -1, -1, -1, false, []⟩ ↔ moves = []) ∧
      ((r.startRow = -1 ∧ r.startCol = -1 ∧ r.endRow = -1 ∧ r.endCol = -1) ↔ moves = []) ∧
      (moves ≠ [] → r ∈ moves) :=
  findBestMove_sentinel_iff 2 captureBoard (by decide) 1 (by decide) (by decide)

/-! ## Effect of writes on reads -/

theorem getCell_setCell {board b2 : CheckersBoard} {row col : Int} {v : Char}
    (h : setCell board row col v = some b2) (r c : Int) :
    getCell b2 r c = if r = row ∧ c = col then some v else getCell board r c := by
  unfold setCell at h
  by_cases hneg : row < 0 ∨ col < 0
  · rw [if_pos hneg] at h; cases h
  · rw [if_neg hneg] at h
    cases hrow : board[row.toNat]? with
    | none => rw [hrow] at h; cases h
    | some cells =>
      rw [hrow] at h
      simp only at h
      by_cases hlen : col.toNat < cells.length
      · rw [if_pos hlen] at h
        cases h
        unfold getCell
        by_cases hn2 : r < 0 ∨ c < 0
        · rw [if_pos hn2, if_pos hn2, if_neg (by omega)]
        · rw [if_neg hn2, if_neg hn2]
          by_cases hr : r = row
          · subst hr
            have hlt : r.toNat < board.length := by
              rcases Nat.lt_or_ge r.toNat board.length with h1 | h1
              · exact h1
              · rw [List.getElem?_eq_none h1] at hrow; cases hrow
            have e1 : (board.set r.toNat (cells.set col.toNat v))[r.toNat]?
                = some (cells.set col.toNat v) := by
              rw [List.getElem?_set]
              simp only [if_true, hlt]
            rw [e1, hrow]
            simp only
            by_cases hc : c = col
            · subst hc
              have e2 : (cells.set c.toNat v)[c.toNat]? = some v := by
                rw [List.getElem?_set]
                simp only [if_true, hlen]
              rw [e2]
              simp
            · rw [List.getElem?_set_ne (by omega), if_neg (fun h => hc h.2)]
          · rw [List.getElem?_set_ne (by omega), if_neg (fun h => hr h.1)]
      · rw [if_neg hlen] at h; cases h

theorem getCell_clearCells (caps : List (Int × Int)) {board b2 : CheckersBoard}
    (h : caps.foldlM (fun newBoard captured =>
        setCell newBoard captured.1 captured.2 EMPTY_SQUARE) board = some b2) (r c : Int) :
    getCell b2 r c = if (r, c) ∈ caps then some EMPTY_SQUARE else getCell board r c := by
  induction caps generalizing board with
  | nil =>
    cases h
    simp
  | cons sq rest ih =>
    rw [List.foldlM_cons] at h
    cases h1 : setCell board sq.1 sq.2 EMPTY_SQUARE with
    | none => rw [h1] at h; cases h
    | some b1 =>
      rw [h1] at h
      rw [ih h, getCell_setCell h1]
      by_cases hrest : (r, c) ∈ rest
      · rw [if_pos hrest, if_pos (List.mem_cons_of_mem _ hrest)]
      · rw [if_neg hrest]
        by_cases hsq : r = sq.1 ∧ c = sq.2
        · rw [if_pos hsq, if_pos]
          rw [List.mem_cons]
          left
          exact Prod.ext hsq.1 hsq.2
        · rw [if_neg hsq, if_neg]
          rw [List.mem_cons]
          rintro (h2 | h2)
          · exact hsq ⟨congrArg Prod.fst h2, congrArg Prod.snd h2⟩
          · exact hrest h2

/-- The cell of the board returned by `applyMove`, in terms of the cells of the
board given to it. -/
theorem getCell_applyMove {board b2 : CheckersBoard} {m : Move}
    (h : applyMove board m = some b2) (r c : Int) :
    ∃ piece, getCell board m.startRow m.startCol = some piece ∧
      getCell b2 r c =
        if (r = m.endRow ∧ c = m.endCol) ∧ promoted piece m.endRow ≠ piece then
          some (promoted piece m.endRow)
        else if (r, c) ∈ m.capturedPieces then some EMPTY_SQUARE
        else if r = m.startRow ∧ c = m.startCol then some EMPTY_SQUARE
        else if r = m.endRow ∧ c = m.endCol then some piece
        else getCell board r c := by
  unfold applyMove at h
  dsimp only at h
  cases hp : getCell board m.startRow m.startCol with
  | none => rw [hp] at h; cases h
  | some piece =>
    refine ⟨piece, rfl, ?_⟩
    rw [hp] at h
    simp only [Option.bind_eq_bind, Option.some_bind] at h
    cases h1 : setCell board m.endRow m.endCol piece with
    | none => rw [h1] at h; cases h
    | some b1 =>
      rw [h1] at h
      simp only [Option.some_bind] at h
      cases h2 : setCell b1 m.startRow m.startCol EMPTY_SQUARE with
      | none => rw [h2] at h; cases h
      | some b3 =>
        rw [h2] at h
        simp only [Option.some_bind] at h
        cases h3 : m.capturedPieces.foldlM (fun newBoard captured =>
            setCell newBoard captured.1 captured.2 EMPTY_SQUARE) b3 with
        | none => rw [h3] at h; cases h
        | some b4 =>
          rw [h3] at h
          simp only [Option.some_bind] at h
          have hb4 : getCell b4 r c =
              if (r, c) ∈ m.capturedPieces then some EMPTY_SQUARE
              else if r = m.startRow ∧ c = m.startCol then some EMPTY_SQUARE
              else if r = m.endRow ∧ c = m.endCol then some piece
              else getCell board r c := by
            rw [getCell_clearCells _ h3, getCell_setCell h2, getCell_setCell h1]
          unfold promoted
          by_cases hw : piece = WHITE_PIECE ∧ m.endRow = 0
          · rw [if_pos hw] at h
            rw [if_pos hw, getCell_setCell h, hb4]
            have hne : WHITE_KING ≠ piece := by rw [hw.1]; decide
            by_cases he : r = m.endRow ∧ c = m.endCol
            · simp only [he, hne, and_self, ne_eq, not_false_eq_true, if_true]
            · simp only [he, false_and, if_false]
          · rw [if_neg hw] at h
            rw [if_neg hw]
            by_cases hbk : piece = BLACK_PIECE ∧ m.endRow = 7
            · rw [if_pos hbk] at h
              rw [if_pos hbk, getCell_setCell h, hb4]
              have hne : BLACK_KING ≠ piece := by rw [hbk.1]; decide
              by_cases he : r = m.endRow ∧ c = m.endCol
              · simp only [he, hne, and_self, ne_eq, not_false_eq_true, if_true]
              · simp only [he, false_and, if_false]
            · rw [if_neg hbk] at h
              cases h
              rw [if_neg hbk, hb4]
              simp only [ne_eq, not_true_eq_false, and_false, if_false]

/-! ## Shape of generated moves -/

theorem generated_cases {board : CheckersBoard} (hb : is8x8 board) {player : Char}
    {moves : List Move} (hg : generateLegalMoves board player = some moves)
    {m : Move} (hm : m ∈ moves) :
    isValidMove board m player = some true ∧
    ((∃ r c rd cd : Int, (rd = -1 ∨ rd = 1) ∧ (cd = -1 ∨ cd = 1) ∧
        m = ⟨r, c, r + rd, c + cd, false, []⟩) ∨
     (∃ r c rd cd : Int, (rd = -1 ∨ rd = 1) ∧ (cd = -1 ∨ cd = 1) ∧
        m = ⟨r, c, r + rd * 2, c + cd * 2, true, [(r + rd, c + cd)]⟩)) := by
  rw [generateLegalMoves_eq hb player] at hg
  cases hg
  by_cases hj : (allJumps board player).isEmpty = true
  · rw [if_pos hj] at hm
    refine ⟨(valid_of_mem_allSteps hm).1, Or.inl ?_⟩
    obtain ⟨r, c, rd, cd, piece, hrd, hcd, -, -, -, hmeq⟩ := (mem_allSteps board player m).1 hm
    exact ⟨r, c, rd, cd, hrd, hcd, hmeq⟩
  · rw [if_neg hj] at hm
    refine ⟨(valid_of_mem_allJumps hm).1, Or.inr ?_⟩
    obtain ⟨r, c, rd, cd, hrd, hcd, -, hmeq⟩ := (mem_allJumps board player m).1 hm
    exact ⟨r, c, rd, cd, hrd, hcd, hmeq⟩

/-- Effect of `applyMove` for a generated move, with the promotion folded into
`promoted`. -/
theorem applyMove_generated_effect {board : CheckersBoard} (hb : is8x8 board) {player : Char}
    {moves : List Move} (hg : generateLegalMoves board player = some moves)
    {m : Move} (hm : m ∈ moves) :
    ∃ piece b2, getCell board m.startRow m.startCol = some piece ∧ ownedBy player piece ∧
      applyMove board m = some b2 ∧ is8x8 b2 ∧
      getCell b2 m.startRow m.startCol = some EMPTY_SQUARE ∧
      getCell b2 m.endRow m.endCol = some (promoted piece m.endRow) ∧
      (∀ sq ∈ m.capturedPieces, getCell b2 sq.1 sq.2 = some EMPTY_SQUARE) ∧
      (∀ r c : Int, ¬ (r = m.startRow ∧ c = m.startCol) → ¬ (r = m.endRow ∧ c = m.endCol) →
        (r, c) ∉ m.capturedPieces → getCell b2 r c = getCell board r c) := by
  obtain ⟨b2, hb2, hb28⟩ := applyMove_generated hb hg hm
  obtain ⟨hval, hshape⟩ := generated_cases hb hg hm
  obtain ⟨-, -, piece, hp, ho, -⟩ := (isValidMove_true_iff _ _ _).1 hval
  have hcell := fun r c => getCell_applyMove hb2 r c
  have hcell2 : ∀ r c : Int, getCell b2 r c =
        if (r = m.endRow ∧ c = m.endCol) ∧ promoted piece m.endRow ≠ piece then
          some (promoted piece m.endRow)
        else if (r, c) ∈ m.capturedPieces then some EMPTY_SQUARE
        else if r = m.startRow ∧ c = m.startCol then some EMPTY_SQUARE
        else if r = m.endRow ∧ c = m.endCol then some piece
        else getCell board r c := by
    intro r c
    obtain ⟨piece2, hp2, hc⟩ := hcell r c
    rw [hp] at hp2
    cases hp2
    exact hc
  refine ⟨piece, b2, hp, ho, hb2, hb28, ?_, ?_, ?_, ?_⟩
  · rw [hcell2]
    rcases hshape with ⟨r, c, rd, cd, hrd, hcd, rfl⟩ | ⟨r, c, rd, cd, hrd, hcd, rfl⟩
    · have h1 : ¬ (r = r + rd ∧ c = c + cd) := by omega
      simp only [h1, false_and, if_false, List.not_mem_nil, and_self, if_true]
    · have h1 : ¬ (r = r + rd * 2 ∧ c = c + cd * 2) := by omega
      have h2 : ¬ ((r, c) ∈ [(r + rd, c + cd)]) := by
        rw [List.mem_singleton, Prod.mk.injEq]
        omega
      simp only [h1, h2, false_and, if_false, and_self, if_true]
  · rw [hcell2]
    by_cases hpr : promoted piece m.endRow ≠ piece
    · simp only [hpr, and_self, ne_eq, not_false_eq_true, if_true]
    · have hpr2 : promoted piece m.endRow = piece := not_not.1 hpr
      rw [hpr2]
      rcases hshape with ⟨r, c, rd, cd, hrd, hcd, rfl⟩ | ⟨r, c, rd, cd, hrd, hcd, rfl⟩
      · have h1 : ¬ (r + rd = r ∧ c + cd = c) := by omega
        simp only [h1, ne_eq, not_true_eq_false, and_false, if_false, List.not_mem_nil,
          and_self, if_true]
      · have h1 : ¬ (r + rd * 2 = r ∧ c + cd * 2 = c) := by omega
        have h2 : ¬ ((r + rd * 2, c + cd * 2) ∈ [(r + rd, c + cd)]) := by
          rw [List.mem_singleton, Prod.mk.injEq]
          omega
        simp only [h1, h2, ne_eq, not_true_eq_false, and_false, if_false, and_self, if_true]
  · intro sq hsq
    rw [hcell2]
    rcases hshape with ⟨r, c, rd, cd, hrd, hcd, rfl⟩ | ⟨r, c, rd, cd, hrd, hcd, rfl⟩
    · cases hsq
    · rw [List.mem_singleton] at hsq
      subst hsq
      have h1 : ¬ (r + rd = r + rd * 2 ∧ c + cd = c + cd * 2) := by omega
      simp only [h1, false_and, if_false, List.mem_singleton, if_true]
  · intro r c hs he hcap
    rw [hcell2]
    simp only [he, false_and, if_false, hcap, hs]

/-! ## Claims on move shape, move application and bookkeeping -/

/-- C11. Whenever `isValidMove` accepts a move, its row and column distances
are equal and their common value is 1 or 2; and on the board built by
`initializeBoard` the move (5,0) -> (3,0) is rejected for White. -/
theorem isValidMove_shape :
    (∀ (board : CheckersBoard) (m : Move) (player : Char),
      isValidMove board m player = some true →
      (m.endRow - m.startRow).natAbs = (m.endCol - m.startCol).natAbs ∧
      ((m.endRow - m.startRow).natAbs = 1 ∨ (m.endRow - m.startRow).natAbs = 2)) ∧
    (∃ board, initializeBoard = some board ∧
      isValidMove board ⟨5, 0, 3, 0, false, []⟩ WHITE = some false) := by
  constructor
  · intro board m player h
    rcases rowDiff_of_valid h with ⟨h1, h2⟩ | ⟨h1, h2⟩
    · exact ⟨by rw [h1, h2], Or.inl h1⟩
    · exact ⟨by rw [h1, h2], Or.inr h1⟩
  · exact ⟨openingBoard, by decide, by decide⟩

theorem isValidMove_shape_witness :
    (((3 : Int) - 5).natAbs = ((4 : Int) - 2).natAbs) ∧
      ((((3 : Int) - 5).natAbs = 1) ∨ (((3 : Int) - 5).natAbs = 2)) :=
  isValidMove_shape.1 captureBoard ⟨5, 2, 3, 4, false, []⟩ WHITE (by decide)

/-- C12. For a move generated on an 8x8 board, `applyMove` returns a board (every
square it indexes is inside the board: start and end are valid squares and the
captured squares are in range), again 8x8, in which the start square is empty,
the end square holds the moved piece (its king when promoted), every captured
square is empty, and every other square holds what it held before. -/
theorem applyMove_effect_frame (board : CheckersBoard) (hb : is8x8 board) (player : Char)
    (moves : List Move) (hg : generateLegalMoves board player = some moves)
    (m : Move) (hm : m ∈ moves) :
    ∃ piece b2, getCell board m.startRow m.startCol = some piece ∧
      applyMove board m = some b2 ∧ is8x8 b2 ∧
      isValidSquare m.startRow m.startCol = true ∧ isValidSquare m.endRow m.endCol = true ∧
      (∀ sq ∈ m.capturedPieces, 0 ≤ sq.1 ∧ sq.1 < 8 ∧ 0 ≤ sq.2 ∧ sq.2 < 8) ∧
      getCell b2 m.startRow m.startCol = some EMPTY_SQUARE ∧
      getCell b2 m.endRow m.endCol =
        some (if piece = WHITE_PIECE ∧ m.endRow = 0 then WHITE_KING
              else if piece = BLACK_PIECE ∧ m.endRow = 7 then BLACK_KING else piece) ∧
      (∀ sq ∈ m.capturedPieces, getCell b2 sq.1 sq.2 = some EMPTY_SQUARE) ∧
      (∀ r c : Int, ¬ (r = m.startRow ∧ c = m.startCol) → ¬ (r = m.endRow ∧ c = m.endCol) →
        (r, c) ∉ m.capturedPieces → getCell b2 r c = getCell board r c) := by
  obtain ⟨piece, b2, hp, -, hb2, hb28, hstart, hend, hcap, hframe⟩ :=
    applyMove_generated_effect hb hg hm
  obtain ⟨hs, he, -⟩ := (isValidMove_true_iff _ _ _).1 (valid_of_generated hb hg hm)
  refine ⟨piece, b2, hp, hb2, hb28, hs, he, ?_, hstart, hend, hcap, hframe⟩
  intro sq hsq
  have hsome := hcap sq hsq
  unfold getCell at hsome
  by_cases hneg : sq.1 < 0 ∨ sq.2 < 0
  · rw [if_pos hneg] at hsome; cases hsome
  · rw [if_neg hneg] at hsome
    have h1 : sq.1.toNat < b2.length := by
      rcases Nat.lt_or_ge sq.1.toNat b2.length with h | h
      · exact h
      · rw [List.getElem?_eq_none h] at hsome; cases hsome
    rw [List.getElem?_eq_getElem h1] at hsome
    simp only at hsome
    have hlen : (b2[sq.1.toNat]).length = 8 := hb28.2 _ (List.getElem_mem _)
    have h2 : sq.2.toNat < 8 := by
      rcases Nat.lt_or_ge sq.2.toNat (b2[sq.1.toNat]).length with h | h
      · omega
      · rw [List.getElem?_eq_none h] at hsome; cases hsome
    rw [hb28.1] at h1
    omega

theorem applyMove_effect_frame_witness :
    ∃ piece b2, getCell captureBoard 5 2 = some piece ∧
      applyMove captureBoard ⟨5, 2, 3, 4, true, [(4, 3)]⟩ = some b2 ∧ is8x8 b2 ∧
      isValidSquare 5 2 = true ∧ isValidSquare 3 4 = true ∧
      (∀ sq ∈ [((4 : Int), (3 : Int))], 0 ≤ sq.1 ∧ sq.1 < 8 ∧ 0 ≤ sq.2 ∧ sq.2 < 8) ∧
      getCell b2 5 2 = some EMPTY_SQUARE ∧
      getCell b2 3 4 =
        some (if piece = WHITE_PIECE ∧ (3 : Int) = 0 then WHITE_KING
              else if piece = BLACK_PIECE ∧ (3 : Int) = 7 then BLACK_KING else piece) ∧
      (∀ sq ∈ [((4 : Int), (3 : Int))], getCell b2 sq.1 sq.2 = some EMPTY_SQUARE) ∧
      (∀ r c : Int, ¬ (r = 5 ∧ c = 2) → ¬ (r = 3 ∧ c = 4) →
        (r, c) ∉ [((4 : Int), (3 : Int))] → getCell b2 r c = getCell captureBoard r c) :=
  applyMove_effect_frame captureBoard (by decide) WHITE [⟨5, 2, 3, 4, true, [(4, 3)]⟩]
    (by decide) ⟨5, 2, 3, 4, true, [(4, 3)]⟩ (by decide)

/-- C13. Promotion and no demotion: for a move generated on an 8x8 board, with
`piece` the piece on its start square, the end square of the board returned by
`applyMove` holds the White king if `piece` is a White man and the end row is
0, the Black king if `piece` is a Black man and the end row is 7, `piece`
itself if it is a man that did not reach that row, and `piece` itself if it is
a king, whatever the end row. -/
theorem applyMove_promotion (board : CheckersBoard) (hb : is8x8 board) (player : Char)
    (moves : List Move) (hg : generateLegalMoves board player = some moves)
    (m : Move) (hm : m ∈ moves) :
    ∃ piece b2, getCell board m.startRow m.startCol = some piece ∧
      applyMove board m = some b2 ∧
      (piece = WHITE_PIECE → m.endRow = 0 →
        getCell b2 m.endRow m.endCol = some WHITE_KING) ∧
      (piece = BLACK_PIECE → m.endRow = 7 →
        getCell b2 m.endRow m.endCol = some BLACK_KING) ∧
      (piece = WHITE_PIECE → m.endRow ≠ 0 → getCell b2 m.endRow m.endCol = some piece) ∧
      (piece = BLACK_PIECE → m.endRow ≠ 7 → getCell b2 m.endRow m.endCol = some piece) ∧
      (piece = WHITE_KING ∨ piece = BLACK_KING →
        getCell b2 m.endRow m.endCol = some piece) := by
  obtain ⟨piece, b2, hp, -, hb2, -, -, hend, -, -⟩ := applyMove_generated_effect hb hg hm
  unfold promoted at hend
  refine ⟨piece, b2, hp, hb2, ?_, ?_, ?_, ?_, ?_⟩
  · intro h1 h2
    rw [hend, if_pos ⟨h1, h2⟩]
  · intro h1 h2
    have hne : ¬ (piece = WHITE_PIECE ∧ m.endRow = 0) := by
      rintro ⟨h3, -⟩
      rw [h1] at h3
      exact absurd h3 (by decide)
    rw [hend, if_neg hne, if_pos ⟨h1, h2⟩]
  · intro h1 h2
    have hne : ¬ (piece = BLACK_PIECE ∧ m.endRow = 7) := by
      rintro ⟨h3, -⟩
      rw [h1] at h3
      exact absurd h3 (by decide)
    rw [hend, if_neg (fun h => h2 h.2), if_neg hne]
  · intro h1 h2
    have hne : ¬ (piece = WHITE_PIECE ∧ m.endRow = 0) := by
      rintro ⟨h3, -⟩
      rw [h1] at h3
      exact absurd h3 (by decide)
    rw [hend, if_neg hne, if_neg (fun h => h2 h.2)]
  · intro hk
    have hne1 : ¬ (piece = WHITE_PIECE ∧ m.endRow = 0) := by
      rintro ⟨h3, -⟩
      rcases hk with h | h <;> rw [h] at h3 <;> exact absurd h3 (by decide)
    have hne2 : ¬ (piece = BLACK_PIECE ∧ m.endRow = 7) := by
      rintro ⟨h3, -⟩
      rcases hk with h | h <;> rw [h] at h3 <;> exact absurd h3 (by decide)
    rw [hend, if_neg hne1, if_neg hne2]

theorem applyMove_promotion_witness :
    ∃ b2, applyMove promotionBoard ⟨1, 0, 0, 1, false, []⟩ = some b2 ∧
      getCell b2 0 1 = some WHITE_KING := by
  obtain ⟨piece, b2, hp, hb2, hw, -⟩ := applyMove_promotion promotionBoard (by decide) WHITE
    [⟨1, 0, 0, 1, false, []⟩] (by decide) ⟨1, 0, 0, 1, false, []⟩ (by decide)
  have hpiece : getCell promotionBoard 1 0 = some WHITE_PIECE := by decide
  simp only at hp
  rw [hpiece] at hp
  cases hp
  exact ⟨b2, hb2, hw rfl rfl⟩

/-- C20. Capture bookkeeping: every move generated on an 8x8 board is flagged as a
capture exactly when it is two rows long (and as a non-capture exactly when it
is one row long); a capture move lists exactly one captured square, the
midpoint of the move, and that square holds a piece of the opposing side; a
non-capture move lists no captured square. -/
theorem generateLegalMoves_capture_bookkeeping (board : CheckersBoard) (hb : is8x8 board)
    (player : Char) :
    ∃ moves, generateLegalMoves board player = some moves ∧
      ∀ m ∈ moves,
        (m.isCapture = true ↔ (m.endRow - m.startRow).natAbs = 2) ∧
        (m.isCapture = false ↔ (m.endRow - m.startRow).natAbs = 1) ∧
        (m.isCapture = true →
          m.capturedPieces = [(m.startRow + (m.endRow - m.startRow).tdiv 2,
            m.startCol + (m.endCol - m.startCol).tdiv 2)] ∧
          ∃ jumped, getCell board (m.startRow + (m.endRow - m.startRow).tdiv 2)
              (m.startCol + (m.endCol - m.startCol).tdiv 2) = some jumped ∧
            opposes player jumped) ∧
        (m.isCapture = false → m.capturedPieces = []) := by
  refine ⟨_, generateLegalMoves_eq hb player, ?_⟩
  intro m hm
  by_cases hj : (allJumps board player).isEmpty = true
  · rw [if_pos hj] at hm
    obtain ⟨-, hcap, h1, hcs⟩ := valid_of_mem_allSteps hm
    refine ⟨?_, ?_, ?_, fun _ => hcs⟩
    · rw [hcap, h1]
      exact ⟨fun h => (by cases h), fun h => (by cases h)⟩
    · rw [hcap, h1]
      exact ⟨fun _ => rfl, fun _ => rfl⟩
    · intro h
      rw [hcap] at h
      cases h
  · rw [if_neg hj] at hm
    obtain ⟨hv, hcap, h2, hcs⟩ := valid_of_mem_allJumps hm
    obtain ⟨-, -, piece, -, -, -, hr⟩ := (isValidMove_true_iff _ _ _).1 hv
    have hjr : jumpRule board player m := by
      rcases hr with hst | hj2
      · obtain ⟨-, hrow⟩ := hst
        rcases hrow with ⟨-, h1⟩ | ⟨-, h1⟩ | ⟨-, h1⟩ <;> omega
      · exact hj2
    refine ⟨?_, ?_, fun _ => ⟨hcs, hjr.2.2.2⟩, ?_⟩
    · rw [hcap, h2]
      exact ⟨fun _ => rfl, fun _ => rfl⟩
    · rw [hcap, h2]
      exact ⟨fun h => (by cases h), fun h => (by cases h)⟩
    · intro h
      rw [hcap] at h
      cases h

theorem generateLegalMoves_capture_bookkeeping_witness :
    ∃ moves, generateLegalMoves captureBoard WHITE = some moves ∧
      ∀ m ∈ moves,
        (m.isCapture = true ↔ (m.endRow - m.startRow).natAbs = 2) ∧
        (m.isCapture = false ↔ (m.endRow - m.startRow).natAbs = 1) ∧
        (m.isCapture = true →
          m.capturedPieces = [(m.startRow + (m.endRow - m.startRow).tdiv 2,
            m.startCol + (m.endCol - m.startCol).tdiv 2)] ∧
          ∃ jumped, getCell captureBoard (m.startRow + (m.endRow - m.startRow).tdiv 2)
              (m.startCol + (m.endCol - m.startCol).tdiv 2) = some jumped ∧
            opposes WHITE jumped) ∧
        (m.isCapture = false → m.capturedPieces = []) :=
  generateLegalMoves_capture_bookkeeping captureBoard (by decide) WHITE

/-- C17. Terminal value of the search: on an 8x8 board, for every window and
either side to move, when `depth = maxDepth` or the side to move has an empty
list of generated moves, `alphaBeta` returns the value of `evaluateBoard`
(which exists); in particular at `depth = maxDepth = 0` for both sides. -/
theorem alphaBeta_terminal_value (fuel : Nat) (board : CheckersBoard) (hb : is8x8 board)
    (alpha beta : Int) :
    (∃ e, evaluateBoard board = some e) ∧
    (∀ (depth maxDepth : Int) (isMaximizingPlayer : Bool),
      (depth = maxDepth ∨
        generateLegalMoves board (if isMaximizingPlayer then WHITE else BLACK) = some []) →
      alphaBeta (fuel + 1) board depth maxDepth isMaximizingPlayer alpha beta
        = evaluateBoard board) ∧
    alphaBeta (fuel + 1) board 0 0 true alpha beta = evaluateBoard board ∧
    alphaBeta (fuel + 1) board 0 0 false alpha beta = evaluateBoard board := by
  have hterm : ∀ (depth maxDepth : Int) (isMax : Bool),
      (depth = maxDepth ∨
        generateLegalMoves board (if isMax then WHITE else BLACK) = some []) →
      alphaBeta (fuel + 1) board depth maxDepth isMax alpha beta = evaluateBoard board := by
    intro depth maxDepth isMax h
    have hms := generateLegalMoves_eq hb (if isMax then WHITE else BLACK)
    generalize (if (allJumps board (if isMax then WHITE else BLACK)).isEmpty
      then allSteps board (if isMax then WHITE else BLACK)
      else allJumps board (if isMax then WHITE else BLACK)) = ms at hms
    refine alphaBeta_terminal hms ?_ alpha beta
    rcases h with h | h
    · exact Or.inl h
    · rw [hms] at h
      cases h
      exact Or.inr rfl
  obtain ⟨e, he, -⟩ := evaluateBoard_bounded hb
  exact ⟨⟨e, he⟩, hterm, hterm 0 0 true (Or.inl rfl), hterm 0 0 false (Or.inl rfl)⟩

theorem alphaBeta_terminal_value_witness :
    alphaBeta (0 + 1) promotionBoard 3 5 false (-7) 7 = evaluateBoard promotionBoard :=
  (alphaBeta_terminal_value 0 promotionBoard (by decide) (-7) 7).2.1 3 5 false
    (Or.inr (by decide))

/-! ## Termination of the search -/

theorem maxLoop_total (child : CheckersBoard → Int → Int → Option Int)
    (board : CheckersBoard) (lo hi : Int) (ms : List Move)
    (H : ∀ m ∈ ms, ∃ nb, applyMove board m = some nb ∧
      ∀ a b : Int, ∃ v, child nb a b = some v ∧ lo ≤ v ∧ v ≤ hi) :
    ∀ best alpha beta : Int,
      ∃ v, maxLoop child board ms best alpha beta = some v ∧
        best ≤ v ∧ v ≤ max best hi ∧ (ms ≠ [] → lo ≤ v) := by
  induction ms with
  | nil =>
    intro best alpha beta
    exact ⟨best, rfl, le_refl _, le_max_left _ _, fun h => absurd rfl h⟩
  | cons m rest ih =>
    intro best alpha beta
    obtain ⟨nb, hnb, hchild⟩ := H m (List.mem_cons_self _ _)
    obtain ⟨v1, hv1, hvlo, hvhi⟩ := hchild alpha beta
    unfold maxLoop
    simp only [hnb, hv1, Option.bind_eq_bind, Option.some_bind]
    by_cases hcut : beta ≤ max alpha (max best v1)
    · rw [if_pos hcut]
      exact ⟨_, rfl, le_max_left _ _, by omega, fun _ => by omega⟩
    · rw [if_neg hcut]
      obtain ⟨v, hv, hge, hle, -⟩ :=
        ih (fun x hx => H x (List.mem_cons_of_mem _ hx)) (max best v1)
          (max alpha (max best v1)) beta
      exact ⟨v, hv, by omega, by omega, fun _ => by omega⟩

theorem minLoop_total (child : CheckersBoard → Int → Int → Option Int)
    (board : CheckersBoard) (lo hi : Int) (ms : List Move)
    (H : ∀ m ∈ ms, ∃ nb, applyMove board m = some nb ∧
      ∀ a b : Int, ∃ v, child nb a b = some v ∧ lo ≤ v ∧ v ≤ hi) :
    ∀ best alpha beta : Int,
      ∃ v, minLoop child board ms best alpha beta = some v ∧
        v ≤ best ∧ min best lo ≤ v ∧ (ms ≠ [] → v ≤ hi) := by
  induction ms with
  | nil =>
    intro best alpha beta
    exact ⟨best, rfl, le_refl _, min_le_left _ _, fun h => absurd rfl h⟩
  | cons m rest ih =>
    intro best alpha beta
    obtain ⟨nb, hnb, hchild⟩ := H m (List.mem_cons_self _ _)
    obtain ⟨v1, hv1, hvlo, hvhi⟩ := hchild alpha beta
    unfold minLoop
    simp only [hnb, hv1, Option.bind_eq_bind, Option.some_bind]
    by_cases hcut : min beta (min best v1) ≤ alpha
    · rw [if_pos hcut]
      exact ⟨_, rfl, min_le_left _ _, by omega, fun _ => by omega⟩
    · rw [if_neg hcut]
      obtain ⟨v, hv, hle, hge, -⟩ :=
        ih (fun x hx => H x (List.mem_cons_of_mem _ hx)) (min best v1)
          alpha (min beta (min best v1))
      exact ⟨v, hv, by omega, by omega, fun _ => by omega⟩

/-- With enough fuel the search returns a value, for every window (also an
empty one), and that value lies in `[-192, 192]`. -/
theorem alphaBeta_total (fuel : Nat) :
    ∀ (board : CheckersBoard) (depth maxDepth : Int) (isMax : Bool) (alpha beta : Int),
      is8x8 board → depth ≤ maxDepth → maxDepth - depth < fuel →
      ∃ v, alphaBeta fuel board depth maxDepth isMax alpha beta = some v ∧
        -192 ≤ v ∧ v ≤ 192 := by
  induction fuel with
  | zero =>
    intro board depth maxDepth isMax alpha beta _ hd hf
    exfalso
    simp only [Nat.cast_zero] at hf
    omega
  | succ n ih =>
    intro board depth maxDepth isMax alpha beta hb hd hf
    have hms := generateLegalMoves_eq hb (if isMax then WHITE else BLACK)
    generalize (if (allJumps board (if isMax then WHITE else BLACK)).isEmpty
      then allSteps board (if isMax then WHITE else BLACK)
      else allJumps board (if isMax then WHITE else BLACK)) = ms at hms
    obtain ⟨e, he, hel, heh⟩ := evaluateBoard_bounded hb
    by_cases hterm : depth = maxDepth ∨ ms.isEmpty = true
    · exact ⟨e, by rw [alphaBeta_terminal hms hterm]; exact he, hel, heh⟩
    · have hne : ms ≠ [] := isEmpty_false_ne_nil hterm
      have hd2 : depth + 1 ≤ maxDepth := by
        have : depth ≠ maxDepth := fun h => hterm (Or.inl h)
        omega
      have hf2 : maxDepth - (depth + 1) < (n : Int) := by
        push_cast at hf
        omega
      have hchild : ∀ isMax2 : Bool, ∀ m ∈ ms, ∃ nb, applyMove board m = some nb ∧
          ∀ a b : Int, ∃ v, alphaBeta n nb (depth + 1) maxDepth isMax2 a b = some v ∧
            -192 ≤ v ∧ v ≤ 192 := by
        intro isMax2 m hm
        obtain ⟨nb, hnb, hnb8⟩ := applyMove_generated hb hms hm
        exact ⟨nb, hnb, fun a b => ih nb (depth + 1) maxDepth isMax2 a b hnb8 hd2 hf2⟩
      cases isMax with
      | true =>
        simp only [if_true] at hms
        obtain ⟨v, hv, -, hvh, hvl⟩ := maxLoop_total
          (fun nb a b => alphaBeta n nb (depth + 1) maxDepth false a b) board (-192) 192 ms
          (hchild false) INT_MIN alpha beta
        refine ⟨v, by rw [alphaBeta_max_step hms hterm]; exact hv, hvl hne, ?_⟩
        have h2 : max INT_MIN 192 = 192 := by decide
        rw [h2] at hvh
        exact hvh
      | false =>
        simp only [Bool.false_eq_true, if_false] at hms
        obtain ⟨v, hv, -, hvl, hvh⟩ := minLoop_total
          (fun nb a b => alphaBeta n nb (depth + 1) maxDepth true a b) board (-192) 192 ms
          (hchild true) INT_MAX alpha beta
        refine ⟨v, by rw [alphaBeta_min_step hms hterm]; exact hv, ?_, hvh hne⟩
        have h2 : min INT_MAX (-192) = -192 := by decide
        rw [h2] at hvl
        exact hvl

theorem findBestLoop_total (fuel : Nat) (board : CheckersBoard) (maxDepth beta : Int)
    (ms : List Move)
    (H : ∀ m ∈ ms, ∃ nb, applyMove board m = some nb ∧
      ∀ a b : Int, ∃ v, alphaBeta fuel nb 0 maxDepth false a b = some v) :
    ∀ (bv : Int) (bm : Move) (alpha : Int),
      ∃ r, findBestLoop fuel board maxDepth beta ms bv bm alpha = some r := by
  induction ms with
  | nil =>
    intro bv bm alpha
    exact ⟨bm, rfl⟩
  | cons m rest ih =>
    intro bv bm alpha
    obtain ⟨nb, hnb, hchild⟩ := H m (List.mem_cons_self _ _)
    obtain ⟨v, hv⟩ := hchild alpha beta
    rw [findBestLoop]
    simp only [hnb, hv, Option.bind_eq_bind, Option.some_bind]
    have ih2 := ih (fun x hx => H x (List.mem_cons_of_mem _ hx))
    by_cases hgt : v > bv
    · rw [if_pos hgt]
      exact ih2 _ _ _
    · rw [if_neg hgt]
      exact ih2 _ _ _

/-- More fuel does not change a value that the search returned. -/
theorem maxLoop_mono {child1 child2 : CheckersBoard → Int → Int → Option Int}
    (hc : ∀ nb a b v, child1 nb a b = some v → child2 nb a b = some v)
    (board : CheckersBoard) (ms : List Move) :
    ∀ (best alpha beta v : Int), maxLoop child1 board ms best alpha beta = some v →
      maxLoop child2 board ms best alpha beta = some v := by
  induction ms with
  | nil =>
    intro best alpha beta v h
    exact h
  | cons m rest ih =>
    intro best alpha beta v h
    unfold maxLoop at h ⊢
    cases hnb : applyMove board m with
    | none => rw [hnb] at h; cases h
    | some nb =>
      rw [hnb] at h
      simp only [Option.bind_eq_bind, Option.some_bind] at h ⊢
      cases hv1 : child1 nb alpha beta with
      | none => rw [hv1] at h; cases h
      | some v1 =>
        rw [hv1] at h
        rw [hc nb alpha beta v1 hv1]
        simp only [Option.some_bind] at h ⊢
        by_cases hcut : beta ≤ max alpha (max best v1)
        · rw [if_pos hcut] at h ⊢
          exact h
        · rw [if_neg hcut] at h ⊢
          exact ih _ _ _ _ h

theorem minLoop_mono {child1 child2 : CheckersBoard → Int → Int → Option Int}
    (hc : ∀ nb a b v, child1 nb a b = some v → child2 nb a b = some v)
    (board : CheckersBoard) (ms : List Move) :
    ∀ (best alpha beta v : Int), minLoop child1 board ms best alpha beta = some v →
      minLoop child2 board ms best alpha beta = some v := by
  induction ms with
  | nil =>
    intro best alpha beta v h
    exact h
  | cons m rest ih =>
    intro best alpha beta v h
    unfold minLoop at h ⊢
    cases hnb : applyMove board m with
    | none => rw [hnb] at h; cases h
    | some nb =>
      rw [hnb] at h
      simp only [Option.bind_eq_bind, Option.some_bind] at h ⊢
      cases hv1 : child1 nb alpha beta with
      | none => rw [hv1] at h; cases h
      | some v1 =>
        rw [hv1] at h
        rw [hc nb alpha beta v1 hv1]
        simp only [Option.some_bind] at h ⊢
        by_cases hcut : min beta (min best v1) ≤ alpha
        · rw [if_pos hcut] at h ⊢
          exact h
        · rw [if_neg hcut] at h ⊢
          exact ih _ _ _ _ h

theorem alphaBeta_fuel_succ (fuel : Nat) :
    ∀ (board : CheckersBoard) (depth maxDepth : Int) (isMax : Bool) (alpha beta v : Int),
      alphaBeta fuel board depth maxDepth isMax alpha beta = some v →
      alphaBeta (fuel + 1) board depth maxDepth isMax alpha beta = some v := by
  induction fuel with
  | zero =>
    intro board depth maxDepth isMax alpha beta v h
    rw [alphaBeta] at h
    cases h
  | succ n ih =>
    intro board depth maxDepth isMax alpha beta v h
    rw [alphaBeta] at h ⊢
    cases hms : generateLegalMoves board (if isMax = true then WHITE else BLACK) with
    | none => rw [hms] at h; cases h
    | some ms =>
      rw [hms] at h
      simp only [Option.bind_eq_bind, Option.some_bind] at h ⊢
      by_cases hterm : depth = maxDepth ∨ ms.isEmpty = true
      · rw [if_pos hterm] at h ⊢
        exact h
      · rw [if_neg hterm] at h ⊢
        cases isMax with
        | true =>
          simp only [if_true] at h ⊢
          exact maxLoop_mono (fun nb a b v hv => ih nb _ _ _ a b v hv) board ms _ _ _ _ h
        | false =>
          simp only [Bool.false_eq_true, if_false] at h ⊢
          exact minLoop_mono (fun nb a b v hv => ih nb _ _ _ a b v hv) board ms _ _ _ _ h

theorem alphaBeta_fuel_add (fuel extra : Nat) (board : CheckersBoard) (depth maxDepth : Int)
    (isMax : Bool) (alpha beta v : Int)
    (h : alphaBeta fuel board depth maxDepth isMax alpha beta = some v) :
    alphaBeta (fuel + extra) board depth maxDepth isMax alpha beta = some v := by
  induction extra with
  | zero => exact h
  | succ k ih => exact alphaBeta_fuel_succ (fuel + k) board depth maxDepth isMax alpha beta v ih

/-- C19. Termination of the search: on an 8x8 board, for every window, either
side to move and all `depth ≤ maxDepth`, `alphaBeta` returns a value as soon as
the fuel (the bound on nested calls) exceeds the measure `maxDepth - depth`,
and any further fuel leaves that value unchanged; consequently `findBestMove`
returns a move for every `maxDepth ≥ 0` once the fuel exceeds `maxDepth`. -/
theorem search_terminates (board : CheckersBoard) (hb : is8x8 board) :
    (∀ (fuel : Nat) (depth maxDepth : Int) (isMaximizingPlayer : Bool) (alpha beta : Int),
      depth ≤ maxDepth → maxDepth - depth < fuel →
      ∃ v, alphaBeta fuel board depth maxDepth isMaximizingPlayer alpha beta = some v ∧
        ∀ extra : Nat,
          alphaBeta (fuel + extra) board depth maxDepth isMaximizingPlayer alpha beta
            = some v) ∧
    (∀ (fuel : Nat) (maxDepth : Int), 0 ≤ maxDepth → maxDepth < fuel →
      ∃ r, findBestMove fuel board maxDepth = some r) := by
  constructor
  · intro fuel depth maxDepth isMax alpha beta hd hf
    obtain ⟨v, hv, -⟩ := alphaBeta_total fuel board depth maxDepth isMax alpha beta hb hd hf
    exact ⟨v, hv, fun extra => alphaBeta_fuel_add fuel extra board depth maxDepth isMax
      alpha beta v hv⟩
  · intro fuel maxDepth h0 hf
    have hms := generateLegalMoves_eq hb WHITE
    generalize (if (allJumps board WHITE).isEmpty then allSteps board WHITE
      else allJumps board WHITE) = ms at hms
    rw [findBestMove_unfold hms]
    apply findBestLoop_total
    intro m hm
    obtain ⟨nb, hnb, hnb8⟩ := applyMove_generated hb hms hm
    refine ⟨nb, hnb, fun a b => ?_⟩
    obtain ⟨v, hv, -⟩ := alphaBeta_total fuel nb 0 maxDepth false a b hnb8 h0 (by omega)
    exact ⟨v, hv⟩

theorem search_terminates_witness :
    (∃ v, alphaBeta 3 openingBoard 0 2 true 5 (-5) = some v ∧
        ∀ extra : Nat, alphaBeta (3 + extra) openingBoard 0 2 true 5 (-5) = some v) ∧
    (∃ r, findBestMove 3 openingBoard 2 = some r) :=
  ⟨(search_terminates openingBoard (by decide)).1 3 0 2 true 5 (-5) (by decide) (by decide),
   (search_terminates openingBoard (by decide)).2 3 2 (by decide) (by decide)⟩

/-! ## Claims on the initial board, the invariant and the scenario -/

/-- C15. Initial layout: `initializeBoard` returns an 8x8 board in which the
square (r,c) holds a Black man when r is in 0..2 and r+c is odd, a White man
when r is in 5..7 and r+c is odd, and is empty otherwise; it holds exactly 12
Black men, exactly 12 White men and no king. -/
theorem initializeBoard_layout :
    ∃ board, initializeBoard = some board ∧ is8x8 board ∧
      (∀ r c : Int, 0 ≤ r → r < 8 → 0 ≤ c → c < 8 →
        getCell board r c =
          some (if r ≤ 2 ∧ (r + c) % 2 = 1 then BLACK_PIECE
                else if 5 ≤ r ∧ (r + c) % 2 = 1 then WHITE_PIECE else EMPTY_SQUARE)) ∧
      countPiece board BLACK_PIECE = 12 ∧ countPiece board WHITE_PIECE = 12 ∧
      countPiece board WHITE_KING = 0 ∧ countPiece board BLACK_KING = 0 := by
  refine ⟨openingBoard, by decide, by decide, ?_, by decide, by decide, by decide, by decide⟩
  have h : ∀ r ∈ intRange 0 8, ∀ c ∈ intRange 0 8, getCell openingBoard r c =
      some (if r ≤ 2 ∧ (r + c) % 2 = 1 then BLACK_PIECE
            else if 5 ≤ r ∧ (r + c) % 2 = 1 then WHITE_PIECE else EMPTY_SQUARE) := by
    decide
  intro r c hr0 hr hc0 hc
  exact h r ((mem_intRange 0 8 r).2 ⟨hr0, hr⟩) c ((mem_intRange 0 8 c).2 ⟨hc0, hc⟩)

theorem initializeBoard_layout_witness :
    ∃ board, initializeBoard = some board ∧ getCell board 5 0 = some WHITE_PIECE ∧
      getCell board 0 1 = some BLACK_PIECE ∧ getCell board 3 0 = some EMPTY_SQUARE := by
  obtain ⟨board, hinit, -, hcell, -⟩ := initializeBoard_layout
  refine ⟨board, hinit, ?_, ?_, ?_⟩
  · rw [hcell 5 0 (by decide) (by decide) (by decide) (by decide)]
    decide
  · rw [hcell 0 1 (by decide) (by decide) (by decide) (by decide)]
    decide
  · rw [hcell 3 0 (by decide) (by decide) (by decide) (by decide)]
    decide

/-- What scenario 2 of the specification claims, refuted: on the board with a
White man on (4,4) and a Black man on (3,3), `isValidMove` rejects the move
(4,4) -> (2,2) for White. -/
theorem scenario2_rejected :
    getCell scenarioBoard 4 4 = some WHITE_PIECE ∧
    getCell scenarioBoard 3 3 = some BLACK_PIECE ∧
    getCell scenarioBoard 2 2 = some EMPTY_SQUARE ∧
    isValidMove scenarioBoard ⟨4, 4, 2, 2, true, [(3, 3)]⟩ WHITE = some false := by
  decide

/-- C18 (amended). On the board of scenario 2 as stated (White man on (4,4), Black
man on (3,3)) the squares (4,4) and (2,2) are light squares, which
`isValidSquare` rejects, so `isValidMove` returns `false` for (4,4) -> (2,2)
and no move is generated; `applyMove` of that move with captured square (3,3)
still empties (4,4) and (3,3) and puts the White man on (2,2).  On dark
squares the scenario holds: with a White man on (4,5) and a Black man on
(3,4), `isValidMove` accepts (4,5) -> (2,3) for White, the generated move
carries the captured square (3,4), and `applyMove` empties (4,5) and (3,4) and
puts the White man on (2,3). -/
theorem scenario2_on_dark_squares :
    (isValidSquare 4 4 = false ∧ isValidSquare 2 2 = false ∧
      isValidMove scenarioBoard ⟨4, 4, 2, 2, true, [(3, 3)]⟩ WHITE = some false ∧
      generateLegalMoves scenarioBoard WHITE = some [] ∧
      ∃ b2, applyMove scenarioBoard ⟨4, 4, 2, 2, true, [(3, 3)]⟩ = some b2 ∧
        getCell b2 4 4 = some EMPTY_SQUARE ∧ getCell b2 3 3 = some EMPTY_SQUARE ∧
        getCell b2 2 2 = some WHITE_PIECE) ∧
    (getCell scenarioDarkBoard 4 5 = some WHITE_PIECE ∧
      getCell scenarioDarkBoard 3 4 = some BLACK_PIECE ∧
      isValidMove scenarioDarkBoard ⟨4, 5, 2, 3, true, [(3, 4)]⟩ WHITE = some true ∧
      generateLegalMoves scenarioDarkBoard WHITE = some [⟨4, 5, 2, 3, true, [(3, 4)]⟩] ∧
      ∃ b2, applyMove scenarioDarkBoard ⟨4, 5, 2, 3, true, [(3, 4)]⟩ = some b2 ∧
        getCell b2 4 5 = some EMPTY_SQUARE ∧ getCell b2 3 4 = some EMPTY_SQUARE ∧
        getCell b2 2 3 = some WHITE_PIECE) := by
  refine ⟨⟨by decide, by decide, by decide, by decide, ?_⟩,
    ⟨by decide, by decide, by decide, by decide, ?_⟩⟩
  · exact ⟨(applyMove scenarioBoard ⟨4, 4, 2, 2, true, [(3, 3)]⟩).getD [], by decide,
      by decide, by decide, by decide⟩
  · exact ⟨(applyMove scenarioDarkBoard ⟨4, 5, 2, 3, true, [(3, 4)]⟩).getD [], by decide,
      by decide, by decide, by decide⟩

theorem applyMove_keeps_lightEmpty {board b2 : CheckersBoard} {m : Move}
    (hl : lightEmpty board) (he : isValidSquare m.endRow m.endCol = true)
    (h : applyMove board m = some b2) : lightEmpty b2 := by
  intro r hr c hc heven
  obtain ⟨piece, -, hcell⟩ := getCell_applyMove h r c
  have he2 := (isValidSquare_iff _ _).1 he
  have hne : ¬ (r = m.endRow ∧ c = m.endCol) := by
    rintro ⟨h1, h2⟩
    subst h1
    subst h2
    omega
  rw [hcell]
  simp only [hne, false_and, if_false]
  by_cases hcap : (r, c) ∈ m.capturedPieces
  · rw [if_pos hcap]
  · rw [if_neg hcap]
    by_cases hst : r = m.startRow ∧ c = m.startCol
    · rw [if_pos hst]
    · rw [if_neg hst]
      exact hl r hr c hc heven

theorem reachable_invariant {board : CheckersBoard} (h : Reachable board) :
    is8x8 board ∧ lightEmpty board := by
  induction h with
  | initial board hinit =>
    have h0 : initializeBoard = some openingBoard := by decide
    rw [h0] at hinit
    cases hinit
    exact ⟨by decide, by decide⟩
  | validated board b2 m player _ hval hcaps happ ih =>
    obtain ⟨hs, he, -⟩ := (isValidMove_true_iff _ _ _).1 hval
    obtain ⟨b3, hb3, hb38⟩ := applyMove_some_of_is8x8 ih.1 m hs he hcaps
    rw [happ] at hb3
    cases hb3
    exact ⟨hb38, applyMove_keeps_lightEmpty ih.2 he happ⟩
  | generated board b2 m player moves _ hg hm happ ih =>
    obtain ⟨b3, hb3, hb38⟩ := applyMove_generated ih.1 hg hm
    rw [happ] at hb3
    cases hb3
    obtain ⟨-, he, -⟩ := (isValidMove_true_iff _ _ _).1 (valid_of_generated ih.1 hg hm)
    exact ⟨hb38, applyMove_keeps_lightEmpty ih.2 he happ⟩

/-- C14. Dark-square occupancy invariant: the board built by `initializeBoard`
has every light square empty; on an 8x8 board whose light squares are all
empty, for every move that `isValidMove` accepts and whose captured squares
lie inside the board, `applyMove` returns an 8x8 board whose light squares are
again all empty; hence every board reachable from the initial board by
validated or generated moves is 8x8 with all light squares empty. -/
theorem lightEmpty_invariant :
    (∃ board, initializeBoard = some board ∧ lightEmpty board) ∧
    (∀ (board : CheckersBoard) (m : Move) (player : Char),
      is8x8 board → lightEmpty board → isValidMove board m player = some true →
      (∀ sq ∈ m.capturedPieces, 0 ≤ sq.1 ∧ sq.1 < 8 ∧ 0 ≤ sq.2 ∧ sq.2 < 8) →
      ∃ b2, applyMove board m = some b2 ∧ is8x8 b2 ∧ lightEmpty b2) ∧
    (∀ board, Reachable board → is8x8 board ∧ lightEmpty board) := by
  refine ⟨⟨openingBoard, by decide, by decide⟩, ?_, fun board h => reachable_invariant h⟩
  intro board m player hb hl hval hcaps
  obtain ⟨hs, he, -⟩ := (isValidMove_true_iff _ _ _).1 hval
  obtain ⟨b2, hb2, hb28⟩ := applyMove_some_of_is8x8 hb m hs he hcaps
  exact ⟨b2, hb2, hb28, applyMove_keeps_lightEmpty hl he hb2⟩

theorem lightEmpty_invariant_witness :
    ∃ b2, applyMove captureBoard ⟨5, 2, 3, 4, true, [(4, 3), (0, 0)]⟩ = some b2 ∧
      is8x8 b2 ∧ lightEmpty b2 :=
  lightEmpty_invariant.2.1 captureBoard ⟨5, 2, 3, 4, true, [(4, 3), (0, 0)]⟩ WHITE
    (by decide) (by decide) (by decide) (by decide)

/-! ## Material evaluation -/

theorem foldlM_congr_mem {α β : Type} (f g : β → α → Option β) (xs : List α)
    (h : ∀ x ∈ xs, ∀ s, f s x = g s x) (s : β) : xs.foldlM f s = xs.foldlM g s := by
  induction xs generalizing s with
  | nil => rfl
  | cons x xs ih =>
    rw [List.foldlM_cons, List.foldlM_cons, h x (List.mem_cons_self _ _)]
    cases g s x with
    | none => rfl
    | some s2 => exact ih (fun y hy => h y (List.mem_cons_of_mem _ hy)) s2

/-- A loop over the indices of a list that adds `val` of each element. -/
theorem range_foldlM_sum {α : Type} (g : Int → α → Option Int) (val : α → Int)
    (l : List α) (hg : ∀ a ∈ l, ∀ s, g s a = some (s + val a)) (s0 : Int) :
    (List.range l.length).foldlM (fun s k => (l[k]?).bind (g s)) s0
      = some (s0 + (l.map val).sum) := by
  induction l using List.reverseRecOn generalizing s0 with
  | nil => simp
  | append_singleton l a ih =>
    rw [List.length_append, List.length_singleton, List.range_succ, List.foldlM_append]
    have hcongr : (List.range l.length).foldlM
        (fun s k => ((l ++ [a])[k]?).bind (g s)) s0
        = (List.range l.length).foldlM (fun s k => (l[k]?).bind (g s)) s0 := by
      apply foldlM_congr_mem
      intro k hk s
      rw [List.mem_range] at hk
      rw [List.getElem?_append_left hk]
    rw [hcongr, ih (fun x hx s => hg x (List.mem_append_left _ hx) s) s0]
    simp only [Option.bind_eq_bind, Option.some_bind, List.foldlM_cons, List.foldlM_nil]
    have hlast : (l ++ [a])[l.length]? = some a := by
      rw [List.getElem?_append_right (le_refl _)]
      simp
    rw [hlast]
    simp only [Option.some_bind]
    rw [hg a (List.mem_append_right _ (List.mem_singleton.2 rfl))]
    simp only [pure, Option.some_bind, List.map_append, List.sum_append, List.map_cons,
      List.map_nil, List.sum_cons, List.sum_nil, add_zero, Option.bind_some]
    rw [add_assoc]

/-- The same loop written, as in the source, over `for (int i = 0; i < hi; ++i)`. -/
theorem intRange_foldlM_sum {α : Type} (f : Int → Int → Option Int)
    (g : Int → α → Option Int) (val : α → Int) (l : List α) (hi : Int)
    (hlen : (hi - 0).toNat = l.length)
    (hf : ∀ (k : Nat) (a : α), l[k]? = some a → ∀ s, f s (0 + (k : Int)) = g s a)
    (hg : ∀ a ∈ l, ∀ s, g s a = some (s + val a)) (s0 : Int) :
    (intRange 0 hi).foldlM f s0 = some (s0 + (l.map val).sum) := by
  unfold intRange
  rw [List.foldlM_map, hlen, ← range_foldlM_sum g val l hg s0]
  apply foldlM_congr_mem
  intro k hk s
  rw [List.mem_range] at hk
  rw [List.getElem?_eq_getElem hk]
  simp only [Option.some_bind]
  exact hf k _ (List.getElem?_eq_getElem hk) s

theorem cellStep_eq (c : Char) (s : Int) :
    (if c = WHITE_PIECE then some (s + 1)
      else if c = WHITE_KING then some (s + 3)
      else if c = BLACK_PIECE then some (s - 1)
      else if c = BLACK_KING then some (s - 3)
      else some s : Option Int) = some (s + pieceValue c) := by
  unfold pieceValue
  split_ifs <;> simp <;> omega

theorem getCell_of_row {board : CheckersBoard} {i : Nat} {cells : List Char}
    (hrow : board[i]? = some cells) (k : Nat) :
    getCell board (0 + (i : Int)) (0 + (k : Int)) = cells[k]? := by
  unfold getCell
  rw [if_neg (by omega)]
  have e1 : (0 + (i : Int)).toNat = i := by omega
  have e2 : (0 + (k : Int)).toNat = k := by omega
  rw [e1, e2, hrow]

theorem evaluateLoops_eq (board : CheckersBoard) (hi wi : Int)
    (hlen : (hi - 0).toNat = board.length)
    (hw : ∀ cells ∈ board, (wi - 0).toNat = cells.length) (s0 : Int) :
    (intRange 0 hi).foldlM (fun score i =>
      (intRange 0 wi).foldlM (fun score j => do
        let c ← getCell board i j
        if c = WHITE_PIECE then some (score + 1)
        else if c = WHITE_KING then some (score + 3)
        else if c = BLACK_PIECE then some (score - 1)
        else if c = BLACK_KING then some (score - 3)
        else some score) score) s0
      = some (s0 + (board.map (fun cells => (cells.map pieceValue).sum)).sum) := by
  apply intRange_foldlM_sum _
    (fun s (cells : List Char) => some (s + (cells.map pieceValue).sum))
    (fun cells => (cells.map pieceValue).sum) board hi hlen
  · intro i cells hrow s
    apply intRange_foldlM_sum _ (fun s (c : Char) => some (s + pieceValue c)) pieceValue
      cells wi (hw cells (List.getElem?_mem hrow))
    · intro k c hc s2
      rw [getCell_of_row hrow k, hc]
      simp only [Option.bind_eq_bind, Option.some_bind]
      exact cellStep_eq c s2
    · intro c _ s2
      rfl
  · intro cells _ s
    rfl

theorem rowValue_eq_counts (cells : List Char) :
    (cells.map pieceValue).sum =
      (cells.count WHITE_PIECE : Int) + 3 * (cells.count WHITE_KING : Int)
        - (cells.count BLACK_PIECE : Int) - 3 * (cells.count BLACK_KING : Int) := by
  induction cells with
  | nil => simp
  | cons c rest ih =>
    rw [List.map_cons, List.sum_cons, ih]
    simp only [List.count_cons]
    unfold pieceValue
    rcases piece_cases c with h | h | h | h | ⟨n1, n2, n3, n4⟩
    · subst h
      simp [piece_ne]
      omega
    · subst h
      simp [piece_ne]
      omega
    · subst h
      simp [piece_ne]
      omega
    · subst h
      simp [piece_ne]
      omega
    · simp [n1, n2, n3, n4]

theorem boardValue_eq_counts (board : CheckersBoard) :
    (board.map (fun cells => (cells.map pieceValue).sum)).sum =
      (countPiece board WHITE_PIECE : Int) + 3 * (countPiece board WHITE_KING : Int)
        - (countPiece board BLACK_PIECE : Int) - 3 * (countPiece board BLACK_KING : Int) := by
  unfold countPiece
  induction board with
  | nil => simp
  | cons cells rest ih =>
    simp only [List.map_cons, List.sum_cons]
    rw [ih, rowValue_eq_counts]
    push_cast
    ring

/-- C16. Material evaluation: on an 8x8 board `evaluateBoard` returns the number
of White men plus three times the number of White kings minus the number of
Black men minus three times the number of Black kings, counted over all 64
squares; on the board built by `initializeBoard` it returns 0. -/
theorem evaluateBoard_material :
    (∀ board : CheckersBoard, is8x8 board →
      evaluateBoard board =
        some ((countPiece board WHITE_PIECE : Int) + 3 * (countPiece board WHITE_KING : Int)
          - (countPiece board BLACK_PIECE : Int) - 3 * (countPiece board BLACK_KING : Int))) ∧
    (∃ board, initializeBoard = some board ∧ evaluateBoard board = some 0) := by
  constructor
  · intro board hb
    have h8 : ((8 : Int) - 0).toNat = 8 := by decide
    have hlen : ((8 : Int) - 0).toNat = board.length := by rw [hb.1]; exact h8
    have hw : ∀ cells ∈ board, ((8 : Int) - 0).toNat = cells.length := by
      intro cells hc
      rw [hb.2 cells hc]
      exact h8
    have h := evaluateLoops_eq board 8 8 hlen hw 0
    rw [zero_add, boardValue_eq_counts] at h
    unfold evaluateBoard
    exact h
  · exact ⟨openingBoard, by decide, by decide⟩

theorem evaluateBoard_material_witness :
    evaluateBoard captureBoard =
      some ((countPiece captureBoard WHITE_PIECE : Int)
        + 3 * (countPiece captureBoard WHITE_KING : Int)
        - (countPiece captureBoard BLACK_PIECE : Int)
        - 3 * (countPiece captureBoard BLACK_KING : Int)) :=
  evaluateBoard_material.1 captureBoard (by decide)

/-! ## Claims on windows and value ranges -/

/-- C21. Fail-soft guarantee for an arbitrary window: on an 8x8 board, for
`depth ≤ maxDepth`, either side to move and every window `alpha < beta`, the
search returns a value `v` and the unpruned minimax returns a value `t` such
that `v = t` when `alpha < v < beta`, `t ≤ v` when `v ≤ alpha`, and `v ≤ t` when
`beta ≤ v`.  Outside the window `v` is only a bound: on `boundBoard`, Black to
move, one ply, window `(0, 5)`, the search returns -2 and minimax -4. -/
theorem alphaBeta_fail_soft :
    (∀ (fuel : Nat) (board : CheckersBoard) (depth maxDepth : Int)
      (isMaximizingPlayer : Bool) (alpha beta : Int),
      is8x8 board → depth ≤ maxDepth → maxDepth - depth < fuel → alpha < beta →
      ∃ v t, alphaBeta fuel board depth maxDepth isMaximizingPlayer alpha beta = some v ∧
        minimax fuel board depth maxDepth isMaximizingPlayer = some t ∧
        (alpha < v → v < beta → v = t) ∧ (v ≤ alpha → t ≤ v) ∧ (beta ≤ v → v ≤ t)) ∧
    (alphaBeta 2 boundBoard 0 1 false 0 5 = some (-2) ∧
      minimax 2 boundBoard 0 1 false = some (-4)) := by
  constructor
  · intro fuel board depth maxDepth isMax alpha beta hb hd hf hab
    obtain ⟨t, ht, -, -, hall⟩ := alphaBeta_spec fuel board depth maxDepth isMax hb hd hf
    obtain ⟨v, hv, -, -, hfs⟩ := hall alpha beta hab
    exact ⟨v, t, hv, ht, hfs.2.1, hfs.1, hfs.2.2⟩
  · exact ⟨by decide, by decide⟩

theorem alphaBeta_fail_soft_witness :
    ∃ v t, alphaBeta 2 boundBoard 0 1 false 0 5 = some v ∧
      minimax 2 boundBoard 0 1 false = some t ∧
      ((0 : Int) < v → v < 5 → v = t) ∧ (v ≤ 0 → t ≤ v) ∧ (5 ≤ v → v ≤ t) :=
  alphaBeta_fail_soft.1 2 boundBoard 0 1 false 0 5 (by decide) (by decide) (by decide)
    (by decide)

/-! ## Range of the values of the search -/

/-- Two loops agree when their bodies agree on accumulators within `[-M, M]` and
each step moves the accumulator by at most `k`. -/
theorem foldlM_agree_bounded {α : Type} (f g : Int → α → Option Int) (k M : Int)
    (xs : List α)
    (hf : ∀ s, ∀ x ∈ xs, ∃ s2, f s x = some s2 ∧ s - k ≤ s2 ∧ s2 ≤ s + k)
    (hg : ∀ s, ∀ x ∈ xs, -M ≤ s → s ≤ M → g s x = f s x) (s : Int)
    (hs1 : -(M - k * xs.length) ≤ s) (hs2 : s ≤ M - k * xs.length) (hk : 0 ≤ k) :
    xs.foldlM g s = xs.foldlM f s := by
  induction xs generalizing s with
  | nil => rfl
  | cons x xs ih =>
    rw [List.length_cons] at hs1 hs2
    push_cast at hs1 hs2
    have hlen : (0 : Int) ≤ (xs.length : Int) := Int.ofNat_nonneg _
    have hkl : 0 ≤ k * (xs.length : Int) := mul_nonneg hk hlen
    obtain ⟨s2, h2, h2a, h2b⟩ := hf s x (List.mem_cons_self _ _)
    rw [List.foldlM_cons, List.foldlM_cons,
      hg s x (List.mem_cons_self _ _) (by linarith) (by linarith), h2]
    exact ih (fun s y hy => hf s y (List.mem_cons_of_mem _ hy))
      (fun s y hy => hg s y (List.mem_cons_of_mem _ hy)) s2 (by linarith) (by linarith)

theorem addChecked_eq {s d : Int} (h1 : INT_MIN ≤ s + d) (h2 : s + d ≤ INT_MAX) :
    addChecked s d = some (s + d) := by
  unfold addChecked
  rw [if_pos ⟨h1, h2⟩]

theorem cellChecked_eq (board : CheckersBoard) (i j s : Int)
    (h1 : -2147483000 ≤ s) (h2 : s ≤ 2147483000) :
    (do
      let c ← getCell board i j
      if c = WHITE_PIECE then addChecked s 1
      else if c = WHITE_KING then addChecked s 3
      else if c = BLACK_PIECE then addChecked s (-1)
      else if c = BLACK_KING then addChecked s (-3)
      else some s : Option Int) =
    (do
      let c ← getCell board i j
      if c = WHITE_PIECE then some (s + 1)
      else if c = WHITE_KING then some (s + 3)
      else if c = BLACK_PIECE then some (s - 1)
      else if c = BLACK_KING then some (s - 3)
      else some s : Option Int) := by
  have hmin : INT_MIN = -2147483648 := rfl
  have hmax : INT_MAX = 2147483647 := rfl
  cases getCell board i j with
  | none => rfl
  | some c =>
    simp only [Option.bind_eq_bind, Option.some_bind]
    rw [addChecked_eq (by rw [hmin]; omega) (by rw [hmax]; omega),
      addChecked_eq (by rw [hmin]; omega) (by rw [hmax]; omega),
      addChecked_eq (by rw [hmin]; omega) (by rw [hmax]; omega),
      addChecked_eq (by rw [hmin]; omega) (by rw [hmax]; omega)]
    rfl

theorem evaluateChecked_rows_eq {board : CheckersBoard} (hb : is8x8 board)
    (rows cols : List Int) (hrows : ∀ i ∈ rows, 0 ≤ i ∧ i < 8)
    (hcols : ∀ j ∈ cols, j ∈ intRange 0 8)
    (hrl : (rows.length : Int) ≤ 8) (hcl : (cols.length : Int) ≤ 8) :
    rows.foldlM (fun score i =>
      cols.foldlM (fun score j => do
        let c ← getCell board i j
        if c = WHITE_PIECE then addChecked score 1
        else if c = WHITE_KING then addChecked score 3
        else if c = BLACK_PIECE then addChecked score (-1)
        else if c = BLACK_KING then addChecked score (-3)
        else some score) score) 0 =
    rows.foldlM (fun score i =>
      cols.foldlM (fun score j => do
        let c ← getCell board i j
        if c = WHITE_PIECE then some (score + 1)
        else if c = WHITE_KING then some (score + 3)
        else if c = BLACK_PIECE then some (score - 1)
        else if c = BLACK_KING then some (score - 3)
        else some score) score) 0 := by
  have hcell : ∀ i ∈ rows, ∀ s : Int, ∀ j ∈ cols, ∃ s2 : Int,
      (do
        let c ← getCell board i j
        if c = WHITE_PIECE then some (s + 1)
        else if c = WHITE_KING then some (s + 3)
        else if c = BLACK_PIECE then some (s - 1)
        else if c = BLACK_KING then some (s - 3)
        else some s : Option Int) = some s2 ∧ s - 3 ≤ s2 ∧ s2 ≤ s + 3 :=
    fun i hi s j hj => evaluateCell_bounded hb i (hrows i hi) s j (hcols j hj)
  have hclen : (0 : Int) ≤ (cols.length : Int) := Int.ofNat_nonneg _
  have hrlen : (0 : Int) ≤ (rows.length : Int) := Int.ofNat_nonneg _
  apply foldlM_agree_bounded _ _ 24 2147482000 rows
  · intro s i hi
    obtain ⟨s2, h2, h2a, h2b⟩ := foldlM_bounded _ 3 cols (fun s j hj => hcell i hi s j hj) s
    exact ⟨s2, h2, by linarith, by linarith⟩
  · intro s i hi hs1 hs2
    apply foldlM_agree_bounded _ _ 3 2147483000 cols
    · exact fun s j hj => hcell i hi s j hj
    · intro s2 j _ h1 h2
      exact cellChecked_eq board i j s2 h1 h2
    · linarith
    · linarith
    · decide
  · linarith
  · linarith
  · decide

theorem evaluateBoardChecked_eq {board : CheckersBoard} (hb : is8x8 board) :
    evaluateBoardChecked board = evaluateBoard board := by
  unfold evaluateBoardChecked evaluateBoard
  have hlen : ((intRange 0 8).length : Int) = 8 := by
    rw [length_intRange]; decide
  generalize hR : intRange 0 8 = R at hlen
  have hmem : ∀ j ∈ R, j ∈ intRange 0 8 := by
    intro j hj
    rw [hR]; exact hj
  exact evaluateChecked_rows_eq hb R R
    (fun i hi => (mem_intRange 0 8 i).1 (hmem i hi)) hmem (le_of_eq hlen) (le_of_eq hlen)

/-- C23. Search values never collide with the sentinels: on an 8x8 board
`evaluateBoard` returns a value in `[-192, 192]`, and computes it without any
overflow of the running score (the evaluation with checked additions returns the
same value); for `depth ≤ maxDepth`, either side to move and every `alpha`,
`beta` (also `alpha ≥ beta`), `alphaBeta` returns a value in `[-192, 192]`,
hence neither `INT_MIN` nor `INT_MAX`; and in `findBestMove` the value of the
first root move is greater than the initial `bestVal = INT_MIN`. -/
theorem search_values_in_range (board : CheckersBoard) (hb : is8x8 board) :
    (∃ e, evaluateBoard board = some e ∧ -192 ≤ e ∧ e ≤ 192 ∧
      evaluateBoardChecked board = some e) ∧
    (∀ (fuel : Nat) (depth maxDepth : Int) (isMaximizingPlayer : Bool) (alpha beta : Int),
      depth ≤ maxDepth → maxDepth - depth < fuel →
      ∃ v, alphaBeta fuel board depth maxDepth isMaximizingPlayer alpha beta = some v ∧
        -192 ≤ v ∧ v ≤ 192 ∧ v ≠ INT_MIN ∧ v ≠ INT_MAX) ∧
    (∀ (fuel : Nat) (maxDepth : Int) (m : Move) (rest : List Move),
      0 ≤ maxDepth → maxDepth < fuel →
      generateLegalMoves board WHITE = some (m :: rest) →
      ∃ newBoard moveVal, applyMove board m = some newBoard ∧
        alphaBeta fuel newBoard 0 maxDepth false INT_MIN INT_MAX = some moveVal ∧
        moveVal > INT_MIN) := by
  have hmin : INT_MIN = -2147483648 := rfl
  have hmax : INT_MAX = 2147483647 := rfl
  refine ⟨?_, ?_, ?_⟩
  · obtain ⟨e, he, hel, heh⟩ := evaluateBoard_bounded hb
    exact ⟨e, he, hel, heh, by rw [evaluateBoardChecked_eq hb]; exact he⟩
  · intro fuel depth maxDepth isMax alpha beta hd hf
    obtain ⟨v, hv, hvl, hvh⟩ :=
      alphaBeta_total fuel board depth maxDepth isMax alpha beta hb hd hf
    refine ⟨v, hv, hvl, hvh, ?_, ?_⟩
    · rw [hmin]; omega
    · rw [hmax]; omega
  · intro fuel maxDepth m rest h0 hf hg
    obtain ⟨nb, hnb, hnb8⟩ := applyMove_generated hb hg (List.mem_cons_self _ _)
    obtain ⟨v, hv, hvl, -⟩ :=
      alphaBeta_total fuel nb 0 maxDepth false INT_MIN INT_MAX hnb8 h0 (by omega)
    exact ⟨nb, v, hnb, hv, by rw [hmin]; omega⟩

theorem search_values_in_range_witness :
    ∃ v, alphaBeta 3 openingBoard 0 2 true 7 (-7) = some v ∧
      -192 ≤ v ∧ v ≤ 192 ∧ v ≠ INT_MIN ∧ v ≠ INT_MAX :=
  (search_values_in_range openingBoard (by decide)).2.1 3 0 2 true 7 (-7)
    (by decide) (by decide)

/-! ## Colour symmetry -/

theorem swapColour_swapColour (c : Char) : swapColour (swapColour c) = c := by
  rcases piece_cases c with h | h | h | h | ⟨n1, n2, n3, n4⟩
  · subst h; decide
  · subst h; decide
  · subst h; decide
  · subst h; decide
  · have e : swapColour c = c := by
      unfold swapColour
      rw [if_neg n1, if_neg n3, if_neg n2, if_neg n4]
    rw [e, e]

theorem swapColour_empty : swapColour EMPTY_SQUARE = EMPTY_SQUARE := by decide

theorem swapColour_cases (c : Char) :
    (c = WHITE_PIECE ∧ swapColour c = BLACK_PIECE) ∨
    (c = WHITE_KING ∧ swapColour c = BLACK_KING) ∨
    (c = BLACK_PIECE ∧ swapColour c = WHITE_PIECE) ∨
    (c = BLACK_KING ∧ swapColour c = WHITE_KING) ∨
    ((c ≠ WHITE_PIECE ∧ c ≠ WHITE_KING ∧ c ≠ BLACK_PIECE ∧ c ≠ BLACK_KING) ∧
      swapColour c = c) := by
  rcases piece_cases c with h | h | h | h | ⟨n1, n2, n3, n4⟩
  · exact Or.inl ⟨h, by rw [h]; decide⟩
  · exact Or.inr (Or.inl ⟨h, by rw [h]; decide⟩)
  · exact Or.inr (Or.inr (Or.inl ⟨h, by rw [h]; decide⟩))
  · exact Or.inr (Or.inr (Or.inr (Or.inl ⟨h, by rw [h]; decide⟩)))
  · refine Or.inr (Or.inr (Or.inr (Or.inr ⟨⟨n1, n2, n3, n4⟩, ?_⟩)))
    unfold swapColour
    rw [if_neg n1, if_neg n3, if_neg n2, if_neg n4]

theorem otherPlayer_ne_white_iff (p : Char) : otherPlayer p = WHITE ↔ p ≠ WHITE := by
  unfold otherPlayer
  by_cases h : p = WHITE
  · rw [if_pos h]
    exact ⟨fun h2 => absurd h2 (by decide), fun h2 => absurd h h2⟩
  · rw [if_neg h]
    exact ⟨fun _ => h, fun _ => rfl⟩

theorem ownedBy_swap {p c : Char} (h : ownedBy p c) : ownedBy (otherPlayer p) (swapColour c) := by
  unfold ownedBy at h ⊢
  by_cases hp : p = WHITE
  · rw [if_pos hp] at h
    have hne : ¬ otherPlayer p = WHITE := fun h2 => (otherPlayer_ne_white_iff p).1 h2 hp
    rw [if_neg hne]
    rcases h with h | h <;> subst h
    · left; decide
    · right; decide
  · rw [if_neg hp] at h
    rw [if_pos ((otherPlayer_ne_white_iff p).2 hp)]
    rcases h with h | h <;> subst h
    · left; decide
    · right; decide

theorem opposes_swap {p c : Char} (h : opposes p c) : opposes (otherPlayer p) (swapColour c) := by
  unfold opposes at h ⊢
  by_cases hp : p = WHITE
  · rw [if_pos hp] at h
    have hne : ¬ otherPlayer p = WHITE := fun h2 => (otherPlayer_ne_white_iff p).1 h2 hp
    rw [if_neg hne]
    rcases h with h | h <;> subst h
    · left; decide
    · right; decide
  · rw [if_neg hp] at h
    rw [if_pos ((otherPlayer_ne_white_iff p).2 hp)]
    rcases h with h | h <;> subst h
    · left; decide
    · right; decide

theorem is8x8_flipBoard {board : CheckersBoard} (hb : is8x8 board) : is8x8 (flipBoard board) := by
  unfold flipBoard
  constructor
  · rw [List.length_map, List.length_reverse]
    exact hb.1
  · intro cells hc
    rw [List.mem_map] at hc
    obtain ⟨row, hrow, rfl⟩ := hc
    rw [List.length_map, List.length_reverse]
    exact hb.2 row (List.mem_reverse.1 hrow)

theorem flipBoard_flipBoard (board : CheckersBoard) : flipBoard (flipBoard board) = board := by
  unfold flipBoard
  rw [← List.map_reverse, List.reverse_reverse, List.map_map]
  have h : ((fun cells : List Char => cells.reverse.map swapColour) ∘
      (fun cells : List Char => cells.reverse.map swapColour)) = id := by
    funext cells
    simp only [Function.comp_apply, id]
    rw [← List.map_reverse, List.reverse_reverse, List.map_map]
    have h2 : (swapColour ∘ swapColour) = id := by
      funext c
      exact swapColour_swapColour c
    rw [h2, List.map_id]
  rw [h, List.map_id]

theorem flipMove_flipMove (m : Move) : flipMove (flipMove m) = m := by
  cases m with
  | mk sr sc er ec cap caps =>
    unfold flipMove
    simp only [List.map_map]
    have h : ((fun sq : Int × Int => (7 - sq.1, 7 - sq.2)) ∘
        (fun sq : Int × Int => (7 - sq.1, 7 - sq.2))) = id := by
      funext sq
      simp only [Function.comp_apply, id]
      exact Prod.ext (by simp) (by simp)
    rw [h, List.map_id]
    congr 1 <;> omega

theorem getCell_flipBoard {board : CheckersBoard} (hb : is8x8 board) {r c : Int}
    (hr0 : 0 ≤ r) (hr : r < 8) (hc0 : 0 ≤ c) (hc : c < 8) :
    getCell (flipBoard board) (7 - r) (7 - c) = (getCell board r c).map swapColour := by
  unfold getCell flipBoard
  rw [if_neg (by omega), if_neg (by omega)]
  have hlen := hb.1
  have h1 : (7 - r).toNat < board.length := by omega
  have e1 : board.length - 1 - (7 - r).toNat = r.toNat := by omega
  rw [List.getElem?_map, List.getElem?_reverse h1, e1]
  have h2 : r.toNat < board.length := by omega
  rw [List.getElem?_eq_getElem h2]
  simp only [Option.map_some']
  have hrow : (board[r.toNat]).length = 8 := hb.2 _ (List.getElem_mem _)
  have h3 : (7 - c).toNat < (board[r.toNat]).length := by omega
  have e2 : (board[r.toNat]).length - 1 - (7 - c).toNat = c.toNat := by omega
  rw [List.getElem?_map, List.getElem?_reverse h3, e2]

theorem isValidSquare_flip {r c : Int} (h : isValidSquare r c = true) :
    isValidSquare (7 - r) (7 - c) = true := by
  rw [isValidSquare_iff] at h ⊢
  omega

theorem tdiv_two_flip {a b : Int} (h : (a - b).natAbs = 2) :
    ((7 - a) - (7 - b)).tdiv 2 = -((a - b).tdiv 2) := by
  have h2 : a - b = 2 ∨ a - b = -2 := by omega
  rcases h2 with e | e
  · have e2 : (7 - a) - (7 - b) = -2 := by omega
    rw [e, e2]; decide
  · have e2 : (7 - a) - (7 - b) = 2 := by omega
    rw [e, e2]; decide

/-- A move accepted for a player is accepted, flipped, for the other player on
the flipped board. -/
theorem isValidMove_flip_of_valid {board : CheckersBoard} (hb : is8x8 board) {m : Move}
    {p : Char} (h : isValidMove board m p = some true) :
    isValidMove (flipBoard board) (flipMove m) (otherPlayer p) = some true := by
  obtain ⟨hs, he, piece, hp, ho, ht, hr⟩ := (isValidMove_true_iff _ _ _).1 h
  have hs2 := (isValidSquare_iff _ _).1 hs
  have he2 := (isValidSquare_iff _ _).1 he
  rw [isValidMove_true_iff]
  refine ⟨isValidSquare_flip hs, isValidSquare_flip he, swapColour piece, ?_, ownedBy_swap ho,
    ?_, ?_⟩
  · show getCell (flipBoard board) (7 - m.startRow) (7 - m.startCol) = some (swapColour piece)
    rw [getCell_flipBoard hb hs2.1 hs2.2.1 hs2.2.2.1 hs2.2.2.2.1, hp]
    rfl
  · show getCell (flipBoard board) (7 - m.endRow) (7 - m.endCol) = some EMPTY_SQUARE
    rw [getCell_flipBoard hb he2.1 he2.2.1 he2.2.2.1 he2.2.2.2.1, ht]
    rfl
  · rcases hr with hst | hj
    · left
      obtain ⟨hc, hrow⟩ := hst
      unfold stepRule
      show ((7 - m.endCol) - (7 - m.startCol)).natAbs = 1 ∧
        ((swapColour piece = WHITE_PIECE ∧ (7 - m.endRow) - (7 - m.startRow) = -1) ∨
         (swapColour piece = BLACK_PIECE ∧ (7 - m.endRow) - (7 - m.startRow) = 1) ∨
         ((swapColour piece = WHITE_KING ∨ swapColour piece = BLACK_KING) ∧
           ((7 - m.endRow) - (7 - m.startRow)).natAbs = 1))
      refine ⟨by omega, ?_⟩
      rcases hrow with ⟨a, b⟩ | ⟨a, b⟩ | ⟨a, b⟩
      · right; left
        exact ⟨by rw [a]; decide, by omega⟩
      · left
        exact ⟨by rw [a]; decide, by omega⟩
      · right; right
        refine ⟨?_, by omega⟩
        rcases a with a | a
        · right; rw [a]; decide
        · left; rw [a]; decide
    · right
      obtain ⟨h1, h2, hmid, jumped, hjp, hop⟩ := hj
      have hmid2 := (isValidSquare_iff _ _).1 hmid
      have er : (7 - m.startRow) + ((7 - m.endRow) - (7 - m.startRow)).tdiv 2
          = 7 - (m.startRow + (m.endRow - m.startRow).tdiv 2) := by
        rw [tdiv_two_flip h1]; omega
      have ec : (7 - m.startCol) + ((7 - m.endCol) - (7 - m.startCol)).tdiv 2
          = 7 - (m.startCol + (m.endCol - m.startCol).tdiv 2) := by
        rw [tdiv_two_flip h2]; omega
      unfold jumpRule
      show ((7 - m.endRow) - (7 - m.startRow)).natAbs = 2 ∧
        ((7 - m.endCol) - (7 - m.startCol)).natAbs = 2 ∧
        isValidSquare ((7 - m.startRow) + ((7 - m.endRow) - (7 - m.startRow)).tdiv 2)
          ((7 - m.startCol) + ((7 - m.endCol) - (7 - m.startCol)).tdiv 2) = true ∧
        ∃ jumped, getCell (flipBoard board)
            ((7 - m.startRow) + ((7 - m.endRow) - (7 - m.startRow)).tdiv 2)
            ((7 - m.startCol) + ((7 - m.endCol) - (7 - m.startCol)).tdiv 2) = some jumped ∧
          opposes (otherPlayer p) jumped
      rw [er, ec]
      refine ⟨by omega, by omega, isValidSquare_flip hmid, swapColour jumped, ?_, opposes_swap hop⟩
      rw [getCell_flipBoard hb hmid2.1 hmid2.2.1 hmid2.2.2.1 hmid2.2.2.2.1, hjp]
      rfl

theorem isValidMove_flip_eq {board : CheckersBoard} (hb : is8x8 board) (m : Move) (p : Char)
    (hpp : otherPlayer (otherPlayer p) = p) :
    isValidMove (flipBoard board) (flipMove m) (otherPlayer p) = isValidMove board m p := by
  obtain ⟨x, hx⟩ := isValidMove_total (is8x8_flipBoard hb) (flipMove m) (otherPlayer p)
  obtain ⟨y, hy⟩ := isValidMove_total hb m p
  rw [hx, hy]
  cases x with
  | true =>
    have h := isValidMove_flip_of_valid (is8x8_flipBoard hb) hx
    rw [flipBoard_flipBoard, flipMove_flipMove, hpp, hy] at h
    exact h.symm
  | false =>
    cases y with
    | false => rfl
    | true =>
      have h := isValidMove_flip_of_valid hb hy
      rw [hx] at h
      exact h

theorem pieceValue_swapColour (c : Char) : pieceValue (swapColour c) = -pieceValue c := by
  rcases swapColour_cases c with ⟨h, e⟩ | ⟨h, e⟩ | ⟨h, e⟩ | ⟨h, e⟩ | ⟨⟨n1, n2, n3, n4⟩, e⟩
  · rw [e, h]; decide
  · rw [e, h]; decide
  · rw [e, h]; decide
  · rw [e, h]; decide
  · rw [e]
    unfold pieceValue
    rw [if_neg n1, if_neg n2, if_neg n3, if_neg n4]
    rfl

theorem rowValue_flip (cells : List Char) :
    ((cells.reverse.map swapColour).map pieceValue).sum = -(cells.map pieceValue).sum := by
  rw [List.map_map, List.map_reverse, List.sum_reverse]
  induction cells with
  | nil => simp
  | cons c rest ih =>
    simp only [List.map_cons, List.sum_cons, Function.comp_apply]
    rw [ih, pieceValue_swapColour]
    ring

theorem boardValue_flip (board : CheckersBoard) :
    ((flipBoard board).map (fun cells => (cells.map pieceValue).sum)).sum
      = -(board.map (fun cells => (cells.map pieceValue).sum)).sum := by
  unfold flipBoard
  rw [List.map_map, List.map_reverse, List.sum_reverse]
  induction board with
  | nil => simp
  | cons cells rest ih =>
    simp only [List.map_cons, List.sum_cons, Function.comp_apply]
    rw [ih, rowValue_flip]
    ring

theorem evaluateBoard_eq_sum {board : CheckersBoard} (hb : is8x8 board) :
    evaluateBoard board = some ((board.map (fun cells => (cells.map pieceValue).sum)).sum) := by
  have h8 : ((8 : Int) - 0).toNat = 8 := by decide
  have hlen : ((8 : Int) - 0).toNat = board.length := by rw [hb.1]; exact h8
  have hw : ∀ cells ∈ board, ((8 : Int) - 0).toNat = cells.length := by
    intro cells hc
    rw [hb.2 cells hc]
    exact h8
  have h := evaluateLoops_eq board 8 8 hlen hw 0
  rw [zero_add] at h
  unfold evaluateBoard
  exact h

/-- C24. Colour symmetry of the rules: `flipBoard` turns an 8x8 board by 180
degrees and exchanges the colours (its cell (7-r,7-c) is the recoloured cell
(r,c) of the board) and `flipMove` maps every coordinate (r,c) to (7-r,7-c);
then `isValidMove` gives for the flipped board, the flipped move and Black what
it gives for the board, the move and White, and likewise with the players
exchanged, and `evaluateBoard` of the flipped board is the opposite of
`evaluateBoard` of the board. -/
theorem colour_symmetry (board : CheckersBoard) (hb : is8x8 board) (m : Move) :
    isValidMove (flipBoard board) (flipMove m) BLACK = isValidMove board m WHITE ∧
    isValidMove (flipBoard board) (flipMove m) WHITE = isValidMove board m BLACK ∧
    (∃ e, evaluateBoard board = some e ∧ evaluateBoard (flipBoard board) = some (-e)) ∧
    is8x8 (flipBoard board) ∧
    (∀ r c : Int, 0 ≤ r → r < 8 → 0 ≤ c → c < 8 →
      getCell (flipBoard board) (7 - r) (7 - c) = (getCell board r c).map swapColour) := by
  refine ⟨?_, ?_, ?_, is8x8_flipBoard hb, fun r c h1 h2 h3 h4 => getCell_flipBoard hb h1 h2 h3 h4⟩
  · exact isValidMove_flip_eq hb m WHITE (by decide)
  · exact isValidMove_flip_eq hb m BLACK (by decide)
  · refine ⟨_, evaluateBoard_eq_sum hb, ?_⟩
    rw [evaluateBoard_eq_sum (is8x8_flipBoard hb), boardValue_flip]

theorem colour_symmetry_witness :
    isValidMove (flipBoard captureBoard) (flipMove ⟨5, 2, 3, 4, true, [(4, 3)]⟩) BLACK
      = isValidMove captureBoard ⟨5, 2, 3, 4, true, [(4, 3)]⟩ WHITE :=
  (colour_symmetry captureBoard (by decide) ⟨5, 2, 3, 4, true, [(4, 3)]⟩).1

/-! ## Piece counts under writes -/

theorem sum_map_set {α : Type} (f : α → Nat) (l : List α) (i : Nat) (a old : α)
    (h : l[i]? = some old) : ((l.set i a).map f).sum + f old = (l.map f).sum + f a := by
  induction l generalizing i with
  | nil => cases h
  | cons y ys ih =>
    cases i with
    | zero =>
      simp only [List.getElem?_cons_zero, Option.some.injEq] at h
      subst h
      simp only [List.set_cons_zero, List.map_cons, List.sum_cons]
      omega
    | succ k =>
      simp only [List.getElem?_cons_succ] at h
      simp only [List.set_cons_succ, List.map_cons, List.sum_cons]
      have := ih k h
      omega

theorem count_set (l : List Char) (j : Nat) (v old x : Char) (h : l[j]? = some old) :
    (l.set j v).count x + (if old = x then 1 else 0)
      = l.count x + (if v = x then 1 else 0) := by
  induction l generalizing j with
  | nil => cases h
  | cons y ys ih =>
    cases j with
    | zero =>
      simp only [List.getElem?_cons_zero, Option.some.injEq] at h
      subst h
      simp only [List.set_cons_zero, List.count_cons, beq_iff_eq]
      omega
    | succ k =>
      simp only [List.getElem?_cons_succ] at h
      simp only [List.set_cons_succ, List.count_cons]
      have := ih k h
      omega

theorem countPiece_setCell {board b2 : CheckersBoard} {row col : Int} {v old : Char}
    (h : setCell board row col v = some b2) (hold : getCell board row col = some old)
    (x : Char) :
    countPiece b2 x + (if old = x then 1 else 0)
      = countPiece board x + (if v = x then 1 else 0) := by
  unfold setCell at h
  unfold getCell at hold
  by_cases hneg : row < 0 ∨ col < 0
  · rw [if_pos hneg] at h; cases h
  · rw [if_neg hneg] at h hold
    cases hrow : board[row.toNat]? with
    | none => rw [hrow] at h; cases h
    | some cells =>
      rw [hrow] at h hold
      simp only at h hold
      by_cases hlen : col.toNat < cells.length
      · rw [if_pos hlen] at h
        cases h
        unfold countPiece
        have h1 := sum_map_set (fun cells : List Char => cells.count x) board row.toNat
          (cells.set col.toNat v) cells hrow
        have h2 := count_set cells col.toNat v old x hold
        simp only at h1
        omega
      · rw [if_neg hlen] at h; cases h

theorem applyMove_steps {board b2 : CheckersBoard} {m : Move}
    (h : applyMove board m = some b2) :
    ∃ piece b1 b3 b4, getCell board m.startRow m.startCol = some piece ∧
      setCell board m.endRow m.endCol piece = some b1 ∧
      setCell b1 m.startRow m.startCol EMPTY_SQUARE = some b3 ∧
      m.capturedPieces.foldlM (fun newBoard captured =>
        setCell newBoard captured.1 captured.2 EMPTY_SQUARE) b3 = some b4 ∧
      ((promoted piece m.endRow ≠ piece ∧
          setCell b4 m.endRow m.endCol (promoted piece m.endRow) = some b2) ∨
       (promoted piece m.endRow = piece ∧ b4 = b2)) := by
  unfold applyMove at h
  dsimp only at h
  cases hp : getCell board m.startRow m.startCol with
  | none => rw [hp] at h; cases h
  | some piece =>
    rw [hp] at h
    simp only [Option.bind_eq_bind, Option.some_bind] at h
    cases h1 : setCell board m.endRow m.endCol piece with
    | none => rw [h1] at h; cases h
    | some b1 =>
      rw [h1] at h
      simp only [Option.some_bind] at h
      cases h2 : setCell b1 m.startRow m.startCol EMPTY_SQUARE with
      | none => rw [h2] at h; cases h
      | some b3 =>
        rw [h2] at h
        simp only [Option.some_bind] at h
        cases h3 : m.capturedPieces.foldlM (fun newBoard captured =>
            setCell newBoard captured.1 captured.2 EMPTY_SQUARE) b3 with
        | none => rw [h3] at h; cases h
        | some b4 =>
          rw [h3] at h
          simp only [Option.some_bind] at h
          refine ⟨piece, b1, b3, b4, rfl, h1, h2, h3, ?_⟩
          unfold promoted
          by_cases hw : piece = WHITE_PIECE ∧ m.endRow = 0
          · rw [if_pos hw] at h
            rw [if_pos hw]
            exact Or.inl ⟨by rw [hw.1]; decide, h⟩
          · rw [if_neg hw] at h
            rw [if_neg hw]
            by_cases hbk : piece = BLACK_PIECE ∧ m.endRow = 7
            · rw [if_pos hbk] at h
              rw [if_pos hbk]
              exact Or.inl ⟨by rw [hbk.1]; decide, h⟩
            · rw [if_neg hbk] at h
              rw [if_neg hbk]
              cases h
              exact Or.inr ⟨rfl, rfl⟩

/-- Count of the cells holding `x` after a generated move: the moved `piece`
leaves and its promoted form arrives, and the captured piece `gone` (the empty
content for a non-capture) is replaced by an empty square. -/
theorem countPiece_applyMove_generated {board : CheckersBoard} (hb : is8x8 board)
    {player : Char} {moves : List Move} (hg : generateLegalMoves board player = some moves)
    {m : Move} (hm : m ∈ moves) :
    ∃ piece b2 gone, getCell board m.startRow m.startCol = some piece ∧ ownedBy player piece ∧
      applyMove board m = some b2 ∧
      (m.isCapture = false → gone = EMPTY_SQUARE) ∧
      (m.isCapture = true → opposes player gone) ∧
      ∀ x : Char,
        countPiece b2 x + (if piece = x then 1 else 0) + (if gone = x then 1 else 0)
          = countPiece board x + (if promoted piece m.endRow = x then 1 else 0)
            + (if EMPTY_SQUARE = x then 1 else 0) := by
  obtain ⟨b2, hb2, -⟩ := applyMove_generated hb hg hm
  obtain ⟨hval, hshape⟩ := generated_cases hb hg hm
  obtain ⟨-, -, piece, hp, ho, ht, hr⟩ := (isValidMove_true_iff _ _ _).1 hval
  obtain ⟨piece2, b1, b3, b4, hp2, h1, h2, h3, h4⟩ := applyMove_steps hb2
  rw [hp] at hp2
  cases hp2
  -- the three writes that every move makes
  have e1 := fun x => countPiece_setCell h1 ht x
  have hstart1 : getCell b1 m.startRow m.startCol = some piece := by
    rw [getCell_setCell h1]
    by_cases hse : m.startRow = m.endRow ∧ m.startCol = m.endCol
    · rw [if_pos hse]
    · rw [if_neg hse, hp]
  have e2 := fun x => countPiece_setCell h2 hstart1 x
  have hcell3 : ∀ r c : Int, getCell b3 r c =
      if r = m.startRow ∧ c = m.startCol then some EMPTY_SQUARE
      else if r = m.endRow ∧ c = m.endCol then some piece else getCell board r c := by
    intro r c
    rw [getCell_setCell h2, getCell_setCell h1]
  rcases hshape with ⟨r, c, rd, cd, hrd, hcd, rfl⟩ | ⟨r, c, rd, cd, hrd, hcd, rfl⟩
  · -- one-step move: nothing is captured
    cases h3
    have hend4 : getCell b3 (r + rd) (c + cd) = some piece := by
      rw [hcell3]
      have hne : ¬ (r + rd = r ∧ c + cd = c) := by omega
      simp only [hne, if_false, and_self, if_true]
    refine ⟨piece, b2, EMPTY_SQUARE, hp, ho, hb2, fun _ => rfl, (fun h => by cases h), ?_⟩
    intro x
    have e1x := e1 x
    have e2x := e2 x
    rcases h4 with ⟨-, h4⟩ | ⟨hpr, h4⟩
    · have e4 := countPiece_setCell h4 hend4 x
      simp only at e1x e2x e4 ⊢
      omega
    · subst h4
      simp only at e1x e2x hpr ⊢
      rw [hpr]
      omega
  · -- capture: the jumped square is cleared
    have hjr : jumpRule board player ⟨r, c, r + rd * 2, c + cd * 2, true, [(r + rd, c + cd)]⟩ := by
      rcases hr with hst | hj2
      · obtain ⟨-, hrow⟩ := hst
        simp only at hrow
        rcases hrow with ⟨-, h5⟩ | ⟨-, h5⟩ | ⟨-, h5⟩ <;> omega
      · exact hj2
    obtain ⟨-, -, -, jumped, hjp, hop⟩ := hjr
    simp only at hjp
    have em1 : (r + rd * 2 - r).tdiv 2 = rd := by
      rcases hrd with h | h <;> subst h <;>
        simp only [show ∀ y : Int, r + y - r = y from fun y => by omega] <;> decide
    have em2 : (c + cd * 2 - c).tdiv 2 = cd := by
      rcases hcd with h | h <;> subst h <;>
        simp only [show ∀ y : Int, c + y - c = y from fun y => by omega] <;> decide
    rw [em1, em2] at hjp
    simp only [List.foldlM_cons, List.foldlM_nil, Option.bind_eq_bind] at h3
    cases h3a : setCell b3 (r + rd) (c + cd) EMPTY_SQUARE with
    | none => rw [h3a] at h3; cases h3
    | some b5 =>
      rw [h3a] at h3
      simp only [Option.some_bind, pure] at h3
      cases h3
      have hmid3 : getCell b3 (r + rd) (c + cd) = some jumped := by
        rw [hcell3]
        have hne1 : ¬ (r + rd = r ∧ c + cd = c) := by omega
        have hne2 : ¬ (r + rd = r + rd * 2 ∧ c + cd = c + cd * 2) := by omega
        simp only [hne1, hne2, if_false]
        exact hjp
      have e3 := fun x => countPiece_setCell h3a hmid3 x
      have hend4 : getCell b4 (r + rd * 2) (c + cd * 2) = some piece := by
        rw [getCell_setCell h3a, hcell3]
        have hne1 : ¬ (r + rd * 2 = r + rd ∧ c + cd * 2 = c + cd) := by omega
        have hne2 : ¬ (r + rd * 2 = r ∧ c + cd * 2 = c) := by omega
        simp only [hne1, hne2, if_false, and_self, if_true]
      refine ⟨piece, b2, jumped, hp, ho, hb2, (fun h => by cases h), fun _ => hop, ?_⟩
      intro x
      have e1x := e1 x
      have e2x := e2 x
      have e3x := e3 x
      rcases h4 with ⟨-, h4⟩ | ⟨hpr, h4⟩
      · have e4 := countPiece_setCell h4 hend4 x
        simp only at e1x e2x e3x e4 ⊢
        omega
      · subst h4
        simp only at e1x e2x e3x hpr ⊢
        rw [hpr]
        omega

theorem empty_ne :
    EMPTY_SQUARE ≠ WHITE_PIECE ∧ EMPTY_SQUARE ≠ WHITE_KING ∧
    EMPTY_SQUARE ≠ BLACK_PIECE ∧ EMPTY_SQUARE ≠ BLACK_KING := by
  decide

theorem promoted_cases (piece : Char) (endRow : Int) :
    promoted piece endRow = piece ∨
    (piece = WHITE_PIECE ∧ promoted piece endRow = WHITE_KING) ∨
    (piece = BLACK_PIECE ∧ promoted piece endRow = BLACK_KING) := by
  unfold promoted
  by_cases hw : piece = WHITE_PIECE ∧ endRow = 0
  · rw [if_pos hw]
    exact Or.inr (Or.inl ⟨hw.1, rfl⟩)
  · rw [if_neg hw]
    by_cases hbk : piece = BLACK_PIECE ∧ endRow = 7
    · rw [if_pos hbk]
      exact Or.inr (Or.inr ⟨hbk.1, rfl⟩)
    · rw [if_neg hbk]
      exact Or.inl rfl

/-- C22. Piece conservation: for a move generated on an 8x8 board, the board
returned by `applyMove` holds as many pieces (men plus kings) of the player as
the board did, and of the opposing side exactly one less when the move is a
capture and as many otherwise; neither count increases. -/
theorem applyMove_piece_conservation (board : CheckersBoard) (hb : is8x8 board)
    (player : Char) (moves : List Move)
    (hg : generateLegalMoves board player = some moves) (m : Move) (hm : m ∈ moves) :
    ∃ b2, applyMove board m = some b2 ∧
      piecesOf b2 player = piecesOf board player ∧
      piecesAgainst b2 player + (if m.isCapture = true then 1 else 0)
        = piecesAgainst board player ∧
      piecesOf b2 player ≤ piecesOf board player ∧
      piecesAgainst b2 player ≤ piecesAgainst board player := by
  obtain ⟨piece, b2, gone, -, ho, hb2, hgoneF, hgoneT, hall⟩ :=
    countPiece_applyMove_generated hb hg hm
  have h1 := hall WHITE_PIECE
  have h2 := hall WHITE_KING
  have h3 := hall BLACK_PIECE
  have h4 := hall BLACK_KING
  have key : piecesOf b2 player = piecesOf board player ∧
      piecesAgainst b2 player + (if m.isCapture = true then 1 else 0)
        = piecesAgainst board player := by
    unfold piecesOf piecesAgainst
    unfold ownedBy at ho
    by_cases hpl : player = WHITE
    · rw [if_pos hpl] at ho
      simp only [hpl, if_true]
      cases hcap : m.isCapture with
      | false =>
        have hgone := hgoneF hcap
        subst hgone
        rcases ho with hpc | hpc <;> subst hpc <;>
          rcases promoted_cases _ m.endRow with hpr | ⟨hq, hpr⟩ | ⟨hq, hpr⟩ <;>
          first
            | (exfalso; revert hq; decide)
            | (rw [hpr] at h1 h2 h3 h4
               simp [piece_ne, empty_ne] at h1 h2 h3 h4 ⊢
               omega)
      | true =>
        have hop := hgoneT hcap
        unfold opposes at hop
        rw [if_pos hpl] at hop
        rcases hop with hgn | hgn <;> subst hgn <;>
          rcases ho with hpc | hpc <;> subst hpc <;>
          rcases promoted_cases _ m.endRow with hpr | ⟨hq, hpr⟩ | ⟨hq, hpr⟩ <;>
          first
            | (exfalso; revert hq; decide)
            | (rw [hpr] at h1 h2 h3 h4
               simp [piece_ne, empty_ne] at h1 h2 h3 h4 ⊢
               omega)
    · rw [if_neg hpl] at ho
      simp only [hpl, if_false]
      cases hcap : m.isCapture with
      | false =>
        have hgone := hgoneF hcap
        subst hgone
        rcases ho with hpc | hpc <;> subst hpc <;>
          rcases promoted_cases _ m.endRow with hpr | ⟨hq, hpr⟩ | ⟨hq, hpr⟩ <;>
          first
            | (exfalso; revert hq; decide)
            | (rw [hpr] at h1 h2 h3 h4
               simp [piece_ne, empty_ne] at h1 h2 h3 h4 ⊢
               omega)
      | true =>
        have hop := hgoneT hcap
        unfold opposes at hop
        rw [if_neg hpl] at hop
        rcases hop with hgn | hgn <;> subst hgn <;>
          rcases ho with hpc | hpc <;> subst hpc <;>
          rcases promoted_cases _ m.endRow with hpr | ⟨hq, hpr⟩ | ⟨hq, hpr⟩ <;>
          first
            | (exfalso; revert hq; decide)
            | (rw [hpr] at h1 h2 h3 h4
               simp [piece_ne, empty_ne] at h1 h2 h3 h4 ⊢
               omega)
  refine ⟨b2, hb2, key.1, key.2, le_of_eq key.1, ?_⟩
  have := key.2
  omega

theorem applyMove_piece_conservation_witness :
    ∃ b2, applyMove captureBoard ⟨5, 2, 3, 4, true, [(4, 3)]⟩ = some b2 ∧
      piecesOf b2 WHITE = piecesOf captureBoard WHITE ∧
      piecesAgainst b2 WHITE + (if true = true then 1 else 0)
        = piecesAgainst captureBoard WHITE ∧
      piecesOf b2 WHITE ≤ piecesOf captureBoard WHITE ∧
      piecesAgainst b2 WHITE ≤ piecesAgainst captureBoard WHITE :=
  applyMove_piece_conservation captureBoard (by decide) WHITE
    [⟨5, 2, 3, 4, true, [(4, 3)]⟩] (by decide) ⟨5, 2, 3, 4, true, [(4, 3)]⟩ (by decide)
end Checkers
